import Mathlib

/-!
Verification development for the `garp` repository: a shallow embedding of
the CH-graph views, the hitting-set engine, the bidirectional CH Dijkstra
and the WSPD construction, together with theorems settling the claims
about them.

Conventions of the embedding:
* Rust `usize`/`NodeId`/`EdgeId` are modelled as `Nat`.
* Rust `u64` path weights and histogram entries are modelled as `Nat`;
  every concrete run appearing in a theorem below keeps all values far
  below `2^64` and performs no underflowing subtraction, so `Nat`
  arithmetic (with truncated subtraction) agrees with `u64` arithmetic
  on those runs.  General theorems carry explicit bounds where needed.
* Rust `u32` edge costs in the Dijkstra are modelled as `Nat` with an
  explicit `% 2^32` wherever the Rust code adds two costs, since
  overflow there is observable.
* `Vec<T>` is a `List`; out-of-range reads use `List.getD` (the Rust
  code would panic; all theorems stay in range via validity hypotheses).
* `FxHashSet` results are modelled as sorted duplicate-free lists; the
  orders of iteration the Rust code leaves unspecified are only ever
  consumed by order-insensitive folds (sums, clearing, seeding a sorted
  deduplicated vector), which is proved or checked where it matters.
-/

namespace Garp

/-- `paths.rs` `CHEdgeList`: a weighted compressed path, a list of edge ids. -/
structure CHEdgeList where
  weight : Nat
  list : List Nat
deriving DecidableEq, Repr

/-- `graph/fmigraph.rs` `FMIEdge` (already converted to `Option` children as in
`From<FMIEdge>`): source, target, cost and the two optional child edge ids.
The `-1` sentinel of the text format is already mapped to `none`. -/
structure FMIEdge where
  source : Nat
  target : Nat
  cost : Nat
  child1 : Option Nat
  child2 : Option Nat
deriving DecidableEq, Repr

instance : Inhabited FMIEdge := ⟨⟨0, 0, 0, none, none⟩⟩

/-- The parsed graph: a dense node count and the edge list (edge id =
position in the list, as the construction in `hsgraph.rs` asserts). -/
structure FMIGraph where
  numNodes : Nat
  edges : List FMIEdge
deriving DecidableEq, Repr

/-- An edge is a base edge when it does not have both children
(`if let (Some(c1), Some(c2))` fails), exactly as the Rust code tests. -/
def FMIEdge.isBase (e : FMIEdge) : Bool :=
  match e.child1, e.child2 with
  | some _, some _ => false
  | _, _ => true

/-- `hsgraph.rs` `Edge`: id, endpoints, children and meta-DAG parents. -/
structure HSEdge where
  id : Nat
  source : Nat
  target : Nat
  child1 : Option Nat
  child2 : Option Nat
  parents : List Nat
deriving DecidableEq, Repr

instance : Inhabited HSEdge := ⟨⟨0, 0, 0, none, none, []⟩⟩

/-- `hsgraph.rs` `Node`: id and the incident base edges (meta-DAG parents). -/
structure HSNode where
  id : Nat
  parents : List Nat
deriving DecidableEq, Repr

instance : Inhabited HSNode := ⟨⟨0, []⟩⟩

/-- `hsgraph.rs` `ToporderedGraph`: edges stored sorted by topological
order, plus the `edge_id_map` sending an edge id to its position. -/
structure ToporderedGraph where
  nodes : List HSNode
  edges : List HSEdge
  edgeIdMap : List Nat
deriving DecidableEq, Repr

def ToporderedGraph.numNodes (g : ToporderedGraph) : Nat := g.nodes.length

def ToporderedGraph.numEdges (g : ToporderedGraph) : Nat := g.edges.length

/-- `BaseGraph::edge` for `ToporderedGraph`: `&self.edges[self.edge_id_map[id]]`. -/
def ToporderedGraph.edge (g : ToporderedGraph) (id : Nat) : HSEdge :=
  g.edges.getD (g.edgeIdMap.getD id 0) default

/-- `BaseGraph::node`: `&self.nodes[id]`. -/
def ToporderedGraph.node (g : ToporderedGraph) (id : Nat) : HSNode :=
  g.nodes.getD id default

/-- `HSGraph::toporder`: `self.edge_id_map[edge_id]`. -/
def ToporderedGraph.toporder (g : ToporderedGraph) (id : Nat) : Nat :=
  g.edgeIdMap.getD id 0

/-!  Construction of the meta-DAG view (`impl From<FMIGraph> for ToporderedGraph`). -/

/-- One step of the parents computation: edge `idx` is either a shortcut
(recorded as a parent of both children) or a base edge (recorded as a
parent of both endpoint nodes).  `st = (nodeParents, edgeParents)`. -/
def listPush (l : List (List Nat)) (i : Nat) (v : Nat) : List (List Nat) :=
  l.set i (l.getD i [] ++ [v])

def parentsStep (st : List (List Nat) × List (List Nat)) (p : Nat × FMIEdge) :
    List (List Nat) × List (List Nat) :=
  match p.2.child1, p.2.child2 with
  | some c1, some c2 => (st.1, listPush (listPush st.2 c1 p.1) c2 p.1)
  | _, _ => (listPush (listPush st.1 p.2.source p.1) p.2.target p.1, st.2)

/-- The parents data of the construction: for every node the incident base
edges, for every edge the shortcuts having it as a child, both in edge id
order as the Rust loop produces them. -/
def computeParents (g : FMIGraph) : List (List Nat) × List (List Nat) :=
  g.edges.enum.foldl parentsStep
    (List.replicate g.numNodes [], List.replicate g.edges.length [])

/-- `top_sort_rec`: depth-first postorder on the shortcut→child relation.
`fuel` bounds the recursion depth; every call site supplies enough fuel
(one more than the number of edges suffices, see `topSortRec_sufficient`). -/
def topSortRec (edges : List FMIEdge) : Nat → Nat → List Bool → List Bool × List Nat
  | 0, _, visited => (visited, [])
  | fuel + 1, id, visited =>
    let visited1 := visited.set id true
    match (edges.getD id default).child1, (edges.getD id default).child2 with
    | some c1, some c2 =>
      let s2 := if (visited1.getD c1 false) then (visited1, [])
                else topSortRec edges fuel c1 visited1
      let s3 := if (s2.1.getD c2 false) then (s2.1, [])
                else topSortRec edges fuel c2 s2.1
      (s3.1, s2.2 ++ s3.2 ++ [id])
    | _, _ => (visited1, [id])

/-- `edge_top_sort`'s main loop: run the DFS from every not-yet-visited
edge id in increasing order, concatenating the postorders. -/
def edgeTopSortLoop (edges : List FMIEdge) : List Nat → List Bool → List Bool × List Nat
  | [], visited => (visited, [])
  | id :: ids, visited =>
    if visited.getD id false then edgeTopSortLoop edges ids visited
    else
      let s := topSortRec edges (edges.length + 1) id visited
      let r := edgeTopSortLoop edges ids s.1
      (r.1, s.2 ++ r.2)

/-- `edge_top_sort`: DFS postorder over all edges, reversed. -/
def edgeTopSort (edges : List FMIEdge) : List Nat :=
  (edgeTopSortLoop edges (List.range edges.length) (List.replicate edges.length false)).2.reverse

/-- `edge_id_map[edge_id] = index` built from the topologically sorted id list. -/
def edgeIdMapOf (topsorted : List Nat) (m : Nat) : List Nat :=
  topsorted.enum.foldl (fun acc q => acc.set q.2 q.1) (List.replicate m 0)

/-- The `ToporderedGraph` construction from a parsed graph, mirroring
`impl From<FMIGraph> for ToporderedGraph`: compute parents, topologically
sort the edge ids, store edges in that order and keep the id → position map. -/
def toporderedOfFMI (g : FMIGraph) : ToporderedGraph :=
  let ps := computeParents g
  let topsorted := edgeTopSort g.edges
  let mkEdge := fun id =>
    let e := g.edges.getD id default
    HSEdge.mk id e.source e.target e.child1 e.child2 (ps.2.getD id [])
  { nodes := (List.range g.numNodes).map (fun i => HSNode.mk i (ps.1.getD i []))
    edges := topsorted.map mkEdge
    edgeIdMap := edgeIdMapOf topsorted g.edges.length }

/-!  The hitting-set engine (`hittingset.rs`). -/

/-- `hist[i] += v` on a `Vec<u64>` histogram. -/
def histInc (l : List Nat) (i : Nat) (v : Nat) : List Nat :=
  l.set i (l.getD i 0 + v)

/-- `hist[i] -= v` on a `Vec<u64>` histogram (all runs stated below never
underflow, where `u64` and truncated `Nat` subtraction agree). -/
def histDec (l : List Nat) (i : Nat) (v : Nat) : List Nat :=
  l.set i (l.getD i 0 - v)

/-- `hist[i] ±= v`: subtract when `update` holds, add otherwise, exactly the
`if update { … -= … } else { … += … }` pattern of both scans. -/
def histUpd (update : Bool) (l : List Nat) (i : Nat) (v : Nat) : List Nat :=
  if update then histDec l i v else histInc l i v

/-- The engine state (`struct HittingSet`): histogram, graph, the
edge → path-ids reverse index, the paths, and the adaptive threshold. -/
structure HittingSet where
  hist : List Nat
  graph : ToporderedGraph
  edgePathMap : List (List Nat)
  paths : List CHEdgeList
  adaptiveThreshold : Nat
deriving Repr

/-- `HittingSet::new_with_threshold`: build the edge → path-ids map by
scanning every path, and zero the histogram. -/
def newWithThreshold (g : ToporderedGraph) (paths : List CHEdgeList)
    (threshold : Nat) : HittingSet :=
  let epm := paths.enum.foldl
    (fun acc q => q.2.list.foldl (fun acc e => listPush acc e q.1) acc)
    (List.replicate g.numEdges [])
  { hist := List.replicate g.numNodes 0
    graph := g
    edgePathMap := epm
    paths := paths
    adaptiveThreshold := threshold }

/-- Phase 1 of both scans: for every path, count the source of the first
edge into `hist` and add the path weight to `edges_hist` for every edge
of the compressed form.  Returns `(hist, edges_hist)`. -/
def scanPhase1 (g : ToporderedGraph) (update : Bool) (paths : List CHEdgeList)
    (st : List Nat × List Nat) : List Nat × List Nat :=
  paths.foldl
    (fun st p =>
      let st1 := match p.list.head? with
        | some fe => (histUpd update st.1 (g.edge fe).source p.weight, st.2)
        | none => st
      (st1.1, p.list.foldl (fun eh e => histInc eh e p.weight) st1.2))
    st

/-- The per-edge body of phase 2 of `scan_edges_full`: a shortcut pushes
its count to both children (sequentially, as the two `+=` statements do),
a base edge counts its target node. -/
def fullStep (update : Bool) (st : List Nat × List Nat) (e : HSEdge) :
    List Nat × List Nat :=
  match e.child1, e.child2 with
  | some c1, some c2 =>
    let eh1 := histInc st.2 c1 (st.2.getD e.id 0)
    let eh2 := histInc eh1 c2 (eh1.getD e.id 0)
    (st.1, eh2)
  | _, _ => (histUpd update st.1 e.target (st.2.getD e.id 0), st.2)

/-- Phase 2 of `scan_edges_full`: walk the edges in forward topological
order applying `fullStep`. -/
def scanFullPhase2 (g : ToporderedGraph) (update : Bool)
    (st : List Nat × List Nat) : List Nat × List Nat :=
  g.edges.foldl (fullStep update) st

/-- `scan_edges_full`: reset the histogram unless updating, run phase 1
over all stored paths, then propagate through the whole topological order. -/
def scanEdgesFull (g : ToporderedGraph) (paths : List CHEdgeList)
    (hist : List Nat) (update : Bool) : List Nat :=
  let hist0 := if update then hist else List.replicate hist.length 0
  let st1 := scanPhase1 g update paths (hist0, List.replicate g.numEdges 0)
  (scanFullPhase2 g update st1).1

/-- The explorative scan's priority queue order (`CHEdgeHeapElement`):
the popped element has the smallest `prio` (toporder); prio ties pop the
larger edge id.  `heapPopBest a b` is true when `a` pops before `b`. -/
def heapPopBest (a b : Nat × Nat) : Bool :=
  if a.1 = b.1 then b.2 ≤ a.2 else a.1 < b.1

/-- Pop the best element of the (list-modelled) binary heap: the unique
maximum of `CHEdgeHeapElement`'s order.  Returns it and the rest. -/
def heapPop : List (Nat × Nat) → Option ((Nat × Nat) × List (Nat × Nat))
  | [] => none
  | x :: xs =>
    match heapPop xs with
    | none => some (x, [])
    | some (b, rest) =>
      if heapPopBest x b then some (x, b :: rest) else some (b, x :: rest)

/-- The heap-driven propagation loop of `scan_edges_explore` (step 2).
`fuel` bounds the iterations; `none` models fuel exhaustion and never
occurs in the runs stated below. -/
def exploreLoop (g : ToporderedGraph) (update : Bool) :
    Nat → List (Nat × Nat) → List Nat × List Nat → Option (List Nat × List Nat)
  | fuel, pq, st =>
    match heapPop pq with
    | none => some st
    | some (top, pq1) =>
      match fuel with
      | 0 => none
      | fuel + 1 =>
        let e := top.2
        match (g.edge e).child1, (g.edge e).child2 with
        | some c1, some c2 =>
          let pq2 := if st.2.getD c1 0 = 0 then (g.toporder c1, c1) :: pq1 else pq1
          let pq3 := if st.2.getD c2 0 = 0 then (g.toporder c2, c2) :: pq2 else pq2
          let eh1 := histInc st.2 c1 (st.2.getD e 0)
          let eh2 := histInc eh1 c2 (eh1.getD e 0)
          exploreLoop g update fuel pq3 (st.1, eh2)
        | _, _ =>
          exploreLoop g update fuel pq1
            (histUpd update st.1 (g.edge e).target (st.2.getD e 0), st.2)

/-- Insertion into a sorted list, for `unique_edges.sort()`. -/
def insSorted (x : Nat) : List Nat → List Nat
  | [] => [x]
  | y :: ys => if x ≤ y then x :: y :: ys else y :: insSorted x ys

def sortNat (l : List Nat) : List Nat := l.foldr insSorted []

/-- `sort` then `dedup` (adjacent duplicates removed). -/
def sortedDedup (l : List Nat) : List Nat := (sortNat l).dedup

/-- `scan_edges_explore`: phase 1 over the given subset (or all stored
paths), seed the heap with the distinct edges of the subset, then run the
heap-driven propagation. -/
def scanEdgesExplore (hs : HittingSet) (removedPaths : Option (List CHEdgeList))
    (update : Bool) (fuel : Nat) : Option (List Nat) :=
  let paths := match removedPaths with
    | some p => p
    | none => hs.paths
  let hist0 := if update then hs.hist else List.replicate hs.hist.length 0
  let st1 := scanPhase1 hs.graph update paths (hist0, List.replicate hs.graph.numEdges 0)
  let uniqueEdges := sortedDedup (paths.foldr (fun p acc => p.list ++ acc) [])
  let pq := uniqueEdges.map (fun e => (hs.graph.toporder e, e))
  match exploreLoop hs.graph update fuel pq st1 with
  | some st => some st.1
  | none => none

/-- `hit_paths`'s DAG climb: pop edges from the stack, collect the path
ids of `edge_path_map[edge]`, push the meta-DAG parents.  Fuelled: the
Rust loop terminates because parents strictly decrease the toporder. -/
def hitPathsLoop (hs : HittingSet) :
    Nat → List Nat → List Nat → Option (List Nat)
  | _, [], acc => some acc
  | 0, _ :: _, _ => none
  | fuel + 1, e :: queue, acc =>
    hitPathsLoop hs fuel ((hs.graph.edge e).parents.foldl (fun q p => p :: q) queue)
      (acc ++ hs.edgePathMap.getD e [])

/-- `hit_paths`: all paths containing the node, as the sorted
duplicate-free list of path ids (the `FxHashSet` of the Rust code). -/
def hitPaths (hs : HittingSet) (hitter : Nat) (fuel : Nat) : Option (List Nat) :=
  match hitPathsLoop hs fuel ((hs.graph.node hitter).parents.foldl (fun q p => p :: q) []) [] with
  | some acc => some (sortedDedup acc)
  | none => none

/-- One step of Rust's `Iterator::max_by` fold: keep the accumulator
only when it compares strictly greater, i.e. replace it on ties. -/
def pickStep (acc : Option (Nat × Nat)) (x : Nat × Nat) : Option (Nat × Nat) :=
  match acc with
  | none => some x
  | some m => if m.2 ≤ x.2 then some x else some m

/-- `max_by` over the enumerated histogram: Rust's `Iterator::max_by`
returns the *last* maximal element.  Result is `(max_id, max_occ)`. -/
def pickHitter (hist : List Nat) : Option (Nat × Nat) :=
  hist.enum.foldl pickStep none

/-- Clearing the hit paths: for every id in the hit set (in iteration
order), skip already-empty paths, otherwise record a clone and clear the
stored path in place.  Returns `(removed, paths)`. -/
def clearHitPaths (paths : List CHEdgeList) (hits : List Nat) :
    List CHEdgeList × List CHEdgeList :=
  hits.foldl
    (fun st i =>
      let p := st.2.getD i ⟨0, []⟩
      if p.list.length = 0 then st
      else (st.1 ++ [p], st.2.set i ⟨p.weight, []⟩))
    ([], paths)

/-- Result of one iteration of the main loop: the loop breaks (`stop`,
histogram all zero), advances with a new state and an output entry
(`next`), or a fuelled sub-loop gave out (`fail`, never reached below). -/
inductive StepResult where
  | stop : StepResult
  | fail : StepResult
  | next : HittingSet → Nat → Nat × Nat → StepResult
deriving Repr

/-- The adaptive scan selection of the main loop: explorative update on
the removed paths, explorative fresh scan, or the full scan, as the two
`if` tests of the Rust code choose. -/
def scanChoice (hs : HittingSet) (removed : List CHEdgeList)
    (numPaths fuel : Nat) : Option (List Nat) :=
  if removed.length < hs.adaptiveThreshold ∨ numPaths < hs.adaptiveThreshold then
    if removed.length < numPaths then
      scanEdgesExplore hs (some removed) true fuel
    else
      scanEdgesExplore hs none false fuel
  else
    some (scanEdgesFull hs.graph hs.paths hs.hist false)

/-- One iteration of the main loop of `run_with_stats_maxiter` (after the
`maxiter` check): pick the hitter, stop on a zero maximum, collect and
clear the hit paths, emit `(hitter, absorbed)` and rescan the histogram
by the adaptive strategy. -/
def runStep (hs : HittingSet) (numPaths : Nat) (fuel : Nat) : StepResult :=
  match pickHitter hs.hist with
  | none => StepResult.fail
  | some (maxId, maxOcc) =>
    if maxOcc = 0 then StepResult.stop
    else
      match hitPaths hs maxId fuel with
      | none => StepResult.fail
      | some hits =>
        let rp := clearHitPaths hs.paths hits
        let removed := rp.1
        let hs := { hs with paths := rp.2 }
        let numPaths := numPaths - removed.length
        match scanChoice hs removed numPaths fuel with
        | none => StepResult.fail
        | some hist =>
          StepResult.next { hs with hist := hist } numPaths
            (maxId, (removed.map (fun r => r.weight)).sum)

/-- The main loop of `run_with_stats_maxiter`, fuelled.  Returns the
accumulated hitting set, or `none` on fuel exhaustion. -/
def runLoop (maxiter : Option Nat) :
    Nat → HittingSet → List (Nat × Nat) → Nat → Nat → Option (List (Nat × Nat))
  | 0, _, _, _, _ => none
  | fuel + 1, hs, hittingset, numPaths, iteration =>
    let iteration := iteration + 1
    if (match maxiter with | some mi => decide (mi < iteration) | none => false) then
      some hittingset
    else
      match runStep hs numPaths (fuel + 1) with
      | StepResult.stop => some hittingset
      | StepResult.fail => none
      | StepResult.next hs2 numPaths2 entry =>
        runLoop maxiter fuel hs2 (hittingset ++ [entry]) numPaths2 iteration

/-- The engine state right after construction and the initial full scan. -/
def initialState (g : ToporderedGraph) (paths : List CHEdgeList)
    (threshold : Nat) : HittingSet :=
  let hs := newWithThreshold g paths threshold
  { hs with hist := scanEdgesFull hs.graph hs.paths hs.hist false }

/-- `run_with_stats_maxiter`: one full scan, then the main loop. -/
def runWithMaxiter (g : ToporderedGraph) (paths : List CHEdgeList)
    (threshold : Nat) (maxiter : Option Nat) (fuel : Nat) :
    Option (List (Nat × Nat)) :=
  runLoop maxiter fuel (initialState g paths threshold) [] paths.length 0

/-- The engine state (and live-path count) after `k` iterations of the
main loop, starting from the freshly scanned initial state; `none` when
the loop has already stopped or a sub-loop would give out.  `k = 0` is
the state right after the initial scan, so `iterState … k` exposes the
histogram the algorithm holds after iteration `k`. -/
def iterState (g : ToporderedGraph) (paths : List CHEdgeList)
    (threshold : Nat) (fuel : Nat) : Nat → Option (HittingSet × Nat)
  | 0 => some (initialState g paths threshold, paths.length)
  | k + 1 =>
    match iterState g paths threshold fuel k with
    | none => none
    | some (hs, numPaths) =>
      match runStep hs numPaths fuel with
      | StepResult.next hs2 numPaths2 _ => some (hs2, numPaths2)
      | _ => none

/-- The histogram after `k` iterations (`k = 0`: after the initial scan). -/
def iterHist (g : ToporderedGraph) (paths : List CHEdgeList)
    (threshold : Nat) (fuel : Nat) (k : Nat) : Option (List Nat) :=
  match iterState g paths threshold fuel k with
  | none => none
  | some (hs, _) => some hs.hist

/-- `HittingSet::run`: default threshold 400000 and no `maxiter` cap. -/
def runDefault (g : ToporderedGraph) (paths : List CHEdgeList) (fuel : Nat) :
    Option (List (Nat × Nat)) :=
  runWithMaxiter g paths 400000 none fuel

/-!  The routing view (`graph/chgraph.rs`). -/

/-- `chgraph.rs` `Edge`: the routing-view edge record. -/
structure CHGEdge where
  source : Nat
  target : Nat
  cost : Nat
  child1 : Option Nat
  child2 : Option Nat
deriving DecidableEq, Repr

instance : Inhabited CHGEdge := ⟨⟨0, 0, 0, none, none⟩⟩

/-- The routing view's `ChildEdge::child1` accessor: returns the stored
`child1` field. -/
def chgraphChild1 (e : CHGEdge) : Option Nat := e.child1

/-- The routing view's `ChildEdge::child2` accessor, exactly as written in
`chgraph.rs` (`fn child2(&self) … self.child1`): it returns the stored
`child1` field, not `child2`. -/
def chgraphChild2 (e : CHGEdge) : Option Nat := e.child1

/-- The meta-DAG view's `ChildEdge::child2` accessor (`hsgraph.rs`),
which does return the stored `child2` field. -/
def hsgraphChild2 (e : HSEdge) : Option Nat := e.child2

/-- `AdjArrayGraph::unpack_edge`: recursively expand an edge into base
edges, left child before right child.  It reads the `child1`/`child2`
*fields* directly (not the trait accessors).  Fuelled; fuel exceeding the
longest shortcut chain gives the true expansion. -/
def unpackEdge (edges : List CHGEdge) : Nat → Nat → List Nat
  | 0, e => [e]
  | fuel + 1, e =>
    match (edges.getD e default).child1, (edges.getD e default).child2 with
    | some c1, some c2 => unpackEdge edges fuel c1 ++ unpackEdge edges fuel c2
    | _, _ => [e]

/-!  The bidirectional CH Dijkstra (`dijkstra.rs`).  `u32` cost sums wrap
modulo `2^32` as in release-mode Rust; `wrap32` makes every addition
explicit. -/

def wrap32 (n : Nat) : Nat := n % (2 ^ 32)

/-- `dijkstra.rs` `HeapElement` (the `prev` data does not take part in
the ordering). -/
structure HeapElement where
  cost : Nat
  id : Nat
  prev : Option (Nat × Nat)
deriving DecidableEq, Repr

/-- `impl Ord for HeapElement`: the inverted ordering used to turn the
max-heap into a min-heap — larger cost compares `Less`; equal costs
compare by reversed id. -/
def heapElementCmp (a b : HeapElement) : Ordering :=
  match compare a.cost b.cost with
  | Ordering.gt => Ordering.lt
  | Ordering.lt => Ordering.gt
  | Ordering.eq => (compare a.id b.id).swap

/-- Rust `<=` on `HeapElement` (via `PartialOrd`): `cmp` is `Less` or `Equal`. -/
def heapElementLe (a b : HeapElement) : Bool :=
  match heapElementCmp a b with
  | Ordering.gt => false
  | _ => true

/-- The frontier selector of `ch_search_multi` when both frontiers are
nonempty: the match arm `(Some(fwd), Some(bwd)) if fwd <= bwd` runs the
*forward* step; otherwise the backward step.  `true` = forward. -/
def popsForward (fwdTop bwdTop : HeapElement) : Bool := heapElementLe fwdTop bwdTop

/-- The graph interface the Dijkstra actually consumes (`dyn CHGraph`):
edge records plus the four directional adjacency queries it calls. -/
structure CHView where
  numNodes : Nat
  edges : List CHGEdge
  outUp : Nat → List Nat
  inDown : Nat → List Nat

def CHView.edge (g : CHView) (id : Nat) : CHGEdge := g.edges.getD id default

/-- `BinaryHeap::peek`/`pop`: the maximal element w.r.t. the inverted
order, i.e. the entry with the smallest cost (ties: smallest id). -/
def dijHeapPop : List HeapElement → Option (HeapElement × List HeapElement)
  | [] => none
  | x :: xs =>
    match dijHeapPop xs with
    | none => some (x, [])
    | some (b, rest) =>
      if heapElementLe b x then some (x, b :: rest) else some (b, x :: rest)

/-- The per-direction mutable search state. -/
structure DijkstraSide where
  frontier : List HeapElement
  cost : List (Option Nat)
  prev : List (Option (Nat × Nat))
deriving Repr

/-- `ch_fwd_step`: pop, discard if settled, else settle, stall-on-demand
check over down-in-edges, and (unless stalled) relax the up-out-edges.
Returns the settled node (`none` = discarded double insertion). -/
def chFwdStep (g : CHView) (s : DijkstraSide) : Option Nat × DijkstraSide :=
  match dijHeapPop s.frontier with
  | none => (none, s)
  | some (entry, rest) =>
    match s.cost.getD entry.id none with
    | some _ => (none, { s with frontier := rest })
    | none =>
      let cost1 := s.cost.set entry.id (some entry.cost)
      let prev1 := s.prev.set entry.id entry.prev
      let stall := (g.inDown entry.id).any (fun inE =>
        match cost1.getD (g.edge inE).source none with
        | some d => decide (wrap32 (d + (g.edge inE).cost) < entry.cost)
        | none => false)
      let frontier2 :=
        if stall then rest
        else
          (g.outUp entry.id).foldl
            (fun fr e =>
              let nb := (g.edge e).target
              match cost1.getD nb none with
              | some _ => fr
              | none =>
                HeapElement.mk (wrap32 (entry.cost + (g.edge e).cost)) nb
                  (some (entry.id, e)) :: fr)
            rest
      (some entry.id, { frontier := frontier2, cost := cost1, prev := prev1 })

/-- `ch_bwd_step`: the mirrored backward step (up-out stalls, down-in
relaxations against the edge sources). -/
def chBwdStep (g : CHView) (s : DijkstraSide) : Option Nat × DijkstraSide :=
  match dijHeapPop s.frontier with
  | none => (none, s)
  | some (entry, rest) =>
    match s.cost.getD entry.id none with
    | some _ => (none, { s with frontier := rest })
    | none =>
      let cost1 := s.cost.set entry.id (some entry.cost)
      let prev1 := s.prev.set entry.id entry.prev
      let stall := (g.outUp entry.id).any (fun outE =>
        match cost1.getD (g.edge outE).target none with
        | some d => decide (wrap32 (d + (g.edge outE).cost) < entry.cost)
        | none => false)
      let frontier2 :=
        if stall then rest
        else
          (g.inDown entry.id).foldl
            (fun fr e =>
              let nb := (g.edge e).source
              match cost1.getD nb none with
              | some _ => fr
              | none =>
                HeapElement.mk (wrap32 (entry.cost + (g.edge e).cost)) nb
                  (some (entry.id, e)) :: fr)
            rest
      (some entry.id, { frontier := frontier2, cost := cost1, prev := prev1 })

/-- Walk the `prev` pointers from `peak` back to a search origin,
collecting the edges (fuelled; the chain length is below the node count). -/
def buildPath (prev : List (Option (Nat × Nat))) : Nat → Nat → List Nat
  | 0, _ => []
  | fuel + 1, id =>
    match prev.getD id none with
    | none => []
    | some (p, e) => e :: buildPath prev fuel p

/-- The u32 maximum, the initial `candidate_cost`. -/
def u32Max : Nat := 2 ^ 32 - 1

/-- The main loop of `ch_search_multi`: pop from the frontier chosen by
`popsForward`, update the meeting-point candidate, clear a frontier whose
top exceeds the candidate, finish when both frontiers are empty. -/
def chSearchLoop (g : CHView) : Nat → DijkstraSide → DijkstraSide →
    Option Nat → Nat → Option (Option (Nat × List Nat))
  | 0, _, _, _, _ => none
  | fuel + 1, fwd, bwd, peakCandidate, candidateCost =>
    match dijHeapPop fwd.frontier, dijHeapPop bwd.frontier with
    | none, none =>
      match peakCandidate with
      | none => some none
      | some peak =>
        let pathF := (buildPath fwd.prev (fwd.prev.length + 1) peak).reverse
        let pathB := buildPath bwd.prev (bwd.prev.length + 1) peak
        some (some (candidateCost, pathF ++ pathB))
    | ftop, btop =>
      let stepFwd : Bool :=
        match ftop, btop with
        | some (f, _), some (b, _) => popsForward f b
        | some _, none => true
        | _, _ => false
      let (settled, fwd2, bwd2) :=
        if stepFwd then
          let r := chFwdStep g fwd
          (r.1, r.2, bwd)
        else
          let r := chBwdStep g bwd
          (r.1, fwd, r.2)
      let (peak2, cand2) :=
        match settled with
        | none => (peakCandidate, candidateCost)
        | some sid =>
          match fwd2.cost.getD sid none, bwd2.cost.getD sid none with
          | some cs, some cd =>
            match peakCandidate with
            | none => (some sid, wrap32 (cs + cd))
            | some _ =>
              if wrap32 (cs + cd) < candidateCost then (some sid, wrap32 (cs + cd))
              else (peakCandidate, candidateCost)
          | _, _ => (peakCandidate, candidateCost)
      let fwd3 :=
        match dijHeapPop fwd2.frontier with
        | some (p, _) => if cand2 < p.cost then { fwd2 with frontier := [] } else fwd2
        | none => fwd2
      let bwd3 :=
        match dijHeapPop bwd2.frontier with
        | some (p, _) => if cand2 < p.cost then { bwd2 with frontier := [] } else bwd2
        | none => bwd2
      chSearchLoop g fuel fwd3 bwd3 peak2 cand2

/-- `ch_search_multi`: reset, seed both frontiers at cost 0, and run the
loop.  The outer `Option` is fuel exhaustion (never reached in stated
runs); the inner is the Rust return value, `none` = "no path". -/
def chSearchMulti (g : CHView) (start dest : List Nat) (fuel : Nat) :
    Option (Option (Nat × List Nat)) :=
  let fwd : DijkstraSide :=
    { frontier := start.foldl (fun fr sNode => HeapElement.mk 0 sNode none :: fr) []
      cost := List.replicate g.numNodes none
      prev := List.replicate g.numNodes none }
  let bwd : DijkstraSide :=
    { frontier := dest.foldl (fun fr d => HeapElement.mk 0 d none :: fr) []
      cost := List.replicate g.numNodes none
      prev := List.replicate g.numNodes none }
  chSearchLoop g fuel fwd bwd none u32Max

/-!  The quad-tree WSPD (`wspd.rs`).  `alg_wspd` is generic over the
`Tree`/`Distance` traits; the embedding is likewise parametric in the
`diameter`, `distance` and `id` attributes, carried by the tree nodes.
Coordinates are modelled as rationals (the claim's inequalities mention
only values the code itself compares, so any ordered-field carrier is
faithful; `f64` NaN and infinities are excluded by the claim). -/

inductive WTree where
  | node : Nat → ℚ → List WTree → WTree

/-- The cell id (`Tree::id`, used by `==` and the canonicalization tie-break). -/
def WTree.ident : WTree → Nat
  | WTree.node i _ _ => i

/-- The cell diameter (`Tree::diameter`). -/
def WTree.diam : WTree → ℚ
  | WTree.node _ d _ => d

/-- The children list (`Tree::children`). -/
def WTree.children : WTree → List WTree
  | WTree.node _ _ cs => cs

/-- The canonicalization of `alg_wspd`: order the pair so that the larger
diameter comes first, breaking diameter ties by the larger id first
(the `partial_cmp` match of the Rust code, totalized — the claim excludes
NaN diameters). -/
def canonPair (u v : WTree) : WTree × WTree :=
  if u.diam < v.diam then (v, u)
  else if v.diam < u.diam then (u, v)
  else if v.ident < u.ident then (u, v)
  else (v, u)

/-- `alg_wspd` from `wspd.rs`, parametric in the distance function:
termination test on equal ids with zero diameter, canonicalization of the
pair, the separation test, and the recursion over the first cell's
children.  The result is the set of emitted pairs, as a list. -/
def algWSPD (dist : WTree → WTree → ℚ) (e : ℚ) :
    WTree → WTree → List (WTree × WTree)
  | u, v =>
    if u.ident = v.ident ∧ u.diam = 0 then []
    else
      if (canonPair u v).1.diam ≤ e * dist (canonPair u v).1 (canonPair u v).2 then
        [((canonPair u v).1, (canonPair u v).2)]
      else
        ((canonPair u v).1.children.attach.map
          (fun c => algWSPD dist e c.1 (canonPair u v).2)).flatten
  termination_by u v => sizeOf u + sizeOf v
  decreasing_by
    have hcases : canonPair u v = (u, v) ∨ canonPair u v = (v, u) := by
      unfold canonPair
      split
      · exact Or.inr rfl
      · split
        · exact Or.inl rfl
        · split
          · exact Or.inl rfl
          · exact Or.inr rfl
    have hchild : ∀ t : WTree, sizeOf (WTree.children t) < sizeOf t := by
      intro t
      cases t with
      | node i d cs =>
        simp [WTree.children]
    have hc : sizeOf c.1 < sizeOf (canonPair u v).1 :=
      Nat.lt_trans (List.sizeOf_lt_of_mem c.2) (hchild (canonPair u v).1)
    rcases hcases with hcv | hcv
    · have h1 : sizeOf (canonPair u v).1 = sizeOf u := by rw [hcv]
      have h2 : sizeOf (canonPair u v).2 = sizeOf v := by rw [hcv]
      omega
    · have h1 : sizeOf (canonPair u v).1 = sizeOf v := by rw [hcv]
      have h2 : sizeOf (canonPair u v).2 = sizeOf u := by rw [hcv]
      omega

/-!  Path expansion on the meta-DAG view, and the spec-level properties
the hitting-set claims quantify. -/

/-- Expansion of an edge of the meta-DAG view into base edges (the
semantics `unpack_edge` computes on the routing view), fuelled; in a
valid meta-DAG a fuel of `numEdges` reaches every base edge. -/
def expandEdgeHS (g : ToporderedGraph) : Nat → Nat → List Nat
  | 0, e => [e]
  | fuel + 1, e =>
    match (g.edge e).child1, (g.edge e).child2 with
    | some c1, some c2 => expandEdgeHS g fuel c1 ++ expandEdgeHS g fuel c2
    | _, _ => [e]

/-- Full expansion of a compressed path into base edges. -/
def expandPath (g : ToporderedGraph) (p : CHEdgeList) : List Nat :=
  (p.list.map (expandEdgeHS g g.numEdges)).flatten

/-- The nodes a compressed path passes through: sources and targets of
every base edge of its full expansion. -/
def pathNodes (g : ToporderedGraph) (p : CHEdgeList) : List Nat :=
  (expandPath g p).foldr (fun e acc => (g.edge e).source :: (g.edge e).target :: acc) []

/-- Claim C2's coverage property of a finished run: every input path with
a non-empty edge list passes through some node of the output list. -/
def coversAllNonempty (g : ToporderedGraph) (paths : List CHEdgeList)
    (out : List (Nat × Nat)) : Prop :=
  ∀ p ∈ paths, p.list ≠ [] → ∃ n ∈ pathNodes g p, n ∈ out.map (fun x => x.1)

instance (g : ToporderedGraph) (paths : List CHEdgeList) (out : List (Nat × Nat)) :
    Decidable (coversAllNonempty g paths out) := by
  unfold coversAllNonempty
  infer_instance

/-- Claim C3's accounting property of a finished run: the absorbed
weights sum to the total weight of the non-empty input paths. -/
def absorbedMatchesInput (paths : List CHEdgeList) (out : List (Nat × Nat)) : Prop :=
  (out.map (fun x => x.2)).sum =
    ((paths.filter (fun p => ¬ p.list.isEmpty)).map (fun p => p.weight)).sum

instance (paths : List CHEdgeList) (out : List (Nat × Nat)) :
    Decidable (absorbedMatchesInput paths out) := by
  unfold absorbedMatchesInput
  infer_instance

/-!  Concrete inputs used by counterexamples and witnesses. -/

/-- Two nodes joined by one base edge. -/
def fmiTwo : FMIGraph := { numNodes := 2, edges := [⟨0, 1, 1, none, none⟩] }

def gTwo : ToporderedGraph := toporderedOfFMI fmiTwo

/-- The scan-corruption graph: nodes `m=0, z=1, t=2`, spectator nodes
`3..10`, `u=11`; edges `c1=(11,0)` id 0, `c2=(0,1)` id 1, the shortcut
`s=(11,1)` with children `(0,1)` id 2, `c5=(2,11)` id 3 and four
spectator edges ids 4–7. -/
def fmiCorrupt : FMIGraph :=
  { numNodes := 12
    edges :=
      [ ⟨11, 0, 1, none, none⟩
      , ⟨0, 1, 1, none, none⟩
      , ⟨11, 1, 2, some 0, some 1⟩
      , ⟨2, 11, 1, none, none⟩
      , ⟨3, 4, 1, none, none⟩
      , ⟨5, 6, 1, none, none⟩
      , ⟨7, 8, 1, none, none⟩
      , ⟨9, 10, 1, none, none⟩ ] }

def gCorrupt : ToporderedGraph := toporderedOfFMI fmiCorrupt

/-- Paths for the scan-corruption graph: the shortcut path (weight 1),
a weight-0 path on `c1`, the base path `q = [c2]` (weight 1), a weight-3
feeder into `u`, and the four spectator paths. -/
def pathsCorrupt : List CHEdgeList :=
  [ ⟨1, [2]⟩, ⟨0, [0]⟩, ⟨1, [1]⟩, ⟨3, [3]⟩, ⟨1, [4]⟩, ⟨1, [5]⟩, ⟨1, [6]⟩, ⟨1, [7]⟩ ]

/-- The full-run corruption graph: `fmiCorrupt` plus an isolated edge
`(12,13)` id 8. -/
def fmiCorruptRun : FMIGraph :=
  { numNodes := 14
    edges := fmiCorrupt.edges ++ [⟨12, 13, 1, none, none⟩] }

def gCorruptRun : ToporderedGraph := toporderedOfFMI fmiCorruptRun

/-- Paths for the full run: as `pathsCorrupt` plus the weight-0 path
`[c1, c2]` (which puts a zero-count `c2` seed into the explorative scan)
and a weight-0 path on the isolated edge (which keeps the live-path
count ahead of the removed count in every iteration). -/
def pathsCorruptRun : List CHEdgeList :=
  [ ⟨1, [2]⟩, ⟨0, [0]⟩, ⟨0, [0, 1]⟩, ⟨1, [1]⟩, ⟨3, [3]⟩,
    ⟨1, [4]⟩, ⟨1, [5]⟩, ⟨1, [6]⟩, ⟨1, [7]⟩, ⟨0, [8]⟩ ]

/-- The output `runDefault` produces on the full-run corruption input. -/
def outCorruptRun : List (Nat × Nat) := [(11, 4), (10, 1), (8, 1), (6, 1), (4, 1)]

/-!  Auxiliary notions for the topological-sort correctness proof. -/

/-- The children the DFS recursion actually visits: both children when
the edge is a shortcut (`if let (Some(c1), Some(c2))`), none otherwise. -/
def childrenOf (edges : List FMIEdge) (a : Nat) : List Nat :=
  match (edges.getD a default).child1, (edges.getD a default).child2 with
  | some c1, some c2 => [c1, c2]
  | _, _ => []

/-- The shortcut → child step relation of the meta-DAG. -/
def childStep (edges : List FMIEdge) (a b : Nat) : Prop :=
  b ∈ childrenOf edges a

/-- Acyclicity of the shortcut → child relation. -/
def Acyclic (edges : List FMIEdge) : Prop :=
  ∀ a, ¬ Relation.TransGen (childStep edges) a a

/-- Mark one id in a visited/done array. -/
def mark (vis : List Bool) (x : Nat) : List Bool := vis.set x true

/-- Mark a list of ids. -/
def markAll (vis : List Bool) (l : List Nat) : List Bool := l.foldl mark vis

/-- Number of unvisited entries. -/
def countFalse (vis : List Bool) : Nat := vis.count false

/-- `goodFrom edges don l`: walking `l` left to right, every element's
children are already done (in `don` or earlier in `l`).  A DFS postorder
satisfies this with `don` = the ids finished before the call. -/
def goodFrom (edges : List FMIEdge) : List Bool → List Nat → Prop
  | _, [] => True
  | don, x :: xs => (∀ c, childStep edges x c → don.getD c false = true) ∧
      goodFrom edges (mark don x) xs

/-- The specification bundle of one `top_sort_rec` call: `vis`/`don` are
the visited and done arrays at call time, `root` the argument, `out` the
returned pair. -/
structure DFSSpec (edges : List FMIEdge) (vis don : List Bool) (root : Nat)
    (out : List Bool × List Nat) : Prop where
  len : out.1.length = vis.length
  union : ∀ x, out.1.getD x false = true ↔ (vis.getD x false = true ∨ x ∈ out.2)
  fresh : ∀ x ∈ out.2, vis.getD x false = false
  nodup : out.2.Nodup
  rootMem : root ∈ out.2
  reach : ∀ x ∈ out.2, Relation.ReflTransGen (childStep edges) root x
  ranges : ∀ x ∈ out.2, x < edges.length
  good : goodFrom edges don out.2
  cnt : countFalse vis = countFalse out.1 + out.2.length

/-- The weaker bundle describing either branch of the visited test
before a recursive DFS call on child `c`: same as `DFSSpec` except `c`
may already have been visited instead of being emitted. -/
structure SubCall (edges : List FMIEdge) (vis don : List Bool) (c : Nat)
    (out : List Bool × List Nat) : Prop where
  len : out.1.length = vis.length
  union : ∀ x, out.1.getD x false = true ↔ (vis.getD x false = true ∨ x ∈ out.2)
  fresh : ∀ x ∈ out.2, vis.getD x false = false
  nodup : out.2.Nodup
  hit : c ∈ out.2 ∨ vis.getD c false = true
  reach : ∀ x ∈ out.2, Relation.ReflTransGen (childStep edges) c x
  ranges : ∀ x ∈ out.2, x < edges.length
  good : goodFrom edges don out.2
  cnt : countFalse vis = countFalse out.1 + out.2.length

/-- The bundle for `edge_top_sort`'s outer loop (between top-level calls
the done set equals the visited set). -/
structure LoopSpec (edges : List FMIEdge) (vis : List Bool)
    (out : List Bool × List Nat) : Prop where
  len : out.1.length = vis.length
  union : ∀ x, out.1.getD x false = true ↔ (vis.getD x false = true ∨ x ∈ out.2)
  fresh : ∀ x ∈ out.2, vis.getD x false = false
  nodup : out.2.Nodup
  ranges : ∀ x ∈ out.2, x < edges.length
  good : goodFrom edges vis out.2
  cnt : countFalse vis = countFalse out.1 + out.2.length

/-- Number of base edges with target `n` in the full expansion of edge `e`. -/
def multT (g : ToporderedGraph) (n e : Nat) : Nat :=
  ((expandEdgeHS g g.numEdges e).filter (fun b => (g.edge b).target = n)).length

/-- How often node `n` occurs on the walk of compressed path `p`: once if
it is the source of the first edge, plus once per base edge of the
expansion whose target it is. -/
def pathOcc (g : ToporderedGraph) (p : CHEdgeList) (n : Nat) : Nat :=
  (match p.list.head? with
   | some fe => if (g.edge fe).source = n then 1 else 0
   | none => 0) +
  (p.list.map (fun e => multT g n e)).sum

/-- The specified histogram: total weight-multiplicity of node `n` over
a path collection (cleared paths have empty lists and contribute 0). -/
def histSpec (g : ToporderedGraph) (paths : List CHEdgeList) (n : Nat) : Nat :=
  (paths.map (fun p => p.weight * pathOcc g p n)).sum

/-- The pending mass a value function `f` on edge ids will pour into
node `n`: the conserved quantity of both propagation scans. -/
def sumIds (g : ToporderedGraph) (ids : List Nat) (f : Nat → Nat) (n : Nat) : Nat :=
  (ids.map (fun e => f e * multT g n e)).sum

/-- What phase 1 adds to `hist[n]`: total weight of paths whose first
edge has source `n`. -/
def srcSpec (g : ToporderedGraph) (paths : List CHEdgeList) (n : Nat) : Nat :=
  (paths.map (fun p => p.weight *
    (match p.list.head? with
     | some fe => if (g.edge fe).source = n then 1 else 0
     | none => 0))).sum

/-- What phase 1 adds to `edges_hist[e]`: total weight-multiplicity of
edge `e` over the compressed paths. -/
def ehSpec (paths : List CHEdgeList) (e : Nat) : Nat :=
  (paths.map (fun p => p.weight * p.list.count e)).sum

/-- The nodes an edge of the meta-DAG passes through: sources and
targets of the base edges of its full expansion. -/
def edgeNodes (g : ToporderedGraph) (e : Nat) : List Nat :=
  (expandEdgeHS g g.numEdges e).foldr
    (fun b acc => (g.edge b).source :: (g.edge b).target :: acc) []

/-- Total weight of the paths whose edge list is non-empty. -/
def nonemptyWeight (paths : List CHEdgeList) : Nat :=
  ((paths.filter (fun p => ¬ p.list.isEmpty)).map (fun p => p.weight)).sum

/-- The edge → path-ids reverse index, as `new_with_threshold` builds it. -/
def epmOf (g : ToporderedGraph) (paths : List CHEdgeList) : List (List Nat) :=
  paths.enum.foldl
    (fun acc q => q.2.list.foldl (fun acc e => listPush acc e q.1) acc)
    (List.replicate g.numEdges [])

/-- Decidable check: edge `id` is a shortcut having `c` among its children. -/
def isShortcutChild (g : ToporderedGraph) (id c : Nat) : Bool :=
  match (g.edge id).child1, (g.edge id).child2 with
  | some c1, some c2 => decide (c = c1) || decide (c = c2)
  | _, _ => false

/-- Decidable check: edge `b` is a base edge incident to node `n`. -/
def isBaseIncident (g : ToporderedGraph) (b n : Nat) : Bool :=
  match (g.edge b).child1, (g.edge b).child2 with
  | some _, some _ => false
  | _, _ => decide ((g.edge b).source = n) || decide ((g.edge b).target = n)

/-- Decidable per-edge validity of the child data: range, distinctness
and strictly larger toporder of the two children of a shortcut. -/
def childOk (g : ToporderedGraph) (E : HSEdge) : Bool :=
  match E.child1, E.child2 with
  | some c1, some c2 =>
      decide (c1 < g.edges.length) && decide (c2 < g.edges.length) &&
      decide (c1 ≠ c2) &&
      decide (g.toporder E.id < g.toporder c1) && decide (g.toporder E.id < g.toporder c2)
  | _, _ => true

/-- Validity of a meta-DAG view, as established by the construction from
a well-formed CH graph file: positions and `edge_id_map` are mutually
inverse, children are in range with strictly larger toporder and are
distinct, endpoints are in range, and the parents lists of edges and
nodes invert the child / incidence relations. -/
def ValidHS (g : ToporderedGraph) : Prop :=
  g.edgeIdMap.length = g.edges.length ∧
  (∀ k, k < g.edges.length → g.toporder ((g.edges.getD k default).id) = k) ∧
  (∀ k, k < g.edges.length → (g.edges.getD k default).id < g.edges.length) ∧
  (∀ E ∈ g.edges, childOk g E = true) ∧
  (∀ E ∈ g.edges, E.source < g.numNodes ∧ E.target < g.numNodes) ∧
  (∀ id, id < g.edges.length →
    g.toporder id < g.edges.length ∧ (g.edge id).id = id) ∧
  (∀ E ∈ g.edges, ∀ q ∈ E.parents, q < g.edges.length) ∧
  (∀ N ∈ g.nodes, ∀ q ∈ N.parents, q < g.edges.length) ∧
  (∀ id, id < g.edges.length → ∀ c, c < g.edges.length →
    (id ∈ (g.edge c).parents ↔ isShortcutChild g id c = true)) ∧
  (∀ n, n < g.numNodes → ∀ b, b < g.edges.length →
    (b ∈ (g.node n).parents ↔ isBaseIncident g b n = true))

instance (g : ToporderedGraph) : Decidable (ValidHS g) := by
  unfold ValidHS
  infer_instance

/-- All edge ids of a path collection are in range. -/
def ValidPaths (g : ToporderedGraph) (paths : List CHEdgeList) : Prop :=
  ∀ p ∈ paths, ∀ e ∈ p.list, e < g.numEdges

instance (g : ToporderedGraph) (paths : List CHEdgeList) :
    Decidable (ValidPaths g paths) := by
  unfold ValidPaths
  infer_instance

/-- Every path weight is positive. -/
def PosWeights (paths : List CHEdgeList) : Prop := ∀ p ∈ paths, 0 < p.weight

/-- The state invariant of the hitting-set main loop relative to the
original input `P0`: the graph and the edge → path-ids index never
change, each stored path keeps its weight and either keeps its original
edge list or has been cleared, and the histogram holds exactly the
specified weight-multiplicities of the stored paths. -/
structure StateInv (g : ToporderedGraph) (P0 : List CHEdgeList)
    (hs : HittingSet) : Prop where
  graph_eq : hs.graph = g
  epm_eq : hs.edgePathMap = epmOf g P0
  plen : hs.paths.length = P0.length
  weight_eq : ∀ i, i < P0.length →
    (hs.paths.getD i ⟨0, []⟩).weight = (P0.getD i ⟨0, []⟩).weight
  list_eq : ∀ i, i < P0.length →
    (hs.paths.getD i ⟨0, []⟩).list = (P0.getD i ⟨0, []⟩).list ∨
    (hs.paths.getD i ⟨0, []⟩).list = []
  hlen : hs.hist.length = g.numNodes
  hist_eq : ∀ n, hs.hist.getD n 0 = histSpec g hs.paths n

/-- The accounting invariant of the main loop: every cleared path is
covered by an already-emitted hitter, and the emitted absorbed weights
plus the weight still live add up to the input's non-empty weight. -/
structure AccInv (g : ToporderedGraph) (P0 : List CHEdgeList)
    (hs : HittingSet) (acc : List (Nat × Nat)) : Prop where
  covered : ∀ i, i < P0.length → (hs.paths.getD i ⟨0, []⟩).list = [] →
    (P0.getD i ⟨0, []⟩).list ≠ [] →
    ∃ n ∈ pathNodes g (P0.getD i ⟨0, []⟩), n ∈ acc.map (fun x => x.1)
  sums : (acc.map (fun x => x.2)).sum + nonemptyWeight hs.paths =
    nonemptyWeight P0

instance (paths : List CHEdgeList) : Decidable (PosWeights paths) := by
  unfold PosWeights
  infer_instance

/-- Decidable per-edge bound check on children (used to discharge the
range hypothesis on concrete graphs). -/
def childBound (m : Nat) (e : FMIEdge) : Bool :=
  match e.child1, e.child2 with
  | some c1, some c2 => decide (c1 < m) && decide (c2 < m)
  | _, _ => true

/-- Decidable per-edge ranking check (used to discharge acyclicity on
concrete graphs). -/
def rankOk (edges : List FMIEdge) (f : Nat → Nat) (i : Nat) : Bool :=
  match (edges.getD i default).child1, (edges.getD i default).child2 with
  | some c1, some c2 => decide (f c1 < f i) && decide (f c2 < f i)
  | _, _ => true

/-- A valid CH graph (every pair's shortest base path lifts to an
up-then-down walk; levels `s=0 < t=1 < m=2 < x=3`) whose u32 edge-cost
sums overflow: the only two `0 → 1` walks cost `2^31 + 30` (via `m`)
and `2^32 + 25` (via `x`, exceeding u32). -/
def gWrapC1 : CHView :=
  { numNodes := 4
    edges := [⟨0, 3, 2 ^ 31, none, none⟩, ⟨3, 2, 2 ^ 31 + 5, none, none⟩,
              ⟨0, 2, 2 ^ 31 + 10, none, none⟩, ⟨2, 1, 20, none, none⟩]
    outUp := fun n => if n = 0 then [0, 2] else []
    inDown := fun n => if n = 2 then [1] else if n = 1 then [3] else [] }

/-- The per-iteration absorbed weight as the spec words it: the total
weight (read off the original input `P0`) of the paths first cleared in
the step that takes the stored paths from `old` to `new` — non-empty
before the step, empty after it. -/
def firstClearedWeight (P0 old new : List CHEdgeList) : Nat :=
  ((List.range P0.length).map (fun i =>
    if (old.getD i ⟨0, []⟩).list ≠ [] ∧ (new.getD i ⟨0, []⟩).list = []
    then (P0.getD i ⟨0, []⟩).weight else 0)).sum

/-- The stored path collection after `k` iterations (`k = 0`: right
after the initial scan). -/
def iterPaths (g : ToporderedGraph) (paths : List CHEdgeList)
    (threshold fuel k : Nat) : Option (List CHEdgeList) :=
  match iterState g paths threshold fuel k with
  | none => none
  | some (hs, _) => some hs.paths

/-- The `(hitter, absorbed_weight)` entry the main loop pushes in
iteration `k + 1` (from the state after `k` iterations); `none` when
that iteration stops, fails, or is never reached. -/
def iterEntry (g : ToporderedGraph) (paths : List CHEdgeList)
    (threshold fuel k : Nat) : Option (Nat × Nat) :=
  match iterState g paths threshold fuel k with
  | none => none
  | some (hs, np) =>
    match runStep hs np fuel with
    | StepResult.next _ _ entry => some entry
    | _ => none

/-!  ### Theorems -/

/-- **C8** (code evaluation): in `chgraph.rs`, the `ChildEdge::child2`
accessor returns the stored `child1` field: on an edge with
`child1 = Some(0)`, `child2 = Some(1)` it returns `Some(0)`, equal to
`child1()` and different from the stored `child2` field.  The meta-DAG
view's accessor (`hsgraph.rs`) returns the stored `child2` field.  The
claim mandates distinct accessors, so the routing view contradicts it;
the spec explicitly flags this line as a bug. -/
theorem C8_code_eval :
    chgraphChild2 ⟨0, 2, 2, some 0, some 1⟩ = some 0 ∧
    (CHGEdge.mk 0 2 2 (some 0) (some 1)).child2 = some 1 ∧
    chgraphChild1 ⟨0, 2, 2, some 0, some 1⟩ = chgraphChild2 ⟨0, 2, 2, some 0, some 1⟩ ∧
    hsgraphChild2 ⟨2, 0, 2, some 0, some 1, []⟩ = some 1 := by
  refine ⟨rfl, rfl, rfl, rfl⟩

/-- **C7** (code evaluation): the frontier choice of `ch_search_multi`.
The guard `fwd <= bwd` is evaluated in the *inverted* heap ordering of
`HeapElement`, so with a forward top of cost 1 and a backward top of
cost 2 the code runs the *backward* step (the claim demands forward, the
smaller top); with forward cost 5 against backward cost 2 it runs the
forward step; and on a cost tie with `fwd.id < bwd.id` it runs the
backward step (the claim demands forward on every tie). -/
theorem C7_code_eval :
    popsForward ⟨1, 0, none⟩ ⟨2, 1, none⟩ = false ∧
    popsForward ⟨5, 0, none⟩ ⟨2, 1, none⟩ = true ∧
    popsForward ⟨3, 0, none⟩ ⟨3, 1, none⟩ = false := by
  refine ⟨rfl, rfl, rfl⟩

/-- **C2** (counterexample): on the two-node graph with the single
weight-0 path `[e0]`, `HittingSet::run` (default threshold, no maxiter)
returns the empty output, yet that input path has a non-empty edge list —
so the coverage property the claim asserts fails. -/
theorem C2_counterexample :
    runDefault gTwo [⟨0, [0]⟩] 30 = some [] ∧
    ¬ coversAllNonempty gTwo [⟨0, [0]⟩] [] := by
  constructor
  · decide
  · decide

/-- **C6** (counterexample): on the two-node graph with the single
weight-1 path `[e0]`, the histogram after the initial scan is `[1, 1]`
(both nodes attain the maximum), and the embedded `max_by` of the
hitter selection — hence the run itself — picks node 1, not the smallest
maximal node 0 the claim requires. -/
theorem C6_counterexample :
    iterHist gTwo [⟨1, [0]⟩] 400000 30 0 = some [1, 1] ∧
    pickHitter [1, 1] = some (1, 1) ∧
    runDefault gTwo [⟨1, [0]⟩] 30 = some [(1, 1)] := by
  refine ⟨by decide, by decide, by decide⟩

/-- **C4** (counterexample): on the scan-corruption input the two runs
(threshold `usize::MAX`, always explorative; threshold 0, always full)
agree on the histogram after the initial scan but differ after
iteration 1: the weight-0 path `[c1]` seeds the explorative scan's heap
with a zero-count edge, the shortcut pops first and pushes a duplicate
of `c1`, and the duplicate pop subtracts the propagated count twice,
leaving `hist[0] = 0` where the full scan computes 1. -/
theorem C4_counterexample :
    iterHist gCorrupt pathsCorrupt (2 ^ 64 - 1) 40 0 =
      iterHist gCorrupt pathsCorrupt 0 40 0 ∧
    iterHist gCorrupt pathsCorrupt (2 ^ 64 - 1) 40 1 =
      some [0, 1, 0, 1, 1, 1, 1, 1, 1, 1, 1, 0] ∧
    iterHist gCorrupt pathsCorrupt 0 40 1 =
      some [1, 1, 0, 1, 1, 1, 1, 1, 1, 1, 1, 0] ∧
    iterHist gCorrupt pathsCorrupt (2 ^ 64 - 1) 40 1 ≠
      iterHist gCorrupt pathsCorrupt 0 40 1 := by
  refine ⟨by decide, by decide, by decide, by decide⟩

/-- **C3** (counterexample): on the full-run corruption input,
`HittingSet::run` (default threshold, no maxiter) terminates with
absorbed weights summing to 8, while the non-empty input paths weigh 9
in total: the weight-1 path `q = [c2]` is hidden by the corrupted
histogram (its two nodes are zeroed by duplicate heap pops seeded by the
weight-0 paths) and is never hit.  No `u64` subtraction underflows in
this run, so the `Nat` model agrees with the Rust arithmetic. -/
theorem C3_counterexample :
    runDefault gCorruptRun pathsCorruptRun 40 = some outCorruptRun ∧
    ¬ absorbedMatchesInput pathsCorruptRun outCorruptRun := by
  constructor
  · decide
  · decide

/-!  The `max_by` fold: membership, dominance and last-maximum lemmas. -/

theorem pickFold_mem (l : List (Nat × Nat)) : ∀ (acc : Option (Nat × Nat)) (m : Nat × Nat),
    l.foldl pickStep acc = some m → m ∈ l ∨ acc = some m := by
  induction l with
  | nil => intro acc m h; exact Or.inr h
  | cons x xs ih =>
    intro acc m h
    simp only [List.foldl_cons] at h
    rcases ih (pickStep acc x) m h with hm | hm
    · exact Or.inl (List.mem_cons_of_mem _ hm)
    · unfold pickStep at hm
      cases acc with
      | none =>
        cases hm
        exact Or.inl (List.mem_cons_self _ _)
      | some a =>
        by_cases hax : a.2 ≤ x.2
        · simp only [if_pos hax] at hm
          cases hm
          exact Or.inl (List.mem_cons_self _ _)
        · simp only [if_neg hax] at hm
          exact Or.inr hm

theorem pickFold_dom (l : List (Nat × Nat)) : ∀ (acc : Option (Nat × Nat)) (m : Nat × Nat),
    l.foldl pickStep acc = some m →
    (∀ x ∈ l, x.2 ≤ m.2) ∧ (∀ a, acc = some a → a.2 ≤ m.2) := by
  induction l with
  | nil =>
    intro acc m h
    refine ⟨by simp, fun a ha => ?_⟩
    rw [ha] at h
    cases h
    exact le_refl _
  | cons x xs ih =>
    intro acc m h
    simp only [List.foldl_cons] at h
    obtain ⟨hxs, hacc2⟩ := ih (pickStep acc x) m h
    have hx : x.2 ≤ m.2 := by
      cases acc with
      | none => exact hacc2 x rfl
      | some a =>
        by_cases hax : a.2 ≤ x.2
        · exact hacc2 x (by simp [pickStep, if_pos hax])
        · exact le_trans (le_of_lt (Nat.lt_of_not_le hax)) (hacc2 a (by simp [pickStep, if_neg hax]))
    refine ⟨fun y hy => ?_, fun a ha => ?_⟩
    · rcases List.mem_cons.mp hy with rfl | hy
      · exact hx
      · exact hxs y hy
    · subst ha
      by_cases hax : a.2 ≤ x.2
      · exact le_trans hax hx
      · exact hacc2 a (by simp [pickStep, if_neg hax])

theorem pickFold_last (l : List (Nat × Nat)) : ∀ (acc : Option (Nat × Nat)) (m : Nat × Nat),
    l.foldl pickStep acc = some m →
    (∀ a, acc = some a → ∀ x ∈ l, a.1 < x.1) →
    l.Pairwise (fun x y => x.1 < y.1) →
    ∀ x ∈ l, m.1 < x.1 → x.2 < m.2 := by
  induction l with
  | nil => intro acc m _ _ _ x hx; cases hx
  | cons z xs ih =>
    intro acc m h hacc hpw x hx hgt
    simp only [List.foldl_cons] at h
    have hpwz := (List.pairwise_cons.mp hpw).1
    have hpwxs := (List.pairwise_cons.mp hpw).2
    rcases List.mem_cons.mp hx with rfl | hx
    · -- x is the head; the accumulator must have survived the head step
      cases hacc0 : acc with
      | none =>
        exfalso
        rw [hacc0] at h
        have hstep : pickStep none x = some x := rfl
        rw [hstep] at h
        rcases pickFold_mem xs (some x) m h with hm | hm
        · exact absurd hgt (Nat.not_lt.mpr (le_of_lt (hpwz m hm)))
        · cases hm
          exact Nat.lt_irrefl _ hgt
      | some a =>
        rw [hacc0] at h
        by_cases hax : a.2 ≤ x.2
        · exfalso
          have hstep : pickStep (some a) x = some x := by simp [pickStep, if_pos hax]
          rw [hstep] at h
          rcases pickFold_mem xs (some x) m h with hm | hm
          · exact absurd hgt (Nat.not_lt.mpr (le_of_lt (hpwz m hm)))
          · cases hm
            exact Nat.lt_irrefl _ hgt
        · have hstep : pickStep (some a) x = some a := by simp [pickStep, if_neg hax]
          rw [hstep] at h
          have ham := (pickFold_dom xs (some a) m h).2 a rfl
          exact Nat.lt_of_lt_of_le (Nat.lt_of_not_le hax) ham
    · refine ih (pickStep acc z) m h ?_ hpwxs x hx hgt
      intro a2 ha2 y hy
      cases hacc0 : acc with
      | none =>
        rw [hacc0] at ha2
        have : pickStep none z = some z := rfl
        rw [this] at ha2
        cases ha2
        exact hpwz y hy
      | some a =>
        rw [hacc0] at ha2
        by_cases haz : a.2 ≤ z.2
        · have : pickStep (some a) z = some z := by simp [pickStep, if_pos haz]
          rw [this] at ha2
          cases ha2
          exact hpwz y hy
        · have : pickStep (some a) z = some a := by simp [pickStep, if_neg haz]
          rw [this] at ha2
          cases ha2
          exact hacc a2 hacc0 y (List.mem_cons_of_mem _ hy)

theorem enum_pairwise_fst (l : List Nat) :
    l.enum.Pairwise (fun x y => x.1 < y.1) := by
  rw [List.pairwise_iff_get]
  intro i j hij
  rw [List.get_enum, List.get_enum]
  simpa using hij

theorem mem_enum_getD {l : List Nat} {j : Nat} (hj : j < l.length) :
    (j, l.getD j 0) ∈ l.enum := by
  rw [List.mk_mem_enum_iff_get?, List.getD_eq_getD_get?]
  cases hq : l.get? j with
  | none => exact absurd (List.get?_eq_none.mp hq) (Nat.not_le.mpr hj)
  | some a => rfl

/-- **C6** (amended): the hitter pick of the main loop — the embedded
`max_by` over the enumerated histogram — returns a node of maximal
histogram value, and on ties the *largest* node id attaining the
maximum (the last attained maximum), not the smallest. -/
theorem C6_amended (hist : List Nat) (i v : Nat)
    (h : pickHitter hist = some (i, v)) :
    i < hist.length ∧ hist.getD i 0 = v ∧
    (∀ j, j < hist.length → hist.getD j 0 ≤ v) ∧
    (∀ j, i < j → j < hist.length → hist.getD j 0 < v) := by
  unfold pickHitter at h
  have hmem : (i, v) ∈ hist.enum := by
    rcases pickFold_mem _ _ _ h with hm | hm
    · exact hm
    · cases hm
  have hget : hist.get? i = some v := List.mk_mem_enum_iff_get?.mp hmem
  have hlen : i < hist.length := List.get?_eq_some.mp hget |>.1
  have hval : hist.getD i 0 = v := by
    rw [List.getD_eq_getD_get?, hget]
    rfl
  refine ⟨hlen, hval, fun j hj => ?_, fun j hij hj => ?_⟩
  · have := (pickFold_dom _ _ _ h).1 (j, hist.getD j 0) (mem_enum_getD hj)
    exact this
  · have := pickFold_last _ _ _ h (fun a ha => by cases ha) (enum_pairwise_fst hist)
      (j, hist.getD j 0) (mem_enum_getD hj) hij
    exact this

/-- Witness for `C6_amended` at the concrete histogram `[1, 1]`. -/
theorem C6_amended_witness :
    1 < ([1, 1] : List Nat).length ∧ ([1, 1] : List Nat).getD 1 0 = 1 ∧
    (∀ j, j < ([1, 1] : List Nat).length → ([1, 1] : List Nat).getD j 0 ≤ 1) ∧
    (∀ j, 1 < j → j < ([1, 1] : List Nat).length → ([1, 1] : List Nat).getD j 0 < 1) :=
  C6_amended [1, 1] 1 1 (by decide)

/-!  WSPD separation. -/

/-- Canonicalization puts the larger diameter first. -/
theorem canonPair_snd_diam_le (u v : WTree) :
    (canonPair u v).2.diam ≤ (canonPair u v).1.diam := by
  unfold canonPair
  split
  · exact le_of_lt (by assumption)
  · split
    · exact le_of_lt (by assumption)
    · split
      · linarith [lt_or_ge u.diam v.diam]
      · linarith [lt_or_ge u.diam v.diam]

/-- **C9**: every pair `(U, V)` emitted by `alg_wspd` satisfies both
`diameter(U) ≤ ε·distance(U, V)` and `diameter(V) ≤ ε·distance(U, V)`:
the first is the emission guard, and the second follows because the
canonicalization puts the larger diameter first and only that diameter
is tested.  Stated parametrically in the distance and diameter data, as
the Rust `alg_wspd` is generic over the `Tree`/`Distance` traits. -/
theorem C9_separation (dist : WTree → WTree → ℚ) (e : ℚ) (u v : WTree)
    (p : WTree × WTree) (hp : p ∈ algWSPD dist e u v) :
    p.1.diam ≤ e * dist p.1 p.2 ∧ p.2.diam ≤ e * dist p.1 p.2 := by
  induction u, v using algWSPD.induct dist e with
  | case1 u v hbase =>
    rw [algWSPD.eq_def] at hp
    simp only [if_pos hbase] at hp
    cases hp
  | case2 u v hbase hguard =>
    rw [algWSPD.eq_def] at hp
    simp only [if_neg hbase, if_pos hguard, List.mem_singleton] at hp
    subst hp
    exact ⟨hguard, le_trans (canonPair_snd_diam_le u v) hguard⟩
  | case3 u v hbase hguard ih =>
    rw [algWSPD.eq_def] at hp
    simp only [if_neg hbase, if_neg hguard, List.mem_flatten, List.mem_map] at hp
    obtain ⟨l, ⟨c, _, rfl⟩, hpl⟩ := hp
    exact ih c hpl

/-- A concrete quad-tree-shaped instance for the witness: a root of
diameter 1 with two point children of diameter 0, and a distance
function giving 0 on equal ids and 2 otherwise. -/
def wspdRoot : WTree := WTree.node 0 1 [WTree.node 1 0 [], WTree.node 2 0 []]

def wspdDist (a b : WTree) : ℚ := if a.ident = b.ident then 0 else 2

/-- Witness for `C9_separation`: on the concrete tree, the pair
`(root, leaf 1)` is emitted by `alg_wspd(root, root, 1)` and satisfies
both separation inequalities. -/
theorem C9_separation_witness :
    (wspdRoot, WTree.node 1 0 []) ∈ algWSPD wspdDist 1 wspdRoot wspdRoot ∧
    (wspdRoot, WTree.node 1 0 []).1.diam ≤
      1 * wspdDist (wspdRoot, WTree.node 1 0 []).1 (wspdRoot, WTree.node 1 0 []).2 ∧
    (wspdRoot, WTree.node 1 0 []).2.diam ≤
      1 * wspdDist (wspdRoot, WTree.node 1 0 []).1 (wspdRoot, WTree.node 1 0 []).2 := by
  have hmem : (wspdRoot, WTree.node 1 0 []) ∈ algWSPD wspdDist 1 wspdRoot wspdRoot := by
    rw [algWSPD.eq_def]
    norm_num [wspdRoot, wspdDist, canonPair, WTree.ident, WTree.diam, WTree.children]
    rw [algWSPD.eq_def, algWSPD.eq_def]
    norm_num [wspdRoot, wspdDist, canonPair, WTree.ident, WTree.diam, WTree.children]
    exact ⟨_, Or.inl rfl, List.mem_singleton.mpr rfl⟩
  have h := C9_separation wspdDist 1 wspdRoot wspdRoot _ hmem
  exact ⟨hmem, h.1, h.2⟩

/-!  Marking and counting lemmas. -/

theorem getD_set_self {α : Type} (l : List α) {i : Nat} (h : i < l.length) (v d : α) :
    (l.set i v).getD i d = v := by
  rw [List.getD_eq_getElem?_getD, List.getElem?_set_self h]
  rfl

theorem getD_set_ne {α : Type} (l : List α) {i j : Nat} (h : i ≠ j) (v d : α) :
    (l.set i v).getD j d = l.getD j d := by
  rw [List.getD_eq_getElem?_getD, List.getD_eq_getElem?_getD, List.getElem?_set_ne h]

theorem mark_length (vis : List Bool) (x : Nat) : (mark vis x).length = vis.length :=
  List.length_set vis x true

theorem mark_iff (vis : List Bool) (x y : Nat) :
    (mark vis x).getD y false = true ↔
      (vis.getD y false = true ∨ (y = x ∧ x < vis.length)) := by
  unfold mark
  by_cases hxy : x = y
  · subst hxy
    by_cases hx : x < vis.length
    · rw [getD_set_self _ hx]
      simp [hx]
    · rw [List.set_eq_of_length_le (Nat.le_of_not_lt hx)]
      simp [hx]
  · rw [getD_set_ne _ hxy]
    constructor
    · exact Or.inl
    · rintro (h | ⟨rfl, _⟩)
      · exact h
      · exact absurd rfl hxy

theorem markAll_length (vis : List Bool) (l : List Nat) :
    (markAll vis l).length = vis.length := by
  induction l generalizing vis with
  | nil => rfl
  | cons x xs ih => simpa [markAll, List.foldl_cons, mark_length] using ih (mark vis x)

theorem markAll_iff (l : List Nat) : ∀ (vis : List Bool) (y : Nat),
    (markAll vis l).getD y false = true ↔
      (vis.getD y false = true ∨ (y ∈ l ∧ y < vis.length)) := by
  induction l with
  | nil => intro vis y; simp [markAll]
  | cons x xs ih =>
    intro vis y
    have step : markAll vis (x :: xs) = markAll (mark vis x) xs := rfl
    rw [step, ih (mark vis x) y, mark_iff, mark_length]
    constructor
    · rintro ((h | ⟨rfl, hx⟩) | ⟨hy, hl⟩)
      · exact Or.inl h
      · exact Or.inr ⟨List.mem_cons_self _ _, hx⟩
      · exact Or.inr ⟨List.mem_cons_of_mem _ hy, hl⟩
    · rintro (h | ⟨hy, hl⟩)
      · exact Or.inl (Or.inl h)
      · rcases List.mem_cons.mp hy with rfl | hy
        · exact Or.inl (Or.inr ⟨rfl, hl⟩)
        · exact Or.inr ⟨hy, hl⟩

theorem countFalse_le_length (vis : List Bool) : countFalse vis ≤ vis.length :=
  List.count_le_length _ _

theorem countFalse_mark {vis : List Bool} {x : Nat} (hx : x < vis.length)
    (hv : vis.getD x false = false) :
    countFalse (mark vis x) + 1 = countFalse vis := by
  unfold countFalse mark
  rw [List.count_set true false vis x hx]
  have : vis[x] = false := by
    rw [← List.getD_eq_getElem vis false hx, hv]
  rw [this]
  simp only [beq_self_eq_true, if_true]
  have hpos : 0 < vis.count false := by
    have : false ∈ vis := by
      rw [← this]
      exact vis.getElem_mem hx
    exact List.count_pos_iff_mem.mpr this
  simp
  omega

theorem countFalse_pos {vis : List Bool} {x : Nat} (hx : x < vis.length)
    (hv : vis.getD x false = false) : 0 < countFalse vis := by
  have : vis[x] = false := by
    rw [← List.getD_eq_getElem vis false hx, hv]
  have : false ∈ vis := by
    rw [← this]
    exact vis.getElem_mem hx
  exact List.count_pos_iff_mem.mpr this

/-!  `goodFrom` lemmas. -/

theorem goodFrom_append (edges : List FMIEdge) (l1 : List Nat) :
    ∀ (don : List Bool) (l2 : List Nat),
    goodFrom edges don (l1 ++ l2) ↔
      (goodFrom edges don l1 ∧ goodFrom edges (markAll don l1) l2) := by
  induction l1 with
  | nil => intro don l2; simp [goodFrom, markAll]
  | cons x xs ih =>
    intro don l2
    have hm : markAll don (x :: xs) = markAll (mark don x) xs := rfl
    simp only [List.cons_append, goodFrom, List.append_eq, hm, ih (mark don x) l2]
    tauto

theorem goodFrom_position (edges : List FMIEdge) (l : List Nat) :
    ∀ (don : List Bool) (j : Nat) (x : Nat), l[j]? = some x →
    goodFrom edges don l →
    ∀ c, childStep edges x c →
      don.getD c false = true ∨ ∃ i, i < j ∧ l[i]? = some c := by
  induction l with
  | nil => intro don j x hj; simp at hj
  | cons z zs ih =>
    intro don j x hj hg c hc
    obtain ⟨hz, hgs⟩ := hg
    match j with
    | 0 =>
      simp at hj
      subst hj
      exact Or.inl (hz c hc)
    | j + 1 =>
      simp only [List.getElem?_cons_succ] at hj
      rcases ih (mark don z) j x hj hgs c hc with hdon | ⟨i, hi, hgi⟩
      · rcases (mark_iff don z c).mp hdon with h | ⟨rfl, _⟩
        · exact Or.inl h
        · exact Or.inr ⟨0, Nat.succ_pos _, by simp⟩
      · exact Or.inr ⟨i + 1, Nat.succ_lt_succ hi, by simpa using hgi⟩

theorem mark_mono {vis : List Bool} {x y : Nat} (h : vis.getD y false = true) :
    (mark vis x).getD y false = true :=
  (mark_iff vis x y).mpr (Or.inl h)

theorem markAll_mono {vis : List Bool} {l : List Nat} {y : Nat}
    (h : vis.getD y false = true) : (markAll vis l).getD y false = true :=
  (markAll_iff l vis y).mpr (Or.inl h)

theorem markAll_append (vis : List Bool) (l1 l2 : List Nat) :
    markAll vis (l1 ++ l2) = markAll (markAll vis l1) l2 :=
  List.foldl_append _ _ _ _

theorem subcall_skip (edges : List FMIEdge) (vis don : List Bool) (c : Nat)
    (h : vis.getD c false = true) : SubCall edges vis don c (vis, []) where
  len := rfl
  union := by simp
  fresh := by simp
  nodup := List.nodup_nil
  hit := Or.inr h
  reach := by simp
  ranges := by simp
  good := trivial
  cnt := by simp

theorem DFSSpec.toSubCall {edges : List FMIEdge} {vis don : List Bool} {root : Nat}
    {out : List Bool × List Nat} (h : DFSSpec edges vis don root out) :
    SubCall edges vis don root out where
  len := h.len
  union := h.union
  fresh := h.fresh
  nodup := h.nodup
  hit := Or.inl h.rootMem
  reach := h.reach
  ranges := h.ranges
  good := h.good
  cnt := h.cnt

/-- Correctness bundle for `top_sort_rec`, by induction on the fuel.
The fuel hypothesis `countFalse vis ≤ fuel` guarantees the recursion
never runs out; the gray-ancestor hypothesis (every visited node is done
or an ancestor of the current root) and acyclicity rule the child of a
shortcut being on the recursion stack. -/
theorem topSortRec_spec (edges : List FMIEdge)
    (hrange : ∀ a b, childStep edges a b → b < edges.length)
    (hacyc : Acyclic edges) :
    ∀ (fuel : Nat) (vis don : List Bool) (root : Nat),
      vis.length = edges.length →
      don.length = edges.length →
      root < edges.length →
      vis.getD root false = false →
      countFalse vis ≤ fuel →
      (∀ x, don.getD x false = true → vis.getD x false = true) →
      (∀ x, vis.getD x false = true →
        don.getD x false = true ∨ Relation.TransGen (childStep edges) x root) →
      DFSSpec edges vis don root (topSortRec edges fuel root vis) := by
  intro fuel
  induction fuel with
  | zero =>
    intro vis don root hvl hdl hr hunv hcf _ _
    exact absurd hcf (Nat.not_le.mpr (countFalse_pos (hvl ▸ hr) hunv))
  | succ fuel ih =>
    intro vis don root hvl hdl hr hunv hcf hdv hgray
    have hrv : root < vis.length := hvl ▸ hr
    have hvl1 : (mark vis root).length = edges.length := by
      rw [mark_length]; exact hvl
    have hcnt1 : countFalse (mark vis root) + 1 = countFalse vis :=
      countFalse_mark hrv hunv
    rcases hc1 : (edges.getD root default).child1 with _ | c1
    · -- base edge: child1 = none
      have hch : childrenOf edges root = [] := by
        unfold childrenOf; rw [hc1]
      have hunf : topSortRec edges (fuel + 1) root vis = (mark vis root, [root]) := by
        simp only [topSortRec, hc1]
        rfl
      rw [hunf]
      exact
        { len := hvl1.trans hvl.symm
          union := by
            intro x
            rw [mark_iff]
            simp only [List.mem_singleton]
            constructor
            · rintro (h | ⟨rfl, _⟩)
              · exact Or.inl h
              · exact Or.inr rfl
            · rintro (h | rfl)
              · exact Or.inl h
              · exact Or.inr ⟨rfl, hrv⟩
          fresh := by
            intro x hx
            rw [List.mem_singleton] at hx
            subst hx
            exact hunv
          nodup := List.nodup_singleton root
          rootMem := List.mem_singleton.mpr rfl
          reach := by
            intro x hx
            rw [List.mem_singleton] at hx
            subst hx
            exact Relation.ReflTransGen.refl
          ranges := by
            intro x hx
            rw [List.mem_singleton] at hx
            subst hx
            exact hr
          good := by
            refine ⟨fun c hc => absurd ?_ (List.not_mem_nil c), trivial⟩
            unfold childStep at hc
            rw [hch] at hc
            exact hc
          cnt := by
            simp only [List.length_singleton]
            omega }
    rcases hc2 : (edges.getD root default).child2 with _ | c2
    · -- base edge: child2 = none
      have hch : childrenOf edges root = [] := by
        unfold childrenOf; rw [hc1, hc2]
      have hunf : topSortRec edges (fuel + 1) root vis = (mark vis root, [root]) := by
        simp only [topSortRec, hc1, hc2]
        rfl
      rw [hunf]
      exact
        { len := hvl1.trans hvl.symm
          union := by
            intro x
            rw [mark_iff]
            simp only [List.mem_singleton]
            constructor
            · rintro (h | ⟨rfl, _⟩)
              · exact Or.inl h
              · exact Or.inr rfl
            · rintro (h | rfl)
              · exact Or.inl h
              · exact Or.inr ⟨rfl, hrv⟩
          fresh := by
            intro x hx
            rw [List.mem_singleton] at hx
            subst hx
            exact hunv
          nodup := List.nodup_singleton root
          rootMem := List.mem_singleton.mpr rfl
          reach := by
            intro x hx
            rw [List.mem_singleton] at hx
            subst hx
            exact Relation.ReflTransGen.refl
          ranges := by
            intro x hx
            rw [List.mem_singleton] at hx
            subst hx
            exact hr
          good := by
            refine ⟨fun c hc => absurd ?_ (List.not_mem_nil c), trivial⟩
            unfold childStep at hc
            rw [hch] at hc
            exact hc
          cnt := by
            simp only [List.length_singleton]
            omega }
    · -- shortcut: children (c1, c2)
      have hch : childrenOf edges root = [c1, c2] := by
        unfold childrenOf; rw [hc1, hc2]
      have hstep1 : childStep edges root c1 := by
        unfold childStep; rw [hch]; simp
      have hstep2 : childStep edges root c2 := by
        unfold childStep; rw [hch]; simp
      have hc1r : c1 < edges.length := hrange _ _ hstep1
      have hc2r : c2 < edges.length := hrange _ _ hstep2
      obtain ⟨v2, r2, hs2⟩ : ∃ v2 r2,
          (if (mark vis root).getD c1 false then (mark vis root, ([] : List Nat))
           else topSortRec edges fuel c1 (mark vis root)) = (v2, r2) := ⟨_, _, rfl⟩
      obtain ⟨v3, r3, hs3⟩ : ∃ v3 r3,
          (if v2.getD c2 false then (v2, ([] : List Nat))
           else topSortRec edges fuel c2 v2) = (v3, r3) := ⟨_, _, rfl⟩
      have hunf : topSortRec edges (fuel + 1) root vis = (v3, r2 ++ r3 ++ [root]) := by
        simp only [topSortRec, hc1, hc2]
        rw [show vis.set root true = mark vis root from rfl]
        rw [hs2, hs3]
      -- the first sub-call (or skip)
      have spec2 : SubCall edges (mark vis root) don c1 (v2, r2) := by
        rw [← hs2]
        split
        · next hb => exact subcall_skip edges (mark vis root) don c1 hb
        · next hb =>
          have hb0 : (mark vis root).getD c1 false = false := by
            simpa using hb
          refine (ih (mark vis root) don c1 hvl1 hdl hc1r hb0 (by omega) ?_ ?_).toSubCall
          · intro x hx
            exact mark_mono (hdv x hx)
          · intro x hx
            rcases (mark_iff vis root x).mp hx with hx | ⟨rfl, _⟩
            · rcases hgray x hx with hd | ht
              · exact Or.inl hd
              · exact Or.inr (Relation.TransGen.tail ht hstep1)
            · exact Or.inr (Relation.TransGen.single hstep1)
      have hv2len : v2.length = edges.length := spec2.len.trans hvl1
      have hv2cnt : countFalse (mark vis root) = countFalse v2 + r2.length := spec2.cnt
      -- the second sub-call (or skip)
      have spec3 : SubCall edges v2 (markAll don r2) c2 (v3, r3) := by
        have hdl2 : (markAll don r2).length = edges.length := by
          rw [markAll_length]; exact hdl
        rw [← hs3]
        split
        · next hb => exact subcall_skip edges v2 (markAll don r2) c2 hb
        · next hb =>
          have hb0 : v2.getD c2 false = false := by simpa using hb
          refine (ih v2 (markAll don r2) c2 hv2len hdl2 hc2r hb0 (by omega) ?_ ?_).toSubCall
          · intro x hx
            rcases (markAll_iff r2 don x).mp hx with hx | ⟨hx, _⟩
            · exact (spec2.union x).mpr (Or.inl (mark_mono (hdv x hx)))
            · exact (spec2.union x).mpr (Or.inr hx)
          · intro x hx
            rcases (spec2.union x).mp hx with hx | hx
            · rcases (mark_iff vis root x).mp hx with hx | ⟨rfl, _⟩
              · rcases hgray x hx with hd | ht
                · exact Or.inl ((markAll_iff r2 don x).mpr (Or.inl hd))
                · exact Or.inr (Relation.TransGen.tail ht hstep2)
              · exact Or.inr (Relation.TransGen.single hstep2)
            · refine Or.inl ((markAll_iff r2 don x).mpr (Or.inr ⟨hx, ?_⟩))
              rw [hdl]
              exact spec2.ranges x hx
      -- no child of the root is gray: acyclicity arguments
      have hnotroot1 : c1 ≠ root := by
        intro h
        subst h
        exact hacyc c1 (Relation.TransGen.single hstep1)
      have hnotroot2 : c2 ≠ root := by
        intro h
        subst h
        exact hacyc c2 (Relation.TransGen.single hstep2)
      have hdc1 : c1 ∈ r2 ∨ don.getD c1 false = true := by
        rcases spec2.hit with h | h
        · exact Or.inl h
        · rcases (mark_iff vis root c1).mp h with h | ⟨h, _⟩
          · rcases hgray c1 h with hd | ht
            · exact Or.inr hd
            · exact absurd (Relation.TransGen.tail ht hstep1) (hacyc c1)
          · exact absurd h hnotroot1
      have hdc2 : c2 ∈ r2 ∨ c2 ∈ r3 ∨ don.getD c2 false = true := by
        rcases spec3.hit with h | h
        · exact Or.inr (Or.inl h)
        · rcases (spec2.union c2).mp h with h | h
          · rcases (mark_iff vis root c2).mp h with h | ⟨h, _⟩
            · rcases hgray c2 h with hd | ht
              · exact Or.inr (Or.inr hd)
              · exact absurd (Relation.TransGen.tail ht hstep2) (hacyc c2)
            · exact absurd h hnotroot2
          · exact Or.inl h
      have hrootnin2 : root ∉ r2 := by
        intro h
        have := spec2.fresh root h
        rw [(mark_iff vis root root).mpr (Or.inr ⟨rfl, hrv⟩)] at this
        cases this
      have hrootnin3 : root ∉ r3 := by
        intro h
        have := spec3.fresh root h
        rw [(spec2.union root).mpr (Or.inl ((mark_iff vis root root).mpr
          (Or.inr ⟨rfl, hrv⟩)))] at this
        cases this
      have hdisj : ∀ x ∈ r2, x ∉ r3 := by
        intro x hx hx3
        have h1 := spec3.fresh x hx3
        have h2 := (spec2.union x).mpr (Or.inr hx)
        rw [h2] at h1
        cases h1
      rw [hunf]
      exact
        { len := by
            have h3 : v3.length = v2.length := spec3.len
            rw [h3, hv2len, ← hvl]
          union := by
            intro x
            have h3 := spec3.union x
            have h2 := spec2.union x
            have h1 := mark_iff vis root x
            simp only [List.mem_append, List.mem_singleton]
            constructor
            · intro h
              rcases (h3.mp h) with h | h
              · rcases h2.mp h with h | h
                · rcases h1.mp h with h | ⟨rfl, _⟩
                  · exact Or.inl h
                  · exact Or.inr (Or.inr rfl)
                · exact Or.inr (Or.inl (Or.inl h))
              · exact Or.inr (Or.inl (Or.inr h))
            · rintro (h | (h | h) | rfl)
              · exact h3.mpr (Or.inl (h2.mpr (Or.inl (h1.mpr (Or.inl h)))))
              · exact h3.mpr (Or.inl (h2.mpr (Or.inr h)))
              · exact h3.mpr (Or.inr h)
              · exact h3.mpr (Or.inl (h2.mpr (Or.inl (h1.mpr (Or.inr ⟨rfl, hrv⟩)))))
          fresh := by
            intro x hx
            simp only [List.mem_append, List.mem_singleton] at hx
            rcases hx with (hx | hx) | rfl
            · have hf := spec2.fresh x hx
              rcases hb : vis.getD x false with _ | _
              · rfl
              · rw [(mark_iff vis root x).mpr (Or.inl hb)] at hf
                cases hf
            · have hf := spec3.fresh x hx
              rcases hb : vis.getD x false with _ | _
              · rfl
              · rw [(spec2.union x).mpr (Or.inl ((mark_iff vis root x).mpr (Or.inl hb)))] at hf
                cases hf
            · exact hunv
          nodup := by
            rw [List.append_assoc, List.nodup_append]
            refine ⟨spec2.nodup, ?_, ?_⟩
            · rw [List.nodup_append]
              refine ⟨spec3.nodup, List.nodup_singleton root, ?_⟩
              intro x hx hx2
              rw [List.mem_singleton] at hx2
              subst hx2
              exact hrootnin3 hx
            · intro x hx hx2
              rcases List.mem_append.mp hx2 with h | h
              · exact hdisj x hx h
              · rw [List.mem_singleton] at h
                subst h
                exact hrootnin2 hx
          rootMem := by simp
          reach := by
            intro x hx
            simp only [List.mem_append, List.mem_singleton] at hx
            rcases hx with (hx | hx) | rfl
            · exact Relation.ReflTransGen.head hstep1 (spec2.reach x hx)
            · exact Relation.ReflTransGen.head hstep2 (spec3.reach x hx)
            · exact Relation.ReflTransGen.refl
          ranges := by
            intro x hx
            simp only [List.mem_append, List.mem_singleton] at hx
            rcases hx with (hx | hx) | rfl
            · exact spec2.ranges x hx
            · exact spec3.ranges x hx
            · exact hr
          good := by
            rw [goodFrom_append, goodFrom_append, markAll_append]
            refine ⟨⟨spec2.good, spec3.good⟩, ?_, trivial⟩
            intro c hc
            unfold childStep at hc
            rw [hch] at hc
            have hmm : ∀ y, (y ∈ r2 ∨ y ∈ r3 ∨ don.getD y false = true) →
                y < edges.length →
                (markAll (markAll don r2) r3).getD y false = true := by
              intro y hy hyr
              have hl2 : y < (markAll don r2).length := by
                rw [markAll_length, hdl]; exact hyr
              rcases hy with hy | hy | hy
              · exact markAll_mono ((markAll_iff r2 don y).mpr (Or.inr ⟨hy, hdl ▸ hyr⟩))
              · exact (markAll_iff r3 (markAll don r2) y).mpr (Or.inr ⟨hy, hl2⟩)
              · exact markAll_mono ((markAll_iff r2 don y).mpr (Or.inl hy))
            rcases List.mem_pair.mp hc with rfl | rfl
            · refine hmm c ?_ hc1r
              rcases hdc1 with h | h
              · exact Or.inl h
              · exact Or.inr (Or.inr h)
            · exact hmm c hdc2 hc2r
          cnt := by
            have h3 : countFalse v2 = countFalse v3 + r3.length := spec3.cnt
            simp only [List.length_append, List.length_singleton]
            omega }

theorem boolEqOfIff {a b : Bool} (h : a = true ↔ b = true) : a = b := by
  rcases ha : a with _ | _ <;> rcases hb : b with _ | _
  · rfl
  · rw [ha, hb] at h
    exact absurd (h.mpr rfl) (by simp)
  · rw [ha, hb] at h
    exact absurd (h.mp rfl) (by simp)
  · rfl

theorem goodFrom_congr (edges : List FMIEdge) (l : List Nat) :
    ∀ (d1 d2 : List Bool), d1.length = d2.length →
    (∀ y, d1.getD y false = d2.getD y false) →
    (goodFrom edges d1 l ↔ goodFrom edges d2 l) := by
  induction l with
  | nil => intro d1 d2 _ _; exact Iff.rfl
  | cons x xs ih =>
    intro d1 d2 hlen hpt
    have hml : (mark d1 x).length = (mark d2 x).length := by
      rw [mark_length, mark_length, hlen]
    have hmp : ∀ y, (mark d1 x).getD y false = (mark d2 x).getD y false := by
      intro y
      refine boolEqOfIff ?_
      rw [mark_iff, mark_iff, hpt y, hlen]
    simp only [goodFrom]
    rw [ih (mark d1 x) (mark d2 x) hml hmp]
    constructor
    · rintro ⟨h1, h2⟩
      exact ⟨fun c hc => (hpt c) ▸ h1 c hc, h2⟩
    · rintro ⟨h1, h2⟩
      exact ⟨fun c hc => (hpt c).symm ▸ h1 c hc, h2⟩

theorem edgeTopSortLoop_spec (edges : List FMIEdge)
    (hrange : ∀ a b, childStep edges a b → b < edges.length)
    (hacyc : Acyclic edges) :
    ∀ (ids : List Nat) (vis : List Bool),
      vis.length = edges.length →
      (∀ x ∈ ids, x < edges.length) →
      LoopSpec edges vis (edgeTopSortLoop edges ids vis) ∧
      (∀ x ∈ ids, (edgeTopSortLoop edges ids vis).1.getD x false = true) := by
  intro ids
  induction ids with
  | nil =>
    intro vis hvl _
    constructor
    · exact
        { len := rfl
          union := by simp [edgeTopSortLoop]
          fresh := by simp [edgeTopSortLoop]
          nodup := List.nodup_nil
          ranges := by simp [edgeTopSortLoop]
          good := trivial
          cnt := by simp [edgeTopSortLoop] }
    · simp
  | cons id ids ih =>
    intro vis hvl hir
    have hidr : id < edges.length := hir id (List.mem_cons_self _ _)
    have hunf : edgeTopSortLoop edges (id :: ids) vis =
        (if vis.getD id false then edgeTopSortLoop edges ids vis
         else
           ((edgeTopSortLoop edges ids (topSortRec edges (edges.length + 1) id vis).1).1,
            (topSortRec edges (edges.length + 1) id vis).2 ++
            (edgeTopSortLoop edges ids (topSortRec edges (edges.length + 1) id vis).1).2)) := by
      simp only [edgeTopSortLoop]
    rw [hunf]
    split
    · next hb =>
      obtain ⟨R, Rcomp⟩ := ih vis hvl (fun x hx => hir x (List.mem_cons_of_mem _ hx))
      refine ⟨R, fun x hx => ?_⟩
      rcases List.mem_cons.mp hx with rfl | hx
      · exact (R.union x).mpr (Or.inl hb)
      · exact Rcomp x hx
    · next hb =>
      have hb0 : vis.getD id false = false := by simpa using hb
      have S : DFSSpec edges vis vis id (topSortRec edges (edges.length + 1) id vis) :=
        topSortRec_spec edges hrange hacyc (edges.length + 1) vis vis id hvl hvl hidr hb0
          (le_trans (le_trans (countFalse_le_length vis) (le_of_eq hvl)) (Nat.le_succ _))
          (fun _ hx => hx) (fun _ hx => Or.inl hx)
      obtain ⟨v1, r1, hs1⟩ : ∃ v1 r1, topSortRec edges (edges.length + 1) id vis = (v1, r1) :=
        ⟨_, _, rfl⟩
      rw [hs1]
      rw [hs1] at S
      have hv1len : v1.length = edges.length := S.len.trans hvl
      obtain ⟨R, Rcomp⟩ := ih v1 hv1len (fun x hx => hir x (List.mem_cons_of_mem _ hx))
      refine ⟨?_, ?_⟩
      · exact
          { len := R.len.trans (S.len)
            union := by
              intro x
              have h2 := R.union x
              have h1 := S.union x
              simp only [List.mem_append]
              constructor
              · intro h
                rcases h2.mp h with h | h
                · rcases h1.mp h with h | h
                  · exact Or.inl h
                  · exact Or.inr (Or.inl h)
                · exact Or.inr (Or.inr h)
              · rintro (h | h | h)
                · exact h2.mpr (Or.inl (h1.mpr (Or.inl h)))
                · exact h2.mpr (Or.inl (h1.mpr (Or.inr h)))
                · exact h2.mpr (Or.inr h)
            fresh := by
              intro x hx
              rcases List.mem_append.mp hx with hx | hx
              · exact S.fresh x hx
              · have hf := R.fresh x hx
                rcases hq : vis.getD x false with _ | _
                · rfl
                · rw [(S.union x).mpr (Or.inl hq)] at hf
                  cases hf
            nodup := by
              rw [List.nodup_append]
              refine ⟨S.nodup, R.nodup, ?_⟩
              intro x hx hx2
              have hf := R.fresh x hx2
              rw [(S.union x).mpr (Or.inr hx)] at hf
              cases hf
            ranges := by
              intro x hx
              rcases List.mem_append.mp hx with hx | hx
              · exact S.ranges x hx
              · exact R.ranges x hx
            good := by
              rw [goodFrom_append]
              refine ⟨S.good, ?_⟩
              have hlen2 : (markAll vis r1).length = v1.length := by
                rw [markAll_length, hvl, hv1len]
              have hpt : ∀ y, (markAll vis r1).getD y false = v1.getD y false := by
                intro y
                refine boolEqOfIff ?_
                rw [markAll_iff, S.union y]
                constructor
                · rintro (h | ⟨h, _⟩)
                  · exact Or.inl h
                  · exact Or.inr h
                · rintro (h | h)
                  · exact Or.inl h
                  · exact Or.inr ⟨h, by rw [hvl]; exact S.ranges y h⟩
              exact (goodFrom_congr edges _ (markAll vis r1) v1 hlen2 hpt).mpr R.good
            cnt := by
              have h1 := S.cnt
              have h2 := R.cnt
              dsimp only at h1 h2 ⊢
              rw [List.length_append]
              omega }
      · intro x hx
        rcases List.mem_cons.mp hx with rfl | hx
        · have : v1.getD x false = true := (S.union x).mpr (Or.inr S.rootMem)
          exact (R.union x).mpr (Or.inl this)
        · exact Rcomp x hx

theorem replicate_getD_false (m x : Nat) : (List.replicate m false).getD x false = false := by
  rw [List.getD_eq_getElem?_getD, List.getElem?_replicate]
  split <;> rfl

/-- Properties of the DFS postorder over all edges: no duplicates, it
enumerates exactly the edge ids, every element's children appear earlier. -/
theorem postOrder_facts (edges : List FMIEdge)
    (hrange : ∀ a b, childStep edges a b → b < edges.length)
    (hacyc : Acyclic edges) :
    let L := (edgeTopSortLoop edges (List.range edges.length)
      (List.replicate edges.length false)).2
    L.Nodup ∧ (∀ x ∈ L, x < edges.length) ∧ (∀ x, x < edges.length → x ∈ L) ∧
    goodFrom edges (List.replicate edges.length false) L ∧
    L.length = edges.length := by
  intro L
  obtain ⟨R, Rcomp⟩ := edgeTopSortLoop_spec edges hrange hacyc (List.range edges.length)
    (List.replicate edges.length false) (by rw [List.length_replicate])
    (by intro x hx; simpa using hx)
  have hmem : ∀ x, x < edges.length → x ∈ L := by
    intro x hx
    have h := Rcomp x (List.mem_range.mpr hx)
    rcases (R.union x).mp h with h | h
    · rw [replicate_getD_false] at h
      cases h
    · exact h
  refine ⟨R.nodup, R.ranges, hmem, R.good, ?_⟩
  have hcnt := R.cnt
  have hc1 : countFalse (List.replicate edges.length false) = edges.length := by
    unfold countFalse
    rw [List.count_replicate]
    simp
  have hlen1 : (edgeTopSortLoop edges (List.range edges.length)
      (List.replicate edges.length false)).1.length = edges.length := by
    rw [R.len, List.length_replicate]
  have hc0 : countFalse (edgeTopSortLoop edges (List.range edges.length)
      (List.replicate edges.length false)).1 = 0 := by
    unfold countFalse
    rw [List.count_eq_zero]
    intro hmem0
    obtain ⟨i, hi, hgi⟩ := List.getElem_of_mem hmem0
    have hit : (edgeTopSortLoop edges (List.range edges.length)
        (List.replicate edges.length false)).1.getD i false = true := by
      rcases (R.union i).mpr (Or.inr (hmem i (by rw [← hlen1]; exact hi))) with h
      exact h
    rw [List.getD_eq_getElem _ _ hi, hgi] at hit
    cases hit
  have hLdef : L.length = (edgeTopSortLoop edges (List.range edges.length)
      (List.replicate edges.length false)).2.length := rfl
  omega

/-- Writing positions through the `edge_id_map` fold: an id set nowhere
keeps the accumulator value. -/
theorem setFold_notmem (ps : List (Nat × Nat)) :
    ∀ (acc : List Nat) (x : Nat), (∀ q ∈ ps, q.2 ≠ x) →
    (ps.foldl (fun a q => a.set q.2 q.1) acc).getD x 0 = acc.getD x 0 := by
  induction ps with
  | nil => intro acc x _; rfl
  | cons p ps ih =>
    intro acc x hne
    simp only [List.foldl_cons]
    rw [ih _ x (fun q hq => hne q (List.mem_cons_of_mem _ hq))]
    exact getD_set_ne acc (hne p (List.mem_cons_self _ _)) p.1 0

/-- With distinct written ids, the fold writes each pair's index at its id. -/
theorem setFold_mem (ps : List (Nat × Nat)) :
    ∀ (acc : List Nat) (i x : Nat), (ps.map Prod.snd).Nodup →
    (i, x) ∈ ps → x < acc.length →
    (ps.foldl (fun a q => a.set q.2 q.1) acc).getD x 0 = i := by
  induction ps with
  | nil => intro _ _ _ _ h; cases h
  | cons p ps ih =>
    intro acc i x hnd hmem hlen
    simp only [List.foldl_cons]
    have hmap : (p :: ps).map Prod.snd = p.2 :: ps.map Prod.snd := rfl
    rw [hmap] at hnd
    have hhead := (List.nodup_cons.mp hnd).1
    have htail := (List.nodup_cons.mp hnd).2
    rcases List.mem_cons.mp hmem with rfl | hmem
    · have hx : ∀ q ∈ ps, q.2 ≠ (i, x).2 := by
        intro q hq hqx
        exact hhead (hqx ▸ List.mem_map_of_mem Prod.snd hq)
      rw [setFold_notmem ps _ _ hx]
      exact getD_set_self acc hlen i 0
    · exact ih _ i x htail hmem (by rw [List.length_set]; exact hlen)

/-- `edge_id_map[x]` is the position of `x` in the topsorted sequence. -/
theorem edgeIdMapOf_getD (ts : List Nat) (m : Nat) (hnd : ts.Nodup)
    (hr : ∀ x ∈ ts, x < m) (i x : Nat) (hx : ts[i]? = some x) :
    (edgeIdMapOf ts m).getD x 0 = i := by
  unfold edgeIdMapOf
  refine setFold_mem ts.enum (List.replicate m 0) i x ?_ ?_ ?_
  · rw [List.enum_map_snd]
    exact hnd
  · exact List.mk_mem_enum_iff_get?.mpr (by rw [List.get?_eq_getElem?]; exact hx)
  · rw [List.length_replicate]
    exact hr x (List.getElem?_mem hx)

/-- Sufficient per-edge condition for the range hypothesis on the child
relation (decidable on concrete graphs). -/
theorem hrange_of_forall (edges : List FMIEdge)
    (h : ∀ e ∈ edges, childBound edges.length e = true) :
    ∀ a b, childStep edges a b → b < edges.length := by
  intro a b hs
  unfold childStep childrenOf at hs
  rcases hq1 : (edges.getD a default).child1 with _ | c1 <;> rw [hq1] at hs
  · cases hs
  rcases hq2 : (edges.getD a default).child2 with _ | c2 <;> rw [hq2] at hs
  · cases hs
  have ha : a < edges.length := by
    by_contra hc
    rw [List.getD_eq_default _ _ (Nat.le_of_not_lt hc)] at hq1
    cases hq1
  have hmm : edges.getD a default ∈ edges := by
    rw [List.getD_eq_getElem _ _ ha]
    exact List.getElem_mem ha
  have hb := h _ hmm
  unfold childBound at hb
  rw [hq1, hq2] at hb
  simp only [Bool.and_eq_true, decide_eq_true_eq] at hb
  rcases List.mem_pair.mp hs with rfl | rfl
  · exact hb.1
  · exact hb.2

/-- A ranking function decreasing along every child step gives acyclicity. -/
theorem acyclic_of_rank (edges : List FMIEdge) (f : Nat → Nat)
    (h : ∀ a b, childStep edges a b → f b < f a) : Acyclic edges := by
  intro a hcyc
  have hlt : ∀ x y, Relation.TransGen (childStep edges) x y → f y < f x := by
    intro x y ht
    induction ht with
    | single h1 => exact h _ _ h1
    | tail _ h1 ih => exact lt_trans (h _ _ h1) ih
  exact absurd (hlt a a hcyc) (Nat.lt_irrefl _)

/-- Per-edge decidable form of the ranking condition. -/
theorem rank_of_forall (edges : List FMIEdge) (f : Nat → Nat)
    (h : ∀ i, i < edges.length → rankOk edges f i = true) :
    ∀ a b, childStep edges a b → f b < f a := by
  intro a b hs
  unfold childStep childrenOf at hs
  rcases hq1 : (edges.getD a default).child1 with _ | c1 <;> rw [hq1] at hs
  · cases hs
  rcases hq2 : (edges.getD a default).child2 with _ | c2 <;> rw [hq2] at hs
  · cases hs
  have ha : a < edges.length := by
    by_contra hc
    rw [List.getD_eq_default _ _ (Nat.le_of_not_lt hc)] at hq1
    cases hq1
  have hb := h a ha
  unfold rankOk at hb
  rw [hq1, hq2] at hb
  simp only [Bool.and_eq_true, decide_eq_true_eq] at hb
  rcases List.mem_pair.mp hs with rfl | rfl
  · exact hb.1
  · exact hb.2

/-- **C5**: for a `ToporderedGraph` built from a parsed graph whose
shortcut → child relation is acyclic (and whose children indices are in
range), every shortcut's topological position is strictly smaller than
both children's positions: `toporder(e) < toporder(c1)` and
`toporder(e) < toporder(c2)`.  Since `iter_edges_topordered` yields the
edges sorted by `toporder`, every shortcut is yielded before either of
its children. -/
theorem C5_toporder (fmi : FMIGraph)
    (hrange : ∀ a b, childStep fmi.edges a b → b < fmi.edges.length)
    (hacyc : Acyclic fmi.edges)
    (e c1 c2 : Nat)
    (hc1 : (fmi.edges.getD e default).child1 = some c1)
    (hc2 : (fmi.edges.getD e default).child2 = some c2)
    (he : e < fmi.edges.length) :
    (toporderedOfFMI fmi).toporder e < (toporderedOfFMI fmi).toporder c1 ∧
    (toporderedOfFMI fmi).toporder e < (toporderedOfFMI fmi).toporder c2 := by
  obtain ⟨hnd, hrangeL, hcompl, hgood, hlen⟩ := postOrder_facts fmi.edges hrange hacyc
  set L := (edgeTopSortLoop fmi.edges (List.range fmi.edges.length)
    (List.replicate fmi.edges.length false)).2 with hL
  have hts : edgeTopSort fmi.edges = L.reverse := rfl
  have htop : ∀ x, (toporderedOfFMI fmi).toporder x =
      (edgeIdMapOf L.reverse fmi.edges.length).getD x 0 := by
    intro x
    unfold toporderedOfFMI ToporderedGraph.toporder
    rw [hts]
  have hstep : childStep fmi.edges e c1 ∧ childStep fmi.edges e c2 := by
    unfold childStep childrenOf
    rw [hc1, hc2]
    simp
  -- position of e in the postorder list
  obtain ⟨j, hj, hje⟩ := List.getElem_of_mem (hcompl e he)
  have hjq : L[j]? = some e := by
    rw [List.getElem?_eq_getElem hj, hje]
  -- children appear strictly earlier in the postorder
  have hpos : ∀ c, childStep fmi.edges e c → ∃ i, i < j ∧ L[i]? = some c := by
    intro c hcs
    rcases goodFrom_position fmi.edges L _ j e hjq hgood c hcs with hdon | hout
    · rw [replicate_getD_false] at hdon
      cases hdon
    · exact hout
  have hrev : ∀ (k : Nat), k < L.length → ∀ y, L[k]? = some y →
      (edgeIdMapOf L.reverse fmi.edges.length).getD y 0 = L.length - 1 - k := by
    intro k hk y hky
    refine edgeIdMapOf_getD L.reverse fmi.edges.length (List.nodup_reverse.mpr hnd)
      (fun x hx => hrangeL x (List.mem_reverse.mp hx)) (L.length - 1 - k) y ?_
    rw [List.getElem?_reverse (by omega)]
    have : L.length - 1 - (L.length - 1 - k) = k := by omega
    rw [this]
    exact hky
  obtain ⟨i1, hi1, hq1⟩ := hpos c1 hstep.1
  obtain ⟨i2, hi2, hq2⟩ := hpos c2 hstep.2
  have h1 := hrev j hj e hjq
  have h2 := hrev i1 (lt_trans hi1 hj) c1 hq1
  have h3 := hrev i2 (lt_trans hi2 hj) c2 hq2
  rw [htop e, htop c1, htop c2, h1, h2, h3]
  omega

/-- Witness for `C5_toporder` on the concrete corruption graph, whose
only shortcut is edge 2 with children 0 and 1. -/
theorem C5_toporder_witness :
    (toporderedOfFMI fmiCorrupt).toporder 2 < (toporderedOfFMI fmiCorrupt).toporder 0 ∧
    (toporderedOfFMI fmiCorrupt).toporder 2 < (toporderedOfFMI fmiCorrupt).toporder 1 := by
  have hrange : ∀ a b, childStep fmiCorrupt.edges a b → b < fmiCorrupt.edges.length := by
    refine hrange_of_forall fmiCorrupt.edges ?_
    decide
  have hacyc : Acyclic fmiCorrupt.edges := by
    refine acyclic_of_rank fmiCorrupt.edges (fun a => if a = 2 then 1 else 0) ?_
    refine rank_of_forall fmiCorrupt.edges _ ?_
    decide
  exact C5_toporder fmiCorrupt hrange hacyc 2 0 1 (by decide) (by decide) (by decide)

/-!  ### Machinery for the amended hitting-set claims -/

theorem VH_pos_id {g : ToporderedGraph} (h : ValidHS g) {k : Nat}
    (hk : k < g.edges.length) : g.toporder ((g.edges.getD k default).id) = k :=
  h.2.1 k hk

theorem VH_id_lt {g : ToporderedGraph} (h : ValidHS g) {k : Nat}
    (hk : k < g.edges.length) : (g.edges.getD k default).id < g.edges.length :=
  h.2.2.1 k hk

theorem VH_childOk {g : ToporderedGraph} (h : ValidHS g) {E : HSEdge}
    (hE : E ∈ g.edges) : childOk g E = true :=
  h.2.2.2.1 E hE

theorem VH_endpoints {g : ToporderedGraph} (h : ValidHS g) {E : HSEdge}
    (hE : E ∈ g.edges) : E.source < g.numNodes ∧ E.target < g.numNodes :=
  h.2.2.2.2.1 E hE

theorem VH_top_lt {g : ToporderedGraph} (h : ValidHS g) {id : Nat}
    (hid : id < g.edges.length) : g.toporder id < g.edges.length :=
  (h.2.2.2.2.2.1 id hid).1

theorem VH_edge_id {g : ToporderedGraph} (h : ValidHS g) {id : Nat}
    (hid : id < g.edges.length) : (g.edge id).id = id :=
  (h.2.2.2.2.2.1 id hid).2

theorem VH_eparents_lt {g : ToporderedGraph} (h : ValidHS g) {E : HSEdge}
    (hE : E ∈ g.edges) {q : Nat} (hq : q ∈ E.parents) : q < g.edges.length :=
  h.2.2.2.2.2.2.1 E hE q hq

theorem VH_nparents_lt {g : ToporderedGraph} (h : ValidHS g) {N : HSNode}
    (hN : N ∈ g.nodes) {q : Nat} (hq : q ∈ N.parents) : q < g.edges.length :=
  h.2.2.2.2.2.2.2.1 N hN q hq

theorem VH_eparent_iff {g : ToporderedGraph} (h : ValidHS g) {id c : Nat}
    (hid : id < g.edges.length) (hc : c < g.edges.length) :
    id ∈ (g.edge c).parents ↔ isShortcutChild g id c = true :=
  h.2.2.2.2.2.2.2.2.1 id hid c hc

theorem VH_nparent_iff {g : ToporderedGraph} (h : ValidHS g) {n b : Nat}
    (hn : n < g.numNodes) (hb : b < g.edges.length) :
    b ∈ (g.node n).parents ↔ isBaseIncident g b n = true :=
  h.2.2.2.2.2.2.2.2.2 n hn b hb

theorem VH_edge_mem {g : ToporderedGraph} (h : ValidHS g) {id : Nat}
    (hid : id < g.edges.length) : g.edge id ∈ g.edges := by
  have ht := VH_top_lt h hid
  unfold ToporderedGraph.edge
  rw [show g.edgeIdMap.getD id 0 = g.toporder id from rfl]
  rw [List.getD_eq_getElem _ _ ht]
  exact List.getElem_mem ht

theorem VH_edge_of_pos {g : ToporderedGraph} (h : ValidHS g) {k : Nat}
    (hk : k < g.edges.length) :
    g.edge ((g.edges.getD k default).id) = g.edges.getD k default := by
  unfold ToporderedGraph.edge
  rw [show g.edgeIdMap.getD ((g.edges.getD k default).id) 0 =
      g.toporder ((g.edges.getD k default).id) from rfl, VH_pos_id h hk]

theorem VH_top_inj {g : ToporderedGraph} (h : ValidHS g) {a b : Nat}
    (ha : a < g.edges.length) (hb : b < g.edges.length)
    (heq : g.toporder a = g.toporder b) : a = b := by
  have h1 : (g.edge a).id = a := VH_edge_id h ha
  have h2 : (g.edge b).id = b := VH_edge_id h hb
  have h3 : g.edge a = g.edge b := by
    unfold ToporderedGraph.edge
    rw [show g.edgeIdMap.getD a 0 = g.toporder a from rfl,
        show g.edgeIdMap.getD b 0 = g.toporder b from rfl, heq]
  rw [← h1, ← h2, h3]

theorem VH_mem_id {g : ToporderedGraph} (h : ValidHS g) {E : HSEdge}
    (hE : E ∈ g.edges) : E.id < g.edges.length ∧ g.edge E.id = E := by
  obtain ⟨k, hk, hEk⟩ := List.getElem_of_mem hE
  have hgd : g.edges.getD k default = E := by
    rw [List.getD_eq_getElem _ _ hk, hEk]
  refine ⟨?_, ?_⟩
  · have := VH_id_lt h hk; rwa [hgd] at this
  · have := VH_edge_of_pos h hk; rwa [hgd] at this

theorem VH_children {g : ToporderedGraph} (h : ValidHS g) {e c1 c2 : Nat}
    (he : e < g.edges.length)
    (hc1 : (g.edge e).child1 = some c1) (hc2 : (g.edge e).child2 = some c2) :
    c1 < g.edges.length ∧ c2 < g.edges.length ∧ c1 ≠ c2 ∧
    g.toporder e < g.toporder c1 ∧ g.toporder e < g.toporder c2 := by
  have hok := VH_childOk h (VH_edge_mem h he)
  unfold childOk at hok
  rw [hc1, hc2] at hok
  simp only [Bool.and_eq_true, decide_eq_true_eq] at hok
  rw [VH_edge_id h he] at hok
  exact ⟨hok.1.1.1.1, hok.1.1.1.2, hok.1.1.2, hok.1.2, hok.2⟩

theorem VH_ids_nodup {g : ToporderedGraph} (h : ValidHS g) :
    (g.edges.map (fun E => E.id)).Nodup := by
  rw [List.nodup_iff_injective_get]
  intro i j heq
  have hi : (i : Nat) < g.edges.length := by
    have := i.isLt; simpa using this
  have hj : (j : Nat) < g.edges.length := by
    have := j.isLt; simpa using this
  rw [List.get_map, List.get_map] at heq
  have h1 : g.edges.getD (i : Nat) default = g.edges.get ⟨(i : Nat), hi⟩ := by
    rw [List.getD_eq_getElem _ _ hi]; rfl
  have h2 : g.edges.getD (j : Nat) default = g.edges.get ⟨(j : Nat), hj⟩ := by
    rw [List.getD_eq_getElem _ _ hj]; rfl
  have htop1 := VH_pos_id h hi
  have htop2 := VH_pos_id h hj
  rw [h1] at htop1
  rw [h2] at htop2
  have hid_eq : (g.edges.get ⟨(i : Nat), hi⟩).id = (g.edges.get ⟨(j : Nat), hj⟩).id := by
    simpa using heq
  have : (i : Nat) = (j : Nat) := by
    rw [← htop1, ← htop2, hid_eq]
  ext
  simpa using this

theorem mem_iff_getD {α : Type} (l : List α) (d : α) (p : α) :
    p ∈ l ↔ ∃ i, i < l.length ∧ l.getD i d = p := by
  constructor
  · intro hp
    obtain ⟨i, hi, he⟩ := List.getElem_of_mem hp
    exact ⟨i, hi, by rw [List.getD_eq_getElem _ _ hi, he]⟩
  · rintro ⟨i, hi, he⟩
    rw [List.getD_eq_getElem _ _ hi] at he
    exact he ▸ List.getElem_mem hi

theorem sum_map_add {α : Type} (l : List α) (f h : α → Nat) :
    (l.map (fun x => f x + h x)).sum = (l.map f).sum + (l.map h).sum := by
  induction l with
  | nil => rfl
  | cons x xs ih => simp [ih]; omega

theorem sum_map_zero {α : Type} (l : List α) (f : α → Nat)
    (h : ∀ x ∈ l, f x = 0) : (l.map f).sum = 0 := by
  induction l with
  | nil => rfl
  | cons x xs ih =>
    simp only [List.map_cons, List.sum_cons]
    rw [h x (List.mem_cons_self _ _), ih (fun y hy => h y (List.mem_cons_of_mem _ hy))]

theorem le_sum_of_mem {α : Type} {l : List α} (f : α → Nat) {x : α}
    (hx : x ∈ l) : f x ≤ (l.map f).sum := by
  induction l with
  | nil => cases hx
  | cons y ys ih =>
    simp only [List.map_cons, List.sum_cons]
    rcases List.mem_cons.mp hx with rfl | hx
    · exact Nat.le_add_right _ _
    · exact le_trans (ih hx) (Nat.le_add_left _ _)

theorem sum_set {α : Type} (f : α → Nat) (q d : α) :
    ∀ (l : List α) (i : Nat), i < l.length →
    ((l.set i q).map f).sum + f (l.getD i d) = (l.map f).sum + f q := by
  intro l
  induction l with
  | nil => intro i hi; cases hi
  | cons x xs ih =>
    intro i hi
    cases i with
    | zero =>
      simp only [List.set_cons_zero, List.map_cons, List.sum_cons, List.getD_cons_zero]
      omega
    | succ j =>
      simp only [List.set_cons_succ, List.map_cons, List.sum_cons, List.getD_cons_succ]
      have := ih j (by simpa using hi)
      omega

theorem getD_replicate_zero (m x : Nat) : (List.replicate m (0 : Nat)).getD x 0 = 0 := by
  rcases Nat.lt_or_ge x m with hx | hx
  · rw [List.getD_eq_getElem _ _ (by simpa using hx)]
    simp
  · rw [List.getD_eq_default]
    simpa using hx

theorem histInc_length (eh : List Nat) (c v : Nat) :
    (histInc eh c v).length = eh.length := by
  unfold histInc; exact List.length_set _ _ _

theorem histInc_getD {eh : List Nat} {c : Nat} (hc : c < eh.length) (v x : Nat) :
    (histInc eh c v).getD x 0 = eh.getD x 0 + if x = c then v else 0 := by
  by_cases hx : x = c
  · subst hx
    unfold histInc
    rw [getD_set_self _ hc, if_pos rfl]
  · unfold histInc
    rw [getD_set_ne _ (fun hh => hx hh.symm), if_neg hx]
    omega

theorem histUpd_length (u : Bool) (h : List Nat) (i v : Nat) :
    (histUpd u h i v).length = h.length := by
  unfold histUpd histDec histInc
  cases u <;> simp

theorem histUpd_getD (u : Bool) {h : List Nat} {i : Nat} (hi : i < h.length)
    (v x : Nat) :
    (histUpd u h i v).getD x 0 =
      if x = i then (if u then h.getD x 0 - v else h.getD x 0 + v)
      else h.getD x 0 := by
  by_cases hx : x = i
  · subst hx
    cases u <;>
      simp only [histUpd, histDec, histInc, if_pos rfl, Bool.false_eq_true,
        if_false, if_true] <;>
      rw [getD_set_self _ hi]
  · cases u <;>
      simp only [histUpd, histDec, histInc, if_neg hx, Bool.false_eq_true,
        if_false, if_true] <;>
      rw [getD_set_ne _ (fun hh => hx hh.symm)]

theorem sumIds_nil (g : ToporderedGraph) (f : Nat → Nat) (n : Nat) :
    sumIds g [] f n = 0 := rfl

theorem sumIds_cons (g : ToporderedGraph) (x : Nat) (ids : List Nat)
    (f : Nat → Nat) (n : Nat) :
    sumIds g (x :: ids) f n = f x * multT g n x + sumIds g ids f n := by
  simp [sumIds]

theorem sumIds_congr {g : ToporderedGraph} {ids : List Nat} {f f2 : Nat → Nat}
    {n : Nat} (h : ∀ e ∈ ids, f e = f2 e) : sumIds g ids f n = sumIds g ids f2 n := by
  unfold sumIds
  congr 1
  exact List.map_congr_left (fun e he => by rw [h e he])

theorem sumIds_add (g : ToporderedGraph) (ids : List Nat) (f f2 : Nat → Nat)
    (n : Nat) :
    sumIds g ids (fun e => f e + f2 e) n = sumIds g ids f n + sumIds g ids f2 n := by
  induction ids with
  | nil => rfl
  | cons x xs ih =>
    rw [sumIds_cons, sumIds_cons, sumIds_cons, ih]
    ring

theorem sumIds_zero {g : ToporderedGraph} {ids : List Nat} {f : Nat → Nat}
    {n : Nat} (h : ∀ e ∈ ids, f e = 0) : sumIds g ids f n = 0 := by
  induction ids with
  | nil => rfl
  | cons x xs ih =>
    rw [sumIds_cons, h x (List.mem_cons_self _ _),
      ih (fun y hy => h y (List.mem_cons_of_mem _ hy))]
    simp

theorem sumIds_delta {g : ToporderedGraph} {ids : List Nat} {c : Nat}
    (hnd : ids.Nodup) (hmem : c ∈ ids) (v n : Nat) :
    sumIds g ids (fun e => if e = c then v else 0) n = v * multT g n c := by
  induction ids with
  | nil => cases hmem
  | cons x xs ih =>
    obtain ⟨hx, hxs⟩ := List.nodup_cons.mp hnd
    rw [sumIds_cons]
    rcases List.mem_cons.mp hmem with rfl | hmem2
    · rw [if_pos rfl, sumIds_zero (fun e he => ?_)]
      · omega
      · rw [if_neg]; intro heq; exact hx (heq ▸ he)
    · rw [if_neg, ih hxs hmem2]
      · omega
      · intro heq; exact hx (heq ▸ hmem2)

theorem sumIds_histInc {g : ToporderedGraph} {ids : List Nat} {eh : List Nat}
    {c : Nat} (hnd : ids.Nodup) (hc : c < eh.length) (v n : Nat) :
    sumIds g ids (fun e => (histInc eh c v).getD e 0) n =
      sumIds g ids (fun e => eh.getD e 0) n +
      (if c ∈ ids then v * multT g n c else 0) := by
  have h1 : sumIds g ids (fun e => (histInc eh c v).getD e 0) n =
      sumIds g ids (fun e => eh.getD e 0 + if e = c then v else 0) n :=
    sumIds_congr (fun e _ => histInc_getD hc v e)
  rw [h1, sumIds_add]
  by_cases hm : c ∈ ids
  · rw [if_pos hm, sumIds_delta hnd hm]
  · rw [if_neg hm]
    have hz : sumIds g ids (fun e => if e = c then v else 0) n = 0 := by
      refine sumIds_zero (fun e he => ?_)
      rw [if_neg]
      intro heq
      exact hm (heq ▸ he)
    rw [hz]

theorem sumIds_perm {g : ToporderedGraph} {ids1 ids2 : List Nat}
    (hp : ids1.Perm ids2) (f : Nat → Nat) (n : Nat) :
    sumIds g ids1 f n = sumIds g ids2 f n :=
  (hp.map _).sum_eq

theorem expand_stable {g : ToporderedGraph} (hval : ValidHS g) :
    ∀ (m e f1 f2 : Nat), e < g.numEdges →
    g.numEdges - g.toporder e ≤ m →
    g.numEdges - g.toporder e ≤ f1 → g.numEdges - g.toporder e ≤ f2 →
    expandEdgeHS g f1 e = expandEdgeHS g f2 e := by
  intro m
  induction m with
  | zero =>
    intro e f1 f2 he hm _ _
    exact absurd hm (by have := VH_top_lt hval he; unfold ToporderedGraph.numEdges at *; omega)
  | succ m ih =>
    intro e f1 f2 he hm h1 h2
    have htop := VH_top_lt hval he
    obtain ⟨g1, rfl⟩ : ∃ k, f1 = k + 1 := by
      cases f1 with
      | zero => exact absurd h1 (by unfold ToporderedGraph.numEdges at *; omega)
      | succ k => exact ⟨k, rfl⟩
    obtain ⟨g2, rfl⟩ : ∃ k, f2 = k + 1 := by
      cases f2 with
      | zero => exact absurd h2 (by unfold ToporderedGraph.numEdges at *; omega)
      | succ k => exact ⟨k, rfl⟩
    cases hc1 : (g.edge e).child1 with
    | none => simp only [expandEdgeHS, hc1]
    | some c1 =>
      cases hc2 : (g.edge e).child2 with
      | none => simp only [expandEdgeHS, hc1, hc2]
      | some c2 =>
        simp only [expandEdgeHS, hc1, hc2]
        obtain ⟨hl1, hl2, _, ht1, ht2⟩ := VH_children hval he hc1 hc2
        have htl1 := VH_top_lt hval hl1
        have htl2 := VH_top_lt hval hl2
        rw [ih c1 g1 g2 hl1 (by unfold ToporderedGraph.numEdges at *; omega)
              (by unfold ToporderedGraph.numEdges at *; omega)
              (by unfold ToporderedGraph.numEdges at *; omega),
            ih c2 g1 g2 hl2 (by unfold ToporderedGraph.numEdges at *; omega)
              (by unfold ToporderedGraph.numEdges at *; omega)
              (by unfold ToporderedGraph.numEdges at *; omega)]

theorem multT_base {g : ToporderedGraph} (_hval : ValidHS g) {e : Nat}
    (he : e < g.numEdges)
    (hb : (g.edge e).child1 = none ∨ (g.edge e).child2 = none) (n : Nat) :
    multT g n e = if (g.edge e).target = n then 1 else 0 := by
  have hexp : expandEdgeHS g g.numEdges e = [e] := by
    obtain ⟨k, hk⟩ : ∃ k, g.numEdges = k + 1 := by
      cases hne : g.numEdges with
      | zero => exact absurd he (by omega)
      | succ k => exact ⟨k, rfl⟩
    rw [hk]
    cases hc1 : (g.edge e).child1 with
    | none => simp only [expandEdgeHS, hc1]
    | some c1 =>
      cases hc2 : (g.edge e).child2 with
      | none => simp only [expandEdgeHS, hc1, hc2]
      | some c2 => simp [hc1, hc2] at hb
  unfold multT
  rw [hexp]
  by_cases ht : (g.edge e).target = n
  · rw [if_pos ht]
    simp [ht]
  · rw [if_neg ht]
    simp [ht]

theorem multT_children {g : ToporderedGraph} (hval : ValidHS g) {e c1 c2 : Nat}
    (he : e < g.numEdges)
    (hc1 : (g.edge e).child1 = some c1) (hc2 : (g.edge e).child2 = some c2)
    (n : Nat) : multT g n e = multT g n c1 + multT g n c2 := by
  obtain ⟨hl1, hl2, _, ht1, ht2⟩ := VH_children hval he hc1 hc2
  have htop := VH_top_lt hval he
  have htl1 := VH_top_lt hval hl1
  have htl2 := VH_top_lt hval hl2
  obtain ⟨k, hk⟩ : ∃ k, g.numEdges = k + 1 := by
    cases hne : g.numEdges with
    | zero => exact absurd he (by omega)
    | succ k => exact ⟨k, rfl⟩
  have hexp : expandEdgeHS g g.numEdges e =
      expandEdgeHS g k c1 ++ expandEdgeHS g k c2 := by
    rw [hk]; simp only [expandEdgeHS, hc1, hc2]
  have hs1 : expandEdgeHS g k c1 = expandEdgeHS g g.numEdges c1 :=
    expand_stable hval g.numEdges c1 k g.numEdges hl1
      (by unfold ToporderedGraph.numEdges at *; omega)
      (by unfold ToporderedGraph.numEdges at *; omega)
      (by unfold ToporderedGraph.numEdges at *; omega)
  have hs2 : expandEdgeHS g k c2 = expandEdgeHS g g.numEdges c2 :=
    expand_stable hval g.numEdges c2 k g.numEdges hl2
      (by unfold ToporderedGraph.numEdges at *; omega)
      (by unfold ToporderedGraph.numEdges at *; omega)
      (by unfold ToporderedGraph.numEdges at *; omega)
  unfold multT
  rw [hexp, hs1, hs2, List.filter_append, List.length_append]

theorem count_cons_nat (a b : Nat) (l : List Nat) :
    (b :: l).count a = l.count a + if a = b then 1 else 0 := by
  rw [List.count_cons]
  by_cases h : a = b
  · subst h; simp
  · rw [if_neg h, if_neg (by simpa [beq_iff_eq] using (fun hh : b = a => h hh.symm))]

theorem getD_mem_drop {α : Type} (l : List α) (d : α) {j n : Nat}
    (hj : j < l.length) (hn : n ≤ j) : l.getD j d ∈ l.drop n := by
  have hlen : j - n < (l.drop n).length := by
    rw [List.length_drop]; omega
  have hidx : n + (j - n) = j := by omega
  have hget : (l.drop n)[j - n] = l[n + (j - n)] := List.getElem_drop ..
  rw [List.getD_eq_getElem _ _ hj]
  have : l[j] = (l.drop n)[j - n] := by
    rw [hget]
    congr 1
    omega
  rw [this]
  exact List.getElem_mem hlen

theorem ehFold_spec (w : Nat) : ∀ (l : List Nat) (eh : List Nat),
    (∀ x ∈ l, x < eh.length) →
    ((l.foldl (fun eh e => histInc eh e w) eh).length = eh.length ∧
     ∀ e, (l.foldl (fun eh e => histInc eh e w) eh).getD e 0 =
       eh.getD e 0 + w * l.count e) := by
  intro l
  induction l with
  | nil =>
    intro eh _
    exact ⟨rfl, fun e => by simp⟩
  | cons x xs ih =>
    intro eh hr
    have hx : x < eh.length := hr x (List.mem_cons_self _ _)
    have hr2 : ∀ y ∈ xs, y < (histInc eh x w).length := by
      intro y hy
      rw [histInc_length]
      exact hr y (List.mem_cons_of_mem _ hy)
    obtain ⟨ihl, ihd⟩ := ih (histInc eh x w) hr2
    simp only [List.foldl_cons]
    refine ⟨by rw [ihl, histInc_length], fun e => ?_⟩
    rw [ihd e, histInc_getD hx, count_cons_nat]
    by_cases he : e = x
    · rw [if_pos he, if_pos he, Nat.mul_add]
      omega
    · rw [if_neg he, if_neg he]
      simp only [Nat.add_zero]

theorem srcSpec_cons (g : ToporderedGraph) (p : CHEdgeList)
    (P : List CHEdgeList) (n : Nat) :
    srcSpec g (p :: P) n = p.weight *
      (match p.list.head? with
       | some fe => if (g.edge fe).source = n then 1 else 0
       | none => 0) + srcSpec g P n := by
  simp [srcSpec]

theorem ehSpec_cons (p : CHEdgeList) (P : List CHEdgeList) (e : Nat) :
    ehSpec (p :: P) e = p.weight * p.list.count e + ehSpec P e := by
  simp [ehSpec]

theorem histSpec_cons (g : ToporderedGraph) (p : CHEdgeList)
    (P : List CHEdgeList) (n : Nat) :
    histSpec g (p :: P) n = p.weight * pathOcc g p n + histSpec g P n := by
  simp [histSpec]

theorem scanPhase1_spec (g : ToporderedGraph) (update : Bool) :
    ∀ (P : List CHEdgeList) (h eh : List Nat),
    (∀ p ∈ P, ∀ x ∈ p.list, x < eh.length) →
    (∀ p ∈ P, ∀ fe, p.list.head? = some fe → (g.edge fe).source < h.length) →
    ((scanPhase1 g update P (h, eh)).1.length = h.length ∧
     (scanPhase1 g update P (h, eh)).2.length = eh.length ∧
     (∀ n, (scanPhase1 g update P (h, eh)).1.getD n 0 =
       if update then h.getD n 0 - srcSpec g P n else h.getD n 0 + srcSpec g P n) ∧
     (∀ e, (scanPhase1 g update P (h, eh)).2.getD e 0 = eh.getD e 0 + ehSpec P e)) := by
  intro P
  induction P with
  | nil =>
    intro h eh _ _
    refine ⟨rfl, rfl, fun n => ?_, fun e => ?_⟩
    · have h0 : srcSpec g [] n = 0 := by simp [srcSpec]
      have h1 : (scanPhase1 g update [] (h, eh)).1 = h := rfl
      rw [h0, h1]
      cases update <;> simp
    · have h1 : (scanPhase1 g update [] (h, eh)).2 = eh := rfl
      have h0 : ehSpec [] e = 0 := by simp [ehSpec]
      rw [h1, h0, Nat.add_zero]
  | cons p P' ih =>
    intro h eh hre hrs
    have hstep : scanPhase1 g update (p :: P') (h, eh) =
        scanPhase1 g update P'
          ((match p.list.head? with
            | some fe => (histUpd update h (g.edge fe).source p.weight, eh)
            | none => ((h, eh) : List Nat × List Nat)).1,
           p.list.foldl (fun eh e => histInc eh e p.weight)
             (match p.list.head? with
              | some fe => (histUpd update h (g.edge fe).source p.weight, eh)
              | none => ((h, eh) : List Nat × List Nat)).2) := by
      simp only [scanPhase1, List.foldl_cons]
    cases hh : p.list.head? with
    | none =>
      rw [hh] at hstep
      simp only at hstep
      have hre2 : ∀ q ∈ P', ∀ x ∈ q.list,
          x < (p.list.foldl (fun eh e => histInc eh e p.weight) eh).length := by
        intro q hq x hx
        rw [(ehFold_spec p.weight p.list eh
          (fun y hy => hre p (List.mem_cons_self _ _) y hy)).1]
        exact hre q (List.mem_cons_of_mem _ hq) x hx
      have hrs2 : ∀ q ∈ P', ∀ fe, q.list.head? = some fe →
          (g.edge fe).source < h.length :=
        fun q hq => hrs q (List.mem_cons_of_mem _ hq)
      obtain ⟨hfl, hfd⟩ := ehFold_spec p.weight p.list eh
        (fun y hy => hre p (List.mem_cons_self _ _) y hy)
      obtain ⟨ih1, ih2, ih3, ih4⟩ := ih h
        (p.list.foldl (fun eh e => histInc eh e p.weight) eh) hre2 hrs2
      rw [hstep]
      refine ⟨ih1, by rw [ih2, hfl], fun n => ?_, fun e => ?_⟩
      · rw [ih3 n, srcSpec_cons, hh]
        simp only
        cases update <;> simp
      · rw [ih4 e, hfd e, ehSpec_cons]
        omega
    | some fe =>
      rw [hh] at hstep
      simp only at hstep
      have hsrc : (g.edge fe).source < h.length :=
        hrs p (List.mem_cons_self _ _) fe hh
      have hre2 : ∀ q ∈ P', ∀ x ∈ q.list,
          x < (p.list.foldl (fun eh e => histInc eh e p.weight) eh).length := by
        intro q hq x hx
        rw [(ehFold_spec p.weight p.list eh
          (fun y hy => hre p (List.mem_cons_self _ _) y hy)).1]
        exact hre q (List.mem_cons_of_mem _ hq) x hx
      have hrs2 : ∀ q ∈ P', ∀ fe2, q.list.head? = some fe2 →
          (g.edge fe2).source <
            (histUpd update h (g.edge fe).source p.weight).length := by
        intro q hq fe2 hfe2
        rw [histUpd_length]
        exact hrs q (List.mem_cons_of_mem _ hq) fe2 hfe2
      obtain ⟨hfl, hfd⟩ := ehFold_spec p.weight p.list eh
        (fun y hy => hre p (List.mem_cons_self _ _) y hy)
      obtain ⟨ih1, ih2, ih3, ih4⟩ := ih
        (histUpd update h (g.edge fe).source p.weight)
        (p.list.foldl (fun eh e => histInc eh e p.weight) eh) hre2 hrs2
      rw [hstep]
      refine ⟨by rw [ih1, histUpd_length], by rw [ih2, hfl], fun n => ?_, fun e => ?_⟩
      · rw [ih3 n, srcSpec_cons, hh]
        simp only
        rw [histUpd_getD update hsrc]
        by_cases hn : (g.edge fe).source = n
        · rw [if_pos hn, if_pos (hn.symm)]
          cases update <;> simp <;> omega
        · rw [if_neg hn, if_neg (fun hq : n = (g.edge fe).source => hn hq.symm)]
          cases update <;> simp
      · rw [ih4 e, hfd e, ehSpec_cons]
        omega

theorem sumIds_count (g : ToporderedGraph) (w n : Nat) :
    ∀ (l : List Nat) (ids : List Nat), ids.Nodup → (∀ e ∈ l, e ∈ ids) →
    sumIds g ids (fun e => w * l.count e) n = w * (l.map (multT g n)).sum := by
  intro l
  induction l with
  | nil =>
    intro ids _ _
    rw [sumIds_zero (fun e _ => by simp)]
    simp
  | cons x l2 ih =>
    intro ids hnd hsub
    have hcg : sumIds g ids (fun e => w * (x :: l2).count e) n =
        sumIds g ids (fun e => w * l2.count e + (if e = x then w else 0)) n := by
      refine sumIds_congr (fun e _ => ?_)
      rw [count_cons_nat, Nat.mul_add]
      by_cases he : e = x
      · rw [if_pos he, if_pos he]
        omega
      · rw [if_neg he, if_neg he]
        omega
    rw [hcg, sumIds_add, ih ids hnd (fun e he => hsub e (List.mem_cons_of_mem _ he)),
      sumIds_delta hnd (hsub x (List.mem_cons_self _ _)) w n]
    simp only [List.map_cons, List.sum_cons]
    ring

theorem sumIds_ehSpec (g : ToporderedGraph) (n : Nat) :
    ∀ (P : List CHEdgeList) (ids : List Nat), ids.Nodup →
    (∀ p ∈ P, ∀ e ∈ p.list, e ∈ ids) →
    sumIds g ids (fun e => ehSpec P e) n =
      (P.map (fun p => p.weight * (p.list.map (multT g n)).sum)).sum := by
  intro P
  induction P with
  | nil =>
    intro ids _ _
    rw [sumIds_zero (fun e _ => by simp [ehSpec])]
    simp
  | cons p P2 ih =>
    intro ids hnd hsub
    have hcg : sumIds g ids (fun e => ehSpec (p :: P2) e) n =
        sumIds g ids (fun e => p.weight * p.list.count e + ehSpec P2 e) n :=
      sumIds_congr (fun e _ => ehSpec_cons p P2 e)
    rw [hcg, sumIds_add,
      sumIds_count g p.weight n p.list ids hnd
        (fun e he => hsub p (List.mem_cons_self _ _) e he),
      ih ids hnd (fun q hq e he => hsub q (List.mem_cons_of_mem _ hq) e he)]
    simp

theorem histSpec_split (g : ToporderedGraph) (P : List CHEdgeList) (n : Nat) :
    histSpec g P n = srcSpec g P n +
      (P.map (fun p => p.weight * (p.list.map (multT g n)).sum)).sum := by
  induction P with
  | nil => simp [histSpec, srcSpec]
  | cons p P2 ih =>
    rw [histSpec_cons, srcSpec_cons, List.map_cons, List.sum_cons, ih]
    unfold pathOcc
    rw [Nat.mul_add]
    ring

theorem edges_cons_at (g : ToporderedGraph) {k : Nat} (hk : k < g.edges.length) :
    g.edges.drop k = g.edges.getD k default :: g.edges.drop (k + 1) := by
  rw [List.getD_eq_getElem _ _ hk]
  exact List.drop_eq_getElem_cons hk

theorem ids_drop_nodup {g : ToporderedGraph} (hval : ValidHS g) (k : Nat) :
    ((g.edges.drop k).map (fun E => E.id)).Nodup := by
  rw [List.map_drop]
  exact (VH_ids_nodup hval).sublist (List.drop_sublist ..)

theorem mem_ids_drop {g : ToporderedGraph} (hval : ValidHS g) {c k : Nat}
    (hc : c < g.edges.length) (hk : k ≤ g.toporder c) :
    c ∈ (g.edges.drop k).map (fun E => E.id) := by
  have htc := VH_top_lt hval hc
  refine List.mem_map.mpr ⟨g.edges.getD (g.toporder c) default, ?_, ?_⟩
  · exact getD_mem_drop _ _ htc hk
  · have h1 : g.edge c = g.edges.getD (g.toporder c) default := rfl
    rw [← h1]
    exact VH_edge_id hval hc

theorem fullFold_spec {g : ToporderedGraph} (hval : ValidHS g) (update : Bool) :
    ∀ (m k : Nat) (h eh : List Nat), g.edges.length = k + m →
    h.length = g.numNodes → eh.length = g.numEdges →
    (((g.edges.drop k).foldl (fullStep update) (h, eh)).1.length = g.numNodes ∧
     ∀ n, ((g.edges.drop k).foldl (fullStep update) (h, eh)).1.getD n 0 =
       if update then
         h.getD n 0 -
           sumIds g ((g.edges.drop k).map (fun E => E.id)) (fun e => eh.getD e 0) n
       else
         h.getD n 0 +
           sumIds g ((g.edges.drop k).map (fun E => E.id)) (fun e => eh.getD e 0) n) := by
  intro m
  induction m with
  | zero =>
    intro k h eh hlen hh he
    have hdrop : g.edges.drop k = [] := List.drop_eq_nil_of_le (by omega)
    rw [hdrop]
    refine ⟨hh, fun n => ?_⟩
    have h0 : sumIds g (List.map (fun E : HSEdge => E.id) ([] : List HSEdge))
        (fun e => eh.getD e 0) n = 0 := rfl
    rw [h0]
    cases update <;> simp
  | succ m ih =>
    intro k h eh hlen hh he
    have hk : k < g.edges.length := by omega
    have hcons := edges_cons_at g hk
    have hEid := VH_id_lt hval hk
    have hEtop := VH_pos_id hval hk
    have hEedge := VH_edge_of_pos hval hk
    have hEmem : g.edges.getD k default ∈ g.edges := by
      rw [List.getD_eq_getElem _ _ hk]
      exact List.getElem_mem hk
    rw [hcons, List.foldl_cons, List.map_cons]
    cases hc1 : (g.edges.getD k default).child1 with
    | none =>
      have hstep : fullStep update (h, eh) (g.edges.getD k default) =
          (histUpd update h (g.edges.getD k default).target
            (eh.getD (g.edges.getD k default).id 0), eh) := by
        simp only [fullStep, hc1]
      rw [hstep]
      have ht : (g.edges.getD k default).target < g.numNodes :=
        (VH_endpoints hval hEmem).2
      obtain ⟨ihl, ihd⟩ := ih (k + 1)
        (histUpd update h (g.edges.getD k default).target
          (eh.getD (g.edges.getD k default).id 0)) eh
        (by omega) (by rw [histUpd_length]; exact hh) he
      refine ⟨ihl, fun n => ?_⟩
      rw [ihd n, sumIds_cons]
      have hmb : multT g n (g.edges.getD k default).id =
          if (g.edges.getD k default).target = n then 1 else 0 := by
        have := @multT_base g hval ((g.edges.getD k default).id) hEid
          (by rw [hEedge]; exact Or.inl hc1) n
        rwa [hEedge] at this
      rw [hmb, histUpd_getD update (by rw [hh]; exact ht)]
      by_cases hn : (g.edges.getD k default).target = n
      · rw [if_pos hn, if_pos hn.symm]
        cases update <;> simp <;> omega
      · rw [if_neg hn, if_neg (fun hq : n = (g.edges.getD k default).target => hn hq.symm)]
        cases update <;> simp
    | some c1 =>
      cases hc2 : (g.edges.getD k default).child2 with
      | none =>
        have hstep : fullStep update (h, eh) (g.edges.getD k default) =
            (histUpd update h (g.edges.getD k default).target
              (eh.getD (g.edges.getD k default).id 0), eh) := by
          simp only [fullStep, hc1, hc2]
        rw [hstep]
        have ht : (g.edges.getD k default).target < g.numNodes :=
          (VH_endpoints hval hEmem).2
        obtain ⟨ihl, ihd⟩ := ih (k + 1)
          (histUpd update h (g.edges.getD k default).target
            (eh.getD (g.edges.getD k default).id 0)) eh
          (by omega) (by rw [histUpd_length]; exact hh) he
        refine ⟨ihl, fun n => ?_⟩
        rw [ihd n, sumIds_cons]
        have hmb : multT g n (g.edges.getD k default).id =
            if (g.edges.getD k default).target = n then 1 else 0 := by
          have := @multT_base g hval ((g.edges.getD k default).id) hEid
            (by rw [hEedge]; exact Or.inr hc2) n
          rwa [hEedge] at this
        rw [hmb, histUpd_getD update (by rw [hh]; exact ht)]
        by_cases hn : (g.edges.getD k default).target = n
        · rw [if_pos hn, if_pos hn.symm]
          cases update <;> simp <;> omega
        · rw [if_neg hn, if_neg (fun hq : n = (g.edges.getD k default).target => hn hq.symm)]
          cases update <;> simp
      | some c2 =>
        have hgc1 : (g.edge ((g.edges.getD k default).id)).child1 = some c1 := by
          rw [hEedge]; exact hc1
        have hgc2 : (g.edge ((g.edges.getD k default).id)).child2 = some c2 := by
          rw [hEedge]; exact hc2
        obtain ⟨hl1, hl2, hcne, ht1, ht2⟩ := VH_children hval hEid hgc1 hgc2
        rw [hEtop] at ht1 ht2
        have hne1 : (g.edges.getD k default).id ≠ c1 := by
          intro heq
          rw [heq] at hEtop
          omega
        have hne2 : (g.edges.getD k default).id ≠ c2 := by
          intro heq
          rw [heq] at hEtop
          omega
        have hc1len : c1 < eh.length := by rw [he]; exact hl1
        have hc2len : c2 < (histInc eh c1 (eh.getD (g.edges.getD k default).id 0)).length := by
          rw [histInc_length, he]; exact hl2
        have hstep : fullStep update (h, eh) (g.edges.getD k default) =
            (h, histInc (histInc eh c1 (eh.getD (g.edges.getD k default).id 0)) c2
              ((histInc eh c1 (eh.getD (g.edges.getD k default).id 0)).getD
                (g.edges.getD k default).id 0)) := by
          simp only [fullStep, hc1, hc2]
        rw [hstep]
        have hval2 : (histInc eh c1 (eh.getD (g.edges.getD k default).id 0)).getD
            (g.edges.getD k default).id 0 = eh.getD (g.edges.getD k default).id 0 := by
          rw [histInc_getD hc1len, if_neg hne1, Nat.add_zero]
        obtain ⟨ihl, ihd⟩ := ih (k + 1) h
          (histInc (histInc eh c1 (eh.getD (g.edges.getD k default).id 0)) c2
            ((histInc eh c1 (eh.getD (g.edges.getD k default).id 0)).getD
              (g.edges.getD k default).id 0))
          (by omega) hh (by rw [histInc_length, histInc_length]; exact he)
        refine ⟨ihl, fun n => ?_⟩
        rw [ihd n]
        have hnd2 := ids_drop_nodup hval (k + 1)
        have hm1 : c1 ∈ (g.edges.drop (k + 1)).map (fun E => E.id) :=
          mem_ids_drop hval hl1 (by omega)
        have hm2 : c2 ∈ (g.edges.drop (k + 1)).map (fun E => E.id) :=
          mem_ids_drop hval hl2 (by omega)
        have hS2 : sumIds g ((g.edges.drop (k + 1)).map (fun E => E.id))
            (fun e => (histInc (histInc eh c1 (eh.getD (g.edges.getD k default).id 0)) c2
              ((histInc eh c1 (eh.getD (g.edges.getD k default).id 0)).getD
                (g.edges.getD k default).id 0)).getD e 0) n =
            sumIds g ((g.edges.drop (k + 1)).map (fun E => E.id)) (fun e => eh.getD e 0) n +
              eh.getD (g.edges.getD k default).id 0 * multT g n c1 +
              eh.getD (g.edges.getD k default).id 0 * multT g n c2 := by
          rw [hval2, sumIds_histInc hnd2 hc2len, if_pos hm2,
            sumIds_histInc hnd2 hc1len, if_pos hm1]
        rw [hS2, sumIds_cons]
        have hmc : multT g n ((g.edges.getD k default).id) =
            multT g n c1 + multT g n c2 :=
          @multT_children g hval ((g.edges.getD k default).id) _ _ hEid hgc1 hgc2 n
        rw [hmc, Nat.mul_add]
        cases update <;> simp <;> omega

theorem scanEdgesFull_spec {g : ToporderedGraph} (hval : ValidHS g)
    (P : List CHEdgeList) (hvp : ∀ p ∈ P, ∀ x ∈ p.list, x < g.numEdges)
    (hist : List Nat) (hl : hist.length = g.numNodes) :
    (scanEdgesFull g P hist false).length = g.numNodes ∧
    ∀ n, (scanEdgesFull g P hist false).getD n 0 = histSpec g P n := by
  have hsf : scanEdgesFull g P hist false =
      (scanFullPhase2 g false
        (scanPhase1 g false P (List.replicate hist.length 0,
          List.replicate g.numEdges 0))).1 := rfl
  have hre : ∀ p ∈ P, ∀ x ∈ p.list, x < (List.replicate g.numEdges (0 : Nat)).length := by
    intro p hp x hx
    rw [List.length_replicate]
    exact hvp p hp x hx
  have hrs : ∀ p ∈ P, ∀ fe, p.list.head? = some fe →
      (g.edge fe).source < (List.replicate hist.length (0 : Nat)).length := by
    intro p hp fe hfe
    rw [List.length_replicate, hl]
    have hfm : fe ∈ p.list := List.mem_of_mem_head? (by rw [hfe]; rfl)
    exact (VH_endpoints hval (VH_edge_mem hval (hvp p hp fe hfm))).1
  obtain ⟨h1l, h2l, h1d, h2d⟩ := scanPhase1_spec g false P
    (List.replicate hist.length 0) (List.replicate g.numEdges 0) hre hrs
  have hph2 : scanFullPhase2 g false
      (scanPhase1 g false P (List.replicate hist.length 0, List.replicate g.numEdges 0)) =
      (g.edges.drop 0).foldl (fullStep false)
        ((scanPhase1 g false P (List.replicate hist.length 0,
          List.replicate g.numEdges 0)).1,
         (scanPhase1 g false P (List.replicate hist.length 0,
          List.replicate g.numEdges 0)).2) := by
    rw [List.drop_zero]
    rfl
  obtain ⟨hfl, hfd⟩ := fullFold_spec hval false g.edges.length 0
    (scanPhase1 g false P (List.replicate hist.length 0, List.replicate g.numEdges 0)).1
    (scanPhase1 g false P (List.replicate hist.length 0, List.replicate g.numEdges 0)).2
    (by omega)
    (by rw [h1l, List.length_replicate, hl])
    (by rw [h2l, List.length_replicate])
  rw [hsf, hph2]
  refine ⟨hfl, fun n => ?_⟩
  rw [hfd n]
  simp only [Bool.false_eq_true, if_false]
  rw [h1d n]
  simp only [Bool.false_eq_true, if_false]
  have hz : (List.replicate hist.length (0 : Nat)).getD n 0 = 0 := getD_replicate_zero _ _
  rw [hz, Nat.zero_add]
  have hcg : sumIds g ((g.edges.drop 0).map (fun E => E.id))
      (fun e => (scanPhase1 g false P (List.replicate hist.length 0,
        List.replicate g.numEdges 0)).2.getD e 0) n =
      sumIds g ((g.edges.drop 0).map (fun E => E.id)) (fun e => ehSpec P e) n := by
    refine sumIds_congr (fun e _ => ?_)
    rw [h2d e, getD_replicate_zero, Nat.zero_add]
  rw [hcg, List.drop_zero]
  rw [sumIds_ehSpec g n P (g.edges.map (fun E => E.id)) (VH_ids_nodup hval)
    (fun p hp e hep => ?_), histSpec_split]
  have hel := hvp p hp e hep
  have hmm : g.edge e ∈ g.edges := VH_edge_mem hval hel
  exact List.mem_map.mpr ⟨g.edge e, hmm, VH_edge_id hval hel⟩

theorem heapPopBest_iff (a b : Nat × Nat) :
    heapPopBest a b = true ↔ (a.1 < b.1 ∨ (a.1 = b.1 ∧ b.2 ≤ a.2)) := by
  unfold heapPopBest
  by_cases e : a.1 = b.1
  · rw [if_pos e]
    simp only [decide_eq_true_eq]
    omega
  · rw [if_neg e]
    simp only [decide_eq_true_eq]
    omega

theorem heapPopBest_total (a b : Nat × Nat) :
    heapPopBest a b = true ∨ heapPopBest b a = true := by
  rw [heapPopBest_iff, heapPopBest_iff]
  omega

theorem heapPopBest_trans {a b c : Nat × Nat} (h1 : heapPopBest a b = true)
    (h2 : heapPopBest b c = true) : heapPopBest a c = true := by
  rw [heapPopBest_iff] at h1 h2 ⊢
  omega

theorem heapPop_none_iff (l : List (Nat × Nat)) : heapPop l = none ↔ l = [] := by
  cases l with
  | nil => simp [heapPop]
  | cons x xs =>
    simp only [heapPop]
    cases hp : heapPop xs with
    | none => simp
    | some br =>
      obtain ⟨b, rest⟩ := br
      by_cases hb : heapPopBest x b = true <;> simp [hb]

theorem heapPop_perm : ∀ (l : List (Nat × Nat)) (x : Nat × Nat)
    (rest : List (Nat × Nat)), heapPop l = some (x, rest) → l.Perm (x :: rest) := by
  intro l
  induction l with
  | nil => intro x rest h; simp [heapPop] at h
  | cons y ys ih =>
    intro x rest h
    simp only [heapPop] at h
    cases hp : heapPop ys with
    | none =>
      rw [hp] at h
      simp only [Option.some.injEq, Prod.mk.injEq] at h
      obtain ⟨rfl, rfl⟩ := h
      have hnil : ys = [] := (heapPop_none_iff ys).mp hp
      rw [hnil]
    | some br =>
      obtain ⟨b, r⟩ := br
      rw [hp] at h
      dsimp only at h
      by_cases hb : heapPopBest y b = true
      · rw [if_pos hb] at h
        simp only [Option.some.injEq, Prod.mk.injEq] at h
        obtain ⟨rfl, rfl⟩ := h
        exact (ih b r hp).cons y
      · rw [if_neg hb] at h
        simp only [Option.some.injEq, Prod.mk.injEq] at h
        obtain ⟨h1, h2⟩ := h
        rw [← h1, ← h2]
        exact ((ih b r hp).cons y).trans (List.Perm.swap b y r)

theorem heapPop_best : ∀ (l : List (Nat × Nat)) (x : Nat × Nat)
    (rest : List (Nat × Nat)), heapPop l = some (x, rest) →
    ∀ q ∈ rest, heapPopBest x q = true := by
  intro l
  induction l with
  | nil => intro x rest h; simp [heapPop] at h
  | cons y ys ih =>
    intro x rest h q hq
    simp only [heapPop] at h
    cases hp : heapPop ys with
    | none =>
      rw [hp] at h
      simp only [Option.some.injEq, Prod.mk.injEq] at h
      obtain ⟨rfl, rfl⟩ := h
      cases hq
    | some br =>
      obtain ⟨b, r⟩ := br
      rw [hp] at h
      dsimp only at h
      by_cases hb : heapPopBest y b = true
      · rw [if_pos hb] at h
        simp only [Option.some.injEq, Prod.mk.injEq] at h
        obtain ⟨rfl, rfl⟩ := h
        rcases List.mem_cons.mp hq with rfl | hq2
        · exact hb
        · exact heapPopBest_trans hb (ih b r hp q hq2)
      · rw [if_neg hb] at h
        simp only [Option.some.injEq, Prod.mk.injEq] at h
        obtain ⟨h1, h2⟩ := h
        rw [← h2] at hq
        rw [← h1]
        rcases List.mem_cons.mp hq with rfl | hq2
        · rcases heapPopBest_total q b with ht | ht
          · exact absurd ht hb
          · exact ht
        · exact ih b r hp q hq2

theorem exploreLoop_unfold (g : ToporderedGraph) (update : Bool) (fuel : Nat)
    (pq : List (Nat × Nat)) (st : List Nat × List Nat) :
    exploreLoop g update fuel pq st =
      match heapPop pq with
      | none => some st
      | some (top, pq1) =>
        match fuel with
        | 0 => none
        | fuel2 + 1 =>
          match (g.edge top.2).child1, (g.edge top.2).child2 with
          | some c1, some c2 =>
            let pq2 := if st.2.getD c1 0 = 0 then (g.toporder c1, c1) :: pq1 else pq1
            let pq3 := if st.2.getD c2 0 = 0 then (g.toporder c2, c2) :: pq2 else pq2
            let eh1 := histInc st.2 c1 (st.2.getD top.2 0)
            let eh2 := histInc eh1 c2 (eh1.getD top.2 0)
            exploreLoop g update fuel2 pq3 (st.1, eh2)
          | _, _ =>
            exploreLoop g update fuel2 pq1
              (histUpd update st.1 (g.edge top.2).target (st.2.getD top.2 0), st.2) := by
  rw [exploreLoop]

theorem exploreLoop_none {pq : List (Nat × Nat)} (hp : heapPop pq = none)
    (g : ToporderedGraph) (update : Bool) (fuel : Nat) (st : List Nat × List Nat) :
    exploreLoop g update fuel pq st = some st := by
  rw [exploreLoop_unfold, hp]

theorem exploreLoop_zero {pq : List (Nat × Nat)} {top : Nat × Nat}
    {pq1 : List (Nat × Nat)} (hp : heapPop pq = some (top, pq1))
    (g : ToporderedGraph) (update : Bool) (st : List Nat × List Nat) :
    exploreLoop g update 0 pq st = none := by
  rw [exploreLoop_unfold, hp]

theorem exploreLoop_succ {pq : List (Nat × Nat)} {top : Nat × Nat}
    {pq1 : List (Nat × Nat)} (hp : heapPop pq = some (top, pq1))
    (g : ToporderedGraph) (update : Bool) (f : Nat) (st : List Nat × List Nat) :
    exploreLoop g update (f + 1) pq st =
      match (g.edge top.2).child1, (g.edge top.2).child2 with
      | some c1, some c2 =>
        let pq2 := if st.2.getD c1 0 = 0 then (g.toporder c1, c1) :: pq1 else pq1
        let pq3 := if st.2.getD c2 0 = 0 then (g.toporder c2, c2) :: pq2 else pq2
        let eh1 := histInc st.2 c1 (st.2.getD top.2 0)
        let eh2 := histInc eh1 c2 (eh1.getD top.2 0)
        exploreLoop g update f pq3 (st.1, eh2)
      | _, _ =>
        exploreLoop g update f pq1
          (histUpd update st.1 (g.edge top.2).target (st.2.getD top.2 0), st.2) := by
  rw [exploreLoop_unfold, hp]

theorem exploreLoop_some {g : ToporderedGraph} (hval : ValidHS g) (update : Bool) :
    ∀ (fuel : Nat) (pq : List (Nat × Nat)) (h eh h2 eh2 : List Nat),
    h.length = g.numNodes → eh.length = g.numEdges →
    (∀ q ∈ pq, q.2 < g.numEdges ∧ q.1 = g.toporder q.2) →
    (pq.map (fun q => q.2)).Nodup →
    (∀ q ∈ pq, eh.getD q.2 0 ≠ 0) →
    (∀ c, c < g.numEdges → eh.getD c 0 ≠ 0 →
      c ∈ pq.map (fun q => q.2) ∨ ∀ q ∈ pq, g.toporder c < q.1) →
    exploreLoop g update fuel pq (h, eh) = some (h2, eh2) →
    (h2.length = g.numNodes ∧
     ∀ n, h2.getD n 0 =
       if update then
         h.getD n 0 - sumIds g (pq.map (fun q => q.2)) (fun e => eh.getD e 0) n
       else
         h.getD n 0 + sumIds g (pq.map (fun q => q.2)) (fun e => eh.getD e 0) n) := by
  intro fuel
  induction fuel with
  | zero =>
    intro pq h eh h2 eh2 hh he hent hnd hpos hsched hrun
    cases hp : heapPop pq with
    | none =>
      rw [exploreLoop_none hp] at hrun
      simp only [Option.some.injEq, Prod.mk.injEq] at hrun
      obtain ⟨hh2, he2⟩ := hrun
      have hpq : pq = [] := (heapPop_none_iff pq).mp hp
      subst hpq
      rw [← hh2]
      refine ⟨hh, fun n => ?_⟩
      have h0 : sumIds g (List.map (fun q : Nat × Nat => q.2) []) (fun e => eh.getD e 0) n = 0 := rfl
      rw [h0]
      cases update <;> simp
    | some pr =>
      obtain ⟨top, pq1⟩ := pr
      rw [exploreLoop_zero hp] at hrun
      simp at hrun
  | succ f ih =>
    intro pq h eh h2 eh2 hh he hent hnd hpos hsched hrun
    cases hp : heapPop pq with
    | none =>
      rw [exploreLoop_none hp] at hrun
      simp only [Option.some.injEq, Prod.mk.injEq] at hrun
      obtain ⟨hh2, he2⟩ := hrun
      have hpq : pq = [] := (heapPop_none_iff pq).mp hp
      subst hpq
      rw [← hh2]
      refine ⟨hh, fun n => ?_⟩
      have h0 : sumIds g (List.map (fun q : Nat × Nat => q.2) []) (fun e => eh.getD e 0) n = 0 := rfl
      rw [h0]
      cases update <;> simp
    | some pr =>
      obtain ⟨top, pq1⟩ := pr
      rw [exploreLoop_succ hp] at hrun
      have hperm : pq.Perm (top :: pq1) := heapPop_perm pq top pq1 hp
      have hmem_top : top ∈ pq := hperm.mem_iff.mpr (List.mem_cons_self _ _)
      have hidsperm : (pq.map (fun q => q.2)).Perm
          (top.2 :: pq1.map (fun q => q.2)) := by
        have hq := hperm.map (fun q : Nat × Nat => q.2)
        simpa using hq
      have hnd1 : (top.2 :: pq1.map (fun q => q.2)).Nodup := hidsperm.nodup_iff.mp hnd
      have htop_notin : top.2 ∉ pq1.map (fun q => q.2) := (List.nodup_cons.mp hnd1).1
      have hnd1q : (pq1.map (fun q => q.2)).Nodup := (List.nodup_cons.mp hnd1).2
      obtain ⟨htople, htopp⟩ := hent top hmem_top
      have hsub1 : ∀ q ∈ pq1, q ∈ pq :=
        fun q hq => hperm.mem_iff.mpr (List.mem_cons_of_mem _ hq)
      have hvtop : eh.getD top.2 0 ≠ 0 := hpos top hmem_top
      have hstrict : ∀ q ∈ pq1, g.toporder top.2 < q.1 := by
        intro q hq
        have hb := heapPop_best pq top pq1 hp q hq
        rw [heapPopBest_iff] at hb
        rcases hb with hlt | ⟨heq, _⟩
        · rw [← htopp]
          exact hlt
        · exfalso
          obtain ⟨hqle, hqp⟩ := hent q (hsub1 q hq)
          have heq2 : g.toporder top.2 = g.toporder q.2 := by
            rw [← htopp, ← hqp]
            exact heq
          have heq3 : top.2 = q.2 := VH_top_inj hval htople hqle heq2
          exact htop_notin (List.mem_map.mpr ⟨q, hq, heq3.symm⟩)
      have hsched2 : ∀ c, c < g.numEdges → eh.getD c 0 ≠ 0 →
          c ∈ pq1.map (fun q => q.2) ∨ ∀ q ∈ pq1, g.toporder c < q.1 := by
        intro c hc hcnz
        rcases hsched c hc hcnz with hm | hall
        · rcases List.mem_cons.mp (hidsperm.mem_iff.mp hm) with heqc | hm2
          · right
            intro q hq
            rw [heqc]
            exact hstrict q hq
          · left
            exact hm2
        · right
          exact fun q hq => hall q (hsub1 q hq)
      have hS : ∀ n, sumIds g (pq.map (fun q => q.2)) (fun e => eh.getD e 0) n =
          eh.getD top.2 0 * multT g n top.2 +
            sumIds g (pq1.map (fun q => q.2)) (fun e => eh.getD e 0) n := by
        intro n
        rw [sumIds_perm hidsperm, sumIds_cons]
      cases hch1 : (g.edge top.2).child1 with
      | none =>
        simp only [hch1] at hrun
        have htgt : (g.edge top.2).target < g.numNodes :=
          (VH_endpoints hval (VH_edge_mem hval htople)).2
        obtain ⟨ihl, ihd⟩ := ih pq1
          (histUpd update h (g.edge top.2).target (eh.getD top.2 0)) eh h2 eh2
          (by rw [histUpd_length]; exact hh) he
          (fun q hq => hent q (hsub1 q hq)) hnd1q
          (fun q hq => hpos q (hsub1 q hq)) hsched2 hrun
        refine ⟨ihl, fun n => ?_⟩
        rw [ihd n, hS n]
        have hmb : multT g n top.2 = if (g.edge top.2).target = n then 1 else 0 :=
          multT_base hval htople (Or.inl hch1) n
        rw [hmb, histUpd_getD update (by rw [hh]; exact htgt)]
        by_cases hn : (g.edge top.2).target = n
        · rw [if_pos hn, if_pos hn.symm]
          cases update <;> simp <;> omega
        · rw [if_neg hn, if_neg (fun hq2 : n = (g.edge top.2).target => hn hq2.symm)]
          cases update <;> simp
      | some c1 =>
        cases hch2 : (g.edge top.2).child2 with
        | none =>
          simp only [hch1, hch2] at hrun
          have htgt : (g.edge top.2).target < g.numNodes :=
            (VH_endpoints hval (VH_edge_mem hval htople)).2
          obtain ⟨ihl, ihd⟩ := ih pq1
            (histUpd update h (g.edge top.2).target (eh.getD top.2 0)) eh h2 eh2
            (by rw [histUpd_length]; exact hh) he
            (fun q hq => hent q (hsub1 q hq)) hnd1q
            (fun q hq => hpos q (hsub1 q hq)) hsched2 hrun
          refine ⟨ihl, fun n => ?_⟩
          rw [ihd n, hS n]
          have hmb : multT g n top.2 = if (g.edge top.2).target = n then 1 else 0 :=
            multT_base hval htople (Or.inr hch2) n
          rw [hmb, histUpd_getD update (by rw [hh]; exact htgt)]
          by_cases hn : (g.edge top.2).target = n
          · rw [if_pos hn, if_pos hn.symm]
            cases update <;> simp <;> omega
          · rw [if_neg hn, if_neg (fun hq2 : n = (g.edge top.2).target => hn hq2.symm)]
            cases update <;> simp
        | some c2 =>
          simp only [hch1, hch2] at hrun
          obtain ⟨hl1, hl2, hcne, ht1, ht2⟩ := VH_children hval htople hch1 hch2
          have hl1q : c1 < g.numEdges := hl1
          have hl2q : c2 < g.numEdges := hl2
          have hne1 : top.2 ≠ c1 := by
            intro heq
            rw [heq] at ht1
            exact absurd ht1 (lt_irrefl _)
          have hne2 : top.2 ≠ c2 := by
            intro heq
            rw [heq] at ht2
            exact absurd ht2 (lt_irrefl _)
          have hc1len : c1 < eh.length := by rw [he]; exact hl1
          have hc2len : c2 < eh.length := by rw [he]; exact hl2
          have hc2lenq : c2 < (histInc eh c1 (eh.getD top.2 0)).length := by
            rw [histInc_length]; exact hc2len
          have hval2 : (histInc eh c1 (eh.getD top.2 0)).getD top.2 0 =
              eh.getD top.2 0 := by
            rw [histInc_getD hc1len, if_neg hne1, Nat.add_zero]
          rw [hval2] at hrun
          have hgetD2 : ∀ x,
              (histInc (histInc eh c1 (eh.getD top.2 0)) c2 (eh.getD top.2 0)).getD x 0 =
              eh.getD x 0 + (if x = c1 then eh.getD top.2 0 else 0) +
                (if x = c2 then eh.getD top.2 0 else 0) := by
            intro x
            rw [histInc_getD hc2lenq, histInc_getD hc1len]
          have hlen2 :
              (histInc (histInc eh c1 (eh.getD top.2 0)) c2 (eh.getD top.2 0)).length =
              g.numEdges := by
            rw [histInc_length, histInc_length]; exact he
          have hin1 : eh.getD c1 0 ≠ 0 → c1 ∈ pq1.map (fun q => q.2) := by
            intro hnz
            rcases hsched c1 hl1q hnz with hm | hall
            · rcases List.mem_cons.mp (hidsperm.mem_iff.mp hm) with heqc | hm2
              · exact absurd heqc.symm hne1
              · exact hm2
            · exfalso
              have := hall top hmem_top
              rw [htopp] at this
              omega
          have hin2 : eh.getD c2 0 ≠ 0 → c2 ∈ pq1.map (fun q => q.2) := by
            intro hnz
            rcases hsched c2 hl2q hnz with hm | hall
            · rcases List.mem_cons.mp (hidsperm.mem_iff.mp hm) with heqc | hm2
              · exact absurd heqc.symm hne2
              · exact hm2
            · exfalso
              have := hall top hmem_top
              rw [htopp] at this
              omega
          have hout1 : eh.getD c1 0 = 0 → c1 ∉ pq1.map (fun q => q.2) := by
            intro hz hmm
            obtain ⟨q, hq, hq2⟩ := List.mem_map.mp hmm
            apply hpos q (hsub1 q hq)
            rw [hq2]
            exact hz
          have hout2 : eh.getD c2 0 = 0 → c2 ∉ pq1.map (fun q => q.2) := by
            intro hz hmm
            obtain ⟨q, hq, hq2⟩ := List.mem_map.mp hmm
            apply hpos q (hsub1 q hq)
            rw [hq2]
            exact hz
          have hSinner : ∀ n, sumIds g (pq1.map (fun q => q.2))
              (fun e => (histInc (histInc eh c1 (eh.getD top.2 0)) c2
                (eh.getD top.2 0)).getD e 0) n =
              sumIds g (pq1.map (fun q => q.2)) (fun e => eh.getD e 0) n +
                (if c1 ∈ pq1.map (fun q => q.2) then
                  eh.getD top.2 0 * multT g n c1 else 0) +
                (if c2 ∈ pq1.map (fun q => q.2) then
                  eh.getD top.2 0 * multT g n c2 else 0) := by
            intro n
            rw [sumIds_histInc hnd1q hc2lenq, sumIds_histInc hnd1q hc1len]
          have hmc : ∀ n, multT g n top.2 = multT g n c1 + multT g n c2 :=
            fun n => multT_children hval htople hch1 hch2 n
          have hposq : ∀ q ∈ pq1,
              (histInc (histInc eh c1 (eh.getD top.2 0)) c2
                (eh.getD top.2 0)).getD q.2 0 ≠ 0 := by
            intro q hq
            have hq0 := hpos q (hsub1 q hq)
            rw [hgetD2 q.2]
            split_ifs <;> omega
          by_cases hz1 : eh.getD c1 0 = 0 <;> by_cases hz2 : eh.getD c2 0 = 0
          · -- both children freshly pushed
            rw [if_pos hz1, if_pos hz2] at hrun
            have hnotin1 := hout1 hz1
            have hnotin2 := hout2 hz2
            have hent3 : ∀ q ∈ ((g.toporder c2, c2) :: (g.toporder c1, c1) :: pq1),
                q.2 < g.numEdges ∧ q.1 = g.toporder q.2 := by
              intro q hq
              rcases List.mem_cons.mp hq with rfl | hq2
              · exact ⟨hl2q, rfl⟩
              · rcases List.mem_cons.mp hq2 with rfl | hq3
                · exact ⟨hl1q, rfl⟩
                · exact hent q (hsub1 q hq3)
            have hnd3 : (((g.toporder c2, c2) :: (g.toporder c1, c1) :: pq1).map
                (fun q => q.2)).Nodup := by
              simp only [List.map_cons]
              refine List.nodup_cons.mpr ⟨?_, List.nodup_cons.mpr ⟨hnotin1, hnd1q⟩⟩
              intro hmm
              rcases List.mem_cons.mp hmm with heq | hmm2
              · exact hcne heq.symm
              · exact hnotin2 hmm2
            have hpos3 : ∀ q ∈ ((g.toporder c2, c2) :: (g.toporder c1, c1) :: pq1),
                (histInc (histInc eh c1 (eh.getD top.2 0)) c2
                  (eh.getD top.2 0)).getD q.2 0 ≠ 0 := by
              intro q hq
              rcases List.mem_cons.mp hq with rfl | hq2
              · rw [hgetD2, if_neg (fun heq : c2 = c1 => hcne heq.symm),
                  if_pos (rfl : c2 = c2)]
                omega
              · rcases List.mem_cons.mp hq2 with rfl | hq3
                · rw [hgetD2, if_pos (rfl : c1 = c1), if_neg hcne]
                  omega
                · exact hposq q hq3
            have hsched3 : ∀ c, c < g.numEdges →
                (histInc (histInc eh c1 (eh.getD top.2 0)) c2
                  (eh.getD top.2 0)).getD c 0 ≠ 0 →
                c ∈ ((g.toporder c2, c2) :: (g.toporder c1, c1) :: pq1).map
                  (fun q => q.2) ∨
                ∀ q ∈ ((g.toporder c2, c2) :: (g.toporder c1, c1) :: pq1),
                  g.toporder c < q.1 := by
              intro c hc hcnz
              simp only [List.map_cons]
              by_cases hec1 : c = c1
              · left
                rw [hec1]
                exact List.mem_cons_of_mem _ (List.mem_cons_self _ _)
              · by_cases hec2 : c = c2
                · left
                  rw [hec2]
                  exact List.mem_cons_self _ _
                · have hcnz0 : eh.getD c 0 ≠ 0 := by
                    rw [hgetD2 c, if_neg hec1, if_neg hec2] at hcnz
                    omega
                  rcases hsched c hc hcnz0 with hm | hall
                  · rcases List.mem_cons.mp (hidsperm.mem_iff.mp hm) with heqc | hm2
                    · right
                      intro q hq
                      rw [heqc]
                      rcases List.mem_cons.mp hq with rfl | hq2
                      · simp only
                        exact ht2
                      · rcases List.mem_cons.mp hq2 with rfl | hq3
                        · simp only
                          exact ht1
                        · exact hstrict q hq3
                    · left
                      exact List.mem_cons_of_mem _ (List.mem_cons_of_mem _ hm2)
                  · right
                    intro q hq
                    have htc := hall top hmem_top
                    rw [htopp] at htc
                    rcases List.mem_cons.mp hq with rfl | hq2
                    · simp only
                      omega
                    · rcases List.mem_cons.mp hq2 with rfl | hq3
                      · simp only
                        omega
                      · exact hall q (hsub1 q hq3)
            obtain ⟨ihl, ihd⟩ := ih ((g.toporder c2, c2) :: (g.toporder c1, c1) :: pq1)
              h (histInc (histInc eh c1 (eh.getD top.2 0)) c2 (eh.getD top.2 0))
              h2 eh2 hh hlen2 hent3 hnd3 hpos3 hsched3 hrun
            refine ⟨ihl, fun n => ?_⟩
            have hS3 : sumIds g (((g.toporder c2, c2) :: (g.toporder c1, c1) :: pq1).map
                (fun q => q.2))
                (fun e => (histInc (histInc eh c1 (eh.getD top.2 0)) c2
                  (eh.getD top.2 0)).getD e 0) n =
                eh.getD top.2 0 * multT g n c1 + eh.getD top.2 0 * multT g n c2 +
                  sumIds g (pq1.map (fun q => q.2)) (fun e => eh.getD e 0) n := by
              simp only [List.map_cons]
              rw [sumIds_cons, sumIds_cons, hSinner n, if_neg hnotin1, if_neg hnotin2,
                hgetD2 c2, hgetD2 c1, if_neg (fun heq : c2 = c1 => hcne heq.symm),
                if_pos rfl, if_pos rfl, if_neg hcne, hz1, hz2]
              ring
            rw [ihd n, hS n, hS3, hmc n, Nat.mul_add]
          · -- only the first child freshly pushed
            rw [if_pos hz1, if_neg hz2] at hrun
            have hnotin1 := hout1 hz1
            have hin2q := hin2 hz2
            have hent3 : ∀ q ∈ ((g.toporder c1, c1) :: pq1),
                q.2 < g.numEdges ∧ q.1 = g.toporder q.2 := by
              intro q hq
              rcases List.mem_cons.mp hq with rfl | hq2
              · exact ⟨hl1q, rfl⟩
              · exact hent q (hsub1 q hq2)
            have hnd3 : (((g.toporder c1, c1) :: pq1).map (fun q => q.2)).Nodup := by
              simp only [List.map_cons]
              exact List.nodup_cons.mpr ⟨hnotin1, hnd1q⟩
            have hpos3 : ∀ q ∈ ((g.toporder c1, c1) :: pq1),
                (histInc (histInc eh c1 (eh.getD top.2 0)) c2
                  (eh.getD top.2 0)).getD q.2 0 ≠ 0 := by
              intro q hq
              rcases List.mem_cons.mp hq with rfl | hq2
              · rw [hgetD2, if_pos (rfl : c1 = c1), if_neg hcne]
                omega
              · exact hposq q hq2
            have hsched3 : ∀ c, c < g.numEdges →
                (histInc (histInc eh c1 (eh.getD top.2 0)) c2
                  (eh.getD top.2 0)).getD c 0 ≠ 0 →
                c ∈ ((g.toporder c1, c1) :: pq1).map (fun q => q.2) ∨
                ∀ q ∈ ((g.toporder c1, c1) :: pq1), g.toporder c < q.1 := by
              intro c hc hcnz
              simp only [List.map_cons]
              by_cases hec1 : c = c1
              · left
                rw [hec1]
                exact List.mem_cons_self _ _
              · by_cases hec2 : c = c2
                · left
                  rw [hec2]
                  exact List.mem_cons_of_mem _ hin2q
                · have hcnz0 : eh.getD c 0 ≠ 0 := by
                    rw [hgetD2 c, if_neg hec1, if_neg hec2] at hcnz
                    omega
                  rcases hsched c hc hcnz0 with hm | hall
                  · rcases List.mem_cons.mp (hidsperm.mem_iff.mp hm) with heqc | hm2
                    · right
                      intro q hq
                      rw [heqc]
                      rcases List.mem_cons.mp hq with rfl | hq2
                      · simp only
                        exact ht1
                      · exact hstrict q hq2
                    · left
                      exact List.mem_cons_of_mem _ hm2
                  · right
                    intro q hq
                    have htc := hall top hmem_top
                    rw [htopp] at htc
                    rcases List.mem_cons.mp hq with rfl | hq2
                    · simp only
                      omega
                    · exact hall q (hsub1 q hq2)
            obtain ⟨ihl, ihd⟩ := ih ((g.toporder c1, c1) :: pq1)
              h (histInc (histInc eh c1 (eh.getD top.2 0)) c2 (eh.getD top.2 0))
              h2 eh2 hh hlen2 hent3 hnd3 hpos3 hsched3 hrun
            refine ⟨ihl, fun n => ?_⟩
            have hS3 : sumIds g (((g.toporder c1, c1) :: pq1).map (fun q => q.2))
                (fun e => (histInc (histInc eh c1 (eh.getD top.2 0)) c2
                  (eh.getD top.2 0)).getD e 0) n =
                eh.getD top.2 0 * multT g n c1 + eh.getD top.2 0 * multT g n c2 +
                  sumIds g (pq1.map (fun q => q.2)) (fun e => eh.getD e 0) n := by
              simp only [List.map_cons]
              rw [sumIds_cons, hSinner n, if_neg hnotin1, if_pos hin2q,
                hgetD2 c1, if_pos rfl, if_neg hcne, hz1]
              ring
            rw [ihd n, hS n, hS3, hmc n, Nat.mul_add]
          · -- only the second child freshly pushed
            rw [if_neg hz1, if_pos hz2] at hrun
            have hin1q := hin1 hz1
            have hnotin2 := hout2 hz2
            have hent3 : ∀ q ∈ ((g.toporder c2, c2) :: pq1),
                q.2 < g.numEdges ∧ q.1 = g.toporder q.2 := by
              intro q hq
              rcases List.mem_cons.mp hq with rfl | hq2
              · exact ⟨hl2q, rfl⟩
              · exact hent q (hsub1 q hq2)
            have hnd3 : (((g.toporder c2, c2) :: pq1).map (fun q => q.2)).Nodup := by
              simp only [List.map_cons]
              exact List.nodup_cons.mpr ⟨hnotin2, hnd1q⟩
            have hpos3 : ∀ q ∈ ((g.toporder c2, c2) :: pq1),
                (histInc (histInc eh c1 (eh.getD top.2 0)) c2
                  (eh.getD top.2 0)).getD q.2 0 ≠ 0 := by
              intro q hq
              rcases List.mem_cons.mp hq with rfl | hq2
              · rw [hgetD2, if_neg (fun heq : c2 = c1 => hcne heq.symm),
                  if_pos (rfl : c2 = c2)]
                omega
              · exact hposq q hq2
            have hsched3 : ∀ c, c < g.numEdges →
                (histInc (histInc eh c1 (eh.getD top.2 0)) c2
                  (eh.getD top.2 0)).getD c 0 ≠ 0 →
                c ∈ ((g.toporder c2, c2) :: pq1).map (fun q => q.2) ∨
                ∀ q ∈ ((g.toporder c2, c2) :: pq1), g.toporder c < q.1 := by
              intro c hc hcnz
              simp only [List.map_cons]
              by_cases hec1 : c = c1
              · left
                rw [hec1]
                exact List.mem_cons_of_mem _ hin1q
              · by_cases hec2 : c = c2
                · left
                  rw [hec2]
                  exact List.mem_cons_self _ _
                · have hcnz0 : eh.getD c 0 ≠ 0 := by
                    rw [hgetD2 c, if_neg hec1, if_neg hec2] at hcnz
                    omega
                  rcases hsched c hc hcnz0 with hm | hall
                  · rcases List.mem_cons.mp (hidsperm.mem_iff.mp hm) with heqc | hm2
                    · right
                      intro q hq
                      rw [heqc]
                      rcases List.mem_cons.mp hq with rfl | hq2
                      · simp only
                        exact ht2
                      · exact hstrict q hq2
                    · left
                      exact List.mem_cons_of_mem _ hm2
                  · right
                    intro q hq
                    have htc := hall top hmem_top
                    rw [htopp] at htc
                    rcases List.mem_cons.mp hq with rfl | hq2
                    · simp only
                      omega
                    · exact hall q (hsub1 q hq2)
            obtain ⟨ihl, ihd⟩ := ih ((g.toporder c2, c2) :: pq1)
              h (histInc (histInc eh c1 (eh.getD top.2 0)) c2 (eh.getD top.2 0))
              h2 eh2 hh hlen2 hent3 hnd3 hpos3 hsched3 hrun
            refine ⟨ihl, fun n => ?_⟩
            have hS3 : sumIds g (((g.toporder c2, c2) :: pq1).map (fun q => q.2))
                (fun e => (histInc (histInc eh c1 (eh.getD top.2 0)) c2
                  (eh.getD top.2 0)).getD e 0) n =
                eh.getD top.2 0 * multT g n c1 + eh.getD top.2 0 * multT g n c2 +
                  sumIds g (pq1.map (fun q => q.2)) (fun e => eh.getD e 0) n := by
              simp only [List.map_cons]
              rw [sumIds_cons, hSinner n, if_pos hin1q, if_neg hnotin2,
                hgetD2 c2, if_neg (fun heq : c2 = c1 => hcne heq.symm), if_pos rfl, hz2]
              ring
            rw [ihd n, hS n, hS3, hmc n, Nat.mul_add]
          · -- both children already scheduled
            rw [if_neg hz1, if_neg hz2] at hrun
            have hin1q := hin1 hz1
            have hin2q := hin2 hz2
            have hsched3 : ∀ c, c < g.numEdges →
                (histInc (histInc eh c1 (eh.getD top.2 0)) c2
                  (eh.getD top.2 0)).getD c 0 ≠ 0 →
                c ∈ pq1.map (fun q => q.2) ∨
                ∀ q ∈ pq1, g.toporder c < q.1 := by
              intro c hc hcnz
              by_cases hec1 : c = c1
              · left
                rw [hec1]
                exact hin1q
              · by_cases hec2 : c = c2
                · left
                  rw [hec2]
                  exact hin2q
                · have hcnz0 : eh.getD c 0 ≠ 0 := by
                    rw [hgetD2 c, if_neg hec1, if_neg hec2] at hcnz
                    omega
                  exact hsched2 c hc hcnz0
            obtain ⟨ihl, ihd⟩ := ih pq1
              h (histInc (histInc eh c1 (eh.getD top.2 0)) c2 (eh.getD top.2 0))
              h2 eh2 hh hlen2 (fun q hq => hent q (hsub1 q hq)) hnd1q hposq hsched3 hrun
            refine ⟨ihl, fun n => ?_⟩
            have hS3 : sumIds g (pq1.map (fun q => q.2))
                (fun e => (histInc (histInc eh c1 (eh.getD top.2 0)) c2
                  (eh.getD top.2 0)).getD e 0) n =
                eh.getD top.2 0 * multT g n c1 + eh.getD top.2 0 * multT g n c2 +
                  sumIds g (pq1.map (fun q => q.2)) (fun e => eh.getD e 0) n := by
              rw [hSinner n, if_pos hin1q, if_pos hin2q]
              ring
            rw [ihd n, hS n, hS3, hmc n, Nat.mul_add]

theorem insSorted_mem (x y : Nat) : ∀ (l : List Nat),
    (x ∈ insSorted y l ↔ x = y ∨ x ∈ l) := by
  intro l
  induction l with
  | nil => simp [insSorted]
  | cons z zs ih =>
    unfold insSorted
    by_cases h : y ≤ z
    · rw [if_pos h]
      simp
    · rw [if_neg h]
      simp only [List.mem_cons, ih]
      tauto

theorem sortNat_mem (x : Nat) : ∀ (l : List Nat), (x ∈ sortNat l ↔ x ∈ l) := by
  intro l
  induction l with
  | nil => simp [sortNat]
  | cons z zs ih =>
    unfold sortNat at *
    simp only [List.foldr_cons, insSorted_mem, ih, List.mem_cons]

theorem sortedDedup_mem (x : Nat) (l : List Nat) :
    x ∈ sortedDedup l ↔ x ∈ l := by
  unfold sortedDedup
  rw [List.mem_dedup, sortNat_mem]

theorem sortedDedup_nodup (l : List Nat) : (sortedDedup l).Nodup :=
  List.nodup_dedup _

theorem foldr_append_mem (x : Nat) : ∀ (P : List CHEdgeList),
    (x ∈ P.foldr (fun p acc => p.list ++ acc) [] ↔ ∃ p ∈ P, x ∈ p.list) := by
  intro P
  induction P with
  | nil => simp
  | cons p ps ih =>
    simp only [List.foldr_cons, List.mem_append, ih]
    constructor
    · rintro (hx | ⟨q, hq, hxq⟩)
      · exact ⟨p, List.mem_cons_self _ _, hx⟩
      · exact ⟨q, List.mem_cons_of_mem _ hq, hxq⟩
    · rintro ⟨q, hq, hxq⟩
      rcases List.mem_cons.mp hq with rfl | hq2
      · exact Or.inl hxq
      · exact Or.inr ⟨q, hq2, hxq⟩

theorem ehSpec_pos {P : List CHEdgeList} {p : CHEdgeList} {e : Nat}
    (hp : p ∈ P) (he : e ∈ p.list) (hw : 0 < p.weight) : ehSpec P e ≠ 0 := by
  have hc : p.list.count e ≠ 0 := by
    intro hz
    exact (List.count_eq_zero.mp hz) he
  have hterm : 0 < p.weight * p.list.count e :=
    Nat.mul_pos hw (Nat.pos_of_ne_zero hc)
  have hle : p.weight * p.list.count e ≤ ehSpec P e :=
    le_sum_of_mem (fun q => q.weight * q.list.count e) hp
  omega

theorem ehSpec_support {P : List CHEdgeList} {e : Nat}
    (h : ehSpec P e ≠ 0) : ∃ p ∈ P, e ∈ p.list := by
  by_contra hno
  push_neg at hno
  apply h
  exact sum_map_zero _ _ (fun p hp => by
    rw [List.count_eq_zero.mpr (hno p hp)]
    omega)

theorem scanEdgesExplore_some {g : ToporderedGraph} (hval : ValidHS g)
    (hs : HittingSet) (hg : hs.graph = g)
    (P : List CHEdgeList) (rp : Option (List CHEdgeList))
    (hP : (match rp with | some q => q | none => hs.paths) = P)
    (hvp : ∀ p ∈ P, ∀ x ∈ p.list, x < g.numEdges)
    (hpw : ∀ p ∈ P, 0 < p.weight)
    (hl : hs.hist.length = g.numNodes)
    (update : Bool) (fuel : Nat) (h2 : List Nat)
    (hrun : scanEdgesExplore hs rp update fuel = some h2) :
    h2.length = g.numNodes ∧
    ∀ n, h2.getD n 0 =
      if update then hs.hist.getD n 0 - histSpec g P n
      else histSpec g P n := by
  simp only [scanEdgesExplore] at hrun
  rw [hg, hP] at hrun
  have hH0len : (if update then hs.hist else List.replicate hs.hist.length 0).length =
      g.numNodes := by
    cases update <;> simp [hl]
  have hH0getD : ∀ n, (if update then hs.hist else
      List.replicate hs.hist.length 0).getD n 0 =
      if update then hs.hist.getD n 0 else 0 := by
    intro n
    cases update <;> simp [getD_replicate_zero]
  have hre : ∀ p ∈ P, ∀ x ∈ p.list, x < (List.replicate g.numEdges (0 : Nat)).length := by
    intro p hp x hx
    rw [List.length_replicate]
    exact hvp p hp x hx
  have hrs : ∀ p ∈ P, ∀ fe, p.list.head? = some fe →
      (g.edge fe).source < (if update then hs.hist else
        List.replicate hs.hist.length 0).length := by
    intro p hp fe hfe
    rw [hH0len]
    have hfm : fe ∈ p.list := List.mem_of_mem_head? (by rw [hfe]; rfl)
    exact (VH_endpoints hval (VH_edge_mem hval (hvp p hp fe hfm))).1
  obtain ⟨h1l, h2l, h1d, h2d⟩ := scanPhase1_spec g update P
    (if update then hs.hist else List.replicate hs.hist.length 0)
    (List.replicate g.numEdges 0) hre hrs
  have hUEmem : ∀ e, e ∈ sortedDedup (P.foldr (fun p acc => p.list ++ acc) []) ↔
      ∃ p ∈ P, e ∈ p.list := by
    intro e
    rw [sortedDedup_mem, foldr_append_mem]
  have hpqids : ((sortedDedup (P.foldr (fun p acc => p.list ++ acc) [])).map
      (fun e => (g.toporder e, e))).map (fun q => q.2) =
      sortedDedup (P.foldr (fun p acc => p.list ++ acc) []) := by
    rw [List.map_map]
    exact List.map_id _
  have hehval : ∀ e, (scanPhase1 g update P
      (if update then hs.hist else List.replicate hs.hist.length 0,
        List.replicate g.numEdges 0)).2.getD e 0 = ehSpec P e := by
    intro e
    rw [h2d e, getD_replicate_zero, Nat.zero_add]
  cases hscan : exploreLoop g update fuel
      ((sortedDedup (P.foldr (fun p acc => p.list ++ acc) [])).map
        (fun e => (g.toporder e, e)))
      (scanPhase1 g update P
        (if update then hs.hist else List.replicate hs.hist.length 0,
          List.replicate g.numEdges 0)) with
  | none =>
    rw [hscan] at hrun
    simp at hrun
  | some st =>
    rw [hscan] at hrun
    simp only [Option.some.injEq] at hrun
    obtain ⟨hexl, hexd⟩ := exploreLoop_some hval update fuel
      ((sortedDedup (P.foldr (fun p acc => p.list ++ acc) [])).map
        (fun e => (g.toporder e, e)))
      (scanPhase1 g update P
        (if update then hs.hist else List.replicate hs.hist.length 0,
          List.replicate g.numEdges 0)).1
      (scanPhase1 g update P
        (if update then hs.hist else List.replicate hs.hist.length 0,
          List.replicate g.numEdges 0)).2
      st.1 st.2
      (by rw [h1l]; exact hH0len)
      (by rw [h2l, List.length_replicate])
      (by
        intro q hq
        obtain ⟨e, he, heq⟩ := List.mem_map.mp hq
        obtain ⟨p, hp, hep⟩ := (hUEmem e).mp he
        rw [← heq]
        exact ⟨hvp p hp e hep, rfl⟩)
      (by rw [hpqids]; exact sortedDedup_nodup _)
      (by
        intro q hq
        obtain ⟨e, he, heq⟩ := List.mem_map.mp hq
        obtain ⟨p, hp, hep⟩ := (hUEmem e).mp he
        rw [← heq]
        simp only
        rw [hehval e]
        exact ehSpec_pos hp hep (hpw p hp))
      (by
        intro c hc hcnz
        left
        rw [hpqids]
        rw [hehval c] at hcnz
        obtain ⟨p, hp, hcp⟩ := ehSpec_support hcnz
        exact (hUEmem c).mpr ⟨p, hp, hcp⟩)
      hscan
    rw [← hrun]
    refine ⟨hexl, fun n => ?_⟩
    rw [hexd n, hpqids]
    have hsum : sumIds g (sortedDedup (P.foldr (fun p acc => p.list ++ acc) []))
        (fun e => (scanPhase1 g update P
          (if update then hs.hist else List.replicate hs.hist.length 0,
            List.replicate g.numEdges 0)).2.getD e 0) n =
        (P.map (fun p => p.weight * (p.list.map (multT g n)).sum)).sum := by
      rw [sumIds_congr (fun e _ => hehval e)]
      exact sumIds_ehSpec g n P _ (sortedDedup_nodup _)
        (fun p hp e hep => (hUEmem e).mpr ⟨p, hp, hep⟩)
    rw [hsum, h1d n, hH0getD n, histSpec_split]
    cases update <;> simp <;> omega

theorem expand_base {g : ToporderedGraph} {e : Nat} (he : e < g.numEdges)
    (hb : (g.edge e).child1 = none ∨ (g.edge e).child2 = none) :
    expandEdgeHS g g.numEdges e = [e] := by
  obtain ⟨k, hk⟩ : ∃ k, g.numEdges = k + 1 := by
    cases hne : g.numEdges with
    | zero => exact absurd he (by omega)
    | succ k => exact ⟨k, rfl⟩
  rw [hk]
  cases hc1 : (g.edge e).child1 with
  | none => simp only [expandEdgeHS, hc1]
  | some c1 =>
    cases hc2 : (g.edge e).child2 with
    | none => simp only [expandEdgeHS, hc1, hc2]
    | some c2 => simp [hc1, hc2] at hb

theorem expand_children {g : ToporderedGraph} (hval : ValidHS g) {e c1 c2 : Nat}
    (he : e < g.numEdges)
    (hc1 : (g.edge e).child1 = some c1) (hc2 : (g.edge e).child2 = some c2) :
    expandEdgeHS g g.numEdges e =
      expandEdgeHS g g.numEdges c1 ++ expandEdgeHS g g.numEdges c2 := by
  obtain ⟨hl1, hl2, _, ht1, ht2⟩ := VH_children hval he hc1 hc2
  have htop := VH_top_lt hval he
  have htl1 := VH_top_lt hval hl1
  have htl2 := VH_top_lt hval hl2
  obtain ⟨k, hk⟩ : ∃ k, g.numEdges = k + 1 := by
    cases hne : g.numEdges with
    | zero => exact absurd he (by omega)
    | succ k => exact ⟨k, rfl⟩
  have hexp : expandEdgeHS g g.numEdges e =
      expandEdgeHS g k c1 ++ expandEdgeHS g k c2 := by
    rw [hk]; simp only [expandEdgeHS, hc1, hc2]
  rw [hexp,
    expand_stable hval g.numEdges c1 k g.numEdges hl1
      (by unfold ToporderedGraph.numEdges at *; omega)
      (by unfold ToporderedGraph.numEdges at *; omega)
      (by unfold ToporderedGraph.numEdges at *; omega),
    expand_stable hval g.numEdges c2 k g.numEdges hl2
      (by unfold ToporderedGraph.numEdges at *; omega)
      (by unfold ToporderedGraph.numEdges at *; omega)
      (by unfold ToporderedGraph.numEdges at *; omega)]

theorem mem_foldr2 (f h : Nat → Nat) (x : Nat) : ∀ (l : List Nat) (acc : List Nat),
    (x ∈ l.foldr (fun e a => f e :: h e :: a) acc ↔
      (∃ e ∈ l, x = f e ∨ x = h e) ∨ x ∈ acc) := by
  intro l
  induction l with
  | nil => simp
  | cons e l2 ih =>
    intro acc
    simp only [List.foldr_cons, List.mem_cons, ih, List.mem_cons]
    constructor
    · rintro (rfl | rfl | (⟨e2, he2, hx⟩ | hacc))
      · exact Or.inl ⟨e, Or.inl rfl, Or.inl rfl⟩
      · exact Or.inl ⟨e, Or.inl rfl, Or.inr rfl⟩
      · exact Or.inl ⟨e2, Or.inr he2, hx⟩
      · exact Or.inr hacc
    · rintro (⟨e2, (rfl | he2), hx⟩ | hacc)
      · rcases hx with rfl | rfl
        · exact Or.inl rfl
        · exact Or.inr (Or.inl rfl)
      · exact Or.inr (Or.inr (Or.inl ⟨e2, he2, hx⟩))
      · exact Or.inr (Or.inr (Or.inr hacc))

theorem edgeNodes_mem (g : ToporderedGraph) (e x : Nat) :
    x ∈ edgeNodes g e ↔ ∃ b ∈ expandEdgeHS g g.numEdges e,
      x = (g.edge b).source ∨ x = (g.edge b).target := by
  unfold edgeNodes
  rw [mem_foldr2]
  simp

theorem pathNodes_mem (g : ToporderedGraph) (p : CHEdgeList) (x : Nat) :
    x ∈ pathNodes g p ↔ ∃ b ∈ expandPath g p,
      x = (g.edge b).source ∨ x = (g.edge b).target := by
  unfold pathNodes
  rw [mem_foldr2]
  simp

theorem edgeNodes_subset_pathNodes {g : ToporderedGraph} {p : CHEdgeList}
    {e x : Nat} (he : e ∈ p.list) (hx : x ∈ edgeNodes g e) :
    x ∈ pathNodes g p := by
  obtain ⟨b, hb, hbx⟩ := (edgeNodes_mem g e x).mp hx
  refine (pathNodes_mem g p x).mpr ⟨b, ?_, hbx⟩
  unfold expandPath
  rw [List.mem_flatten]
  exact ⟨expandEdgeHS g g.numEdges e, List.mem_map.mpr ⟨e, he, rfl⟩, hb⟩

theorem edgeNodes_child {g : ToporderedGraph} (hval : ValidHS g) {e c1 c2 : Nat}
    (he : e < g.numEdges)
    (hc1 : (g.edge e).child1 = some c1) (hc2 : (g.edge e).child2 = some c2)
    {c x : Nat} (hc : c = c1 ∨ c = c2) (hx : x ∈ edgeNodes g c) :
    x ∈ edgeNodes g e := by
  obtain ⟨b, hb, hbx⟩ := (edgeNodes_mem g c x).mp hx
  refine (edgeNodes_mem g e x).mpr ⟨b, ?_, hbx⟩
  rw [expand_children hval he hc1 hc2, List.mem_append]
  rcases hc with rfl | rfl
  · exact Or.inl hb
  · exact Or.inr hb

theorem edgeNodes_base {g : ToporderedGraph} {e : Nat} (he : e < g.numEdges)
    (hb : (g.edge e).child1 = none ∨ (g.edge e).child2 = none) :
    edgeNodes g e = [(g.edge e).source, (g.edge e).target] := by
  unfold edgeNodes
  rw [expand_base he hb]
  rfl

theorem isShortcutChild_spec {g : ToporderedGraph} {id c : Nat}
    (h : isShortcutChild g id c = true) :
    ∃ c1 c2, (g.edge id).child1 = some c1 ∧ (g.edge id).child2 = some c2 ∧
      (c = c1 ∨ c = c2) := by
  unfold isShortcutChild at h
  cases hc1 : (g.edge id).child1 with
  | none => rw [hc1] at h; cases hc2 : (g.edge id).child2 <;> rw [hc2] at h <;> cases h
  | some c1 =>
    cases hc2 : (g.edge id).child2 with
    | none => rw [hc1, hc2] at h; cases h
    | some c2 =>
      rw [hc1, hc2] at h
      simp only [Bool.or_eq_true, decide_eq_true_eq] at h
      exact ⟨c1, c2, rfl, rfl, h⟩

theorem isBaseIncident_spec {g : ToporderedGraph} {b n : Nat}
    (h : isBaseIncident g b n = true) :
    ((g.edge b).child1 = none ∨ (g.edge b).child2 = none) ∧
    ((g.edge b).source = n ∨ (g.edge b).target = n) := by
  unfold isBaseIncident at h
  cases hc1 : (g.edge b).child1 with
  | none =>
    rw [hc1] at h
    cases hc2 : (g.edge b).child2 <;> rw [hc2] at h <;>
      simp only [Bool.or_eq_true, decide_eq_true_eq] at h <;>
      exact ⟨Or.inl rfl, h⟩
  | some c1 =>
    cases hc2 : (g.edge b).child2 with
    | none =>
      rw [hc1, hc2] at h
      simp only [Bool.or_eq_true, decide_eq_true_eq] at h
      exact ⟨Or.inr rfl, h⟩
    | some c2 => rw [hc1, hc2] at h; cases h

theorem getD_replicate_nil (m x : Nat) :
    (List.replicate m ([] : List Nat)).getD x [] = [] := by
  rcases Nat.lt_or_ge x m with hx | hx
  · rw [List.getD_eq_getElem _ _ (by simpa using hx)]
    simp
  · rw [List.getD_eq_default]
    simpa using hx

theorem listPush_getD_mem {l : List (List Nat)} {i v j e : Nat}
    (h : j ∈ (listPush l i v).getD e []) :
    j ∈ l.getD e [] ∨ (e = i ∧ j = v) := by
  unfold listPush at h
  by_cases hei : e = i
  · subst hei
    by_cases hlen : e < l.length
    · rw [getD_set_self _ hlen] at h
      rcases List.mem_append.mp h with hm | hm
      · exact Or.inl hm
      · exact Or.inr ⟨rfl, by simpa using hm⟩
    · rw [List.set_eq_of_length_le (by omega)] at h
      exact Or.inl h
  · rw [getD_set_ne _ (fun hh => hei hh.symm)] at h
    exact Or.inl h

theorem push_fold_sound (P0 : List CHEdgeList) (i : Nat) (hi : i < P0.length) :
    ∀ (el : List Nat) (acc : List (List Nat)),
    (∀ x ∈ el, x ∈ (P0.getD i ⟨0, []⟩).list) →
    (∀ e j, j ∈ acc.getD e [] → j < P0.length ∧ e ∈ (P0.getD j ⟨0, []⟩).list) →
    ∀ e j, j ∈ (el.foldl (fun a e => listPush a e i) acc).getD e [] →
      j < P0.length ∧ e ∈ (P0.getD j ⟨0, []⟩).list := by
  intro el
  induction el with
  | nil => intro acc _ hacc e j h; exact hacc e j h
  | cons x el2 ih =>
    intro acc hel hacc e j h
    refine ih (listPush acc x i)
      (fun y hy => hel y (List.mem_cons_of_mem _ hy)) ?_ e j h
    intro e2 j2 h2
    rcases listPush_getD_mem h2 with hm | ⟨he2, hj2⟩
    · exact hacc e2 j2 hm
    · rw [he2, hj2]
      exact ⟨hi, hel x (List.mem_cons_self _ _)⟩

theorem epm_fold_sound (P0 : List CHEdgeList) :
    ∀ (l : List (Nat × CHEdgeList)) (acc : List (List Nat)),
    (∀ q ∈ l, q.1 < P0.length ∧ ∀ x ∈ q.2.list, x ∈ (P0.getD q.1 ⟨0, []⟩).list) →
    (∀ e j, j ∈ acc.getD e [] → j < P0.length ∧ e ∈ (P0.getD j ⟨0, []⟩).list) →
    ∀ e j, j ∈ (l.foldl (fun acc q => q.2.list.foldl
      (fun acc e => listPush acc e q.1) acc) acc).getD e [] →
      j < P0.length ∧ e ∈ (P0.getD j ⟨0, []⟩).list := by
  intro l
  induction l with
  | nil => intro acc _ hacc e j h; exact hacc e j h
  | cons q l2 ih =>
    intro acc hl hacc e j h
    obtain ⟨hq1, hq2⟩ := hl q (List.mem_cons_self _ _)
    refine ih _ (fun r hr => hl r (List.mem_cons_of_mem _ hr)) ?_ e j h
    exact push_fold_sound P0 q.1 hq1 q.2.list acc hq2 hacc

theorem epmOf_sound (g : ToporderedGraph) (P0 : List CHEdgeList) :
    ∀ e j, j ∈ (epmOf g P0).getD e [] →
      j < P0.length ∧ e ∈ (P0.getD j ⟨0, []⟩).list := by
  refine epm_fold_sound P0 P0.enum (List.replicate g.numEdges []) ?_ ?_
  · intro q hq
    have hget : P0.get? q.1 = some q.2 := by
      rw [← List.mk_mem_enum_iff_get?]
      exact hq
    have hlt : q.1 < P0.length := by
      by_contra hge
      rw [List.get?_eq_none.mpr (by omega)] at hget
      cases hget
    have hgd : P0.getD q.1 ⟨0, []⟩ = q.2 := by
      rw [List.getD_eq_getD_get?, hget]
      rfl
    exact ⟨hlt, fun x hx => by rw [hgd]; exact hx⟩
  · intro e j h
    rw [getD_replicate_nil] at h
    cases h

theorem foldl_cons_mem (x : Nat) : ∀ (l q : List Nat),
    (x ∈ l.foldl (fun a p => p :: a) q ↔ x ∈ l ∨ x ∈ q) := by
  intro l
  induction l with
  | nil => simp
  | cons p l2 ih =>
    intro q
    simp only [List.foldl_cons, ih, List.mem_cons]
    tauto

theorem hitPathsLoop_sound {g : ToporderedGraph} (hval : ValidHS g)
    (hs : HittingSet) (hg : hs.graph = g)
    (P0 : List CHEdgeList) (hepm : hs.edgePathMap = epmOf g P0) (mid : Nat) :
    ∀ (fuel : Nat) (queue acc res : List Nat),
    (∀ e ∈ queue, e < g.numEdges ∧ mid ∈ edgeNodes g e) →
    (∀ j ∈ acc, j < P0.length ∧
      ∃ e, e ∈ (P0.getD j ⟨0, []⟩).list ∧ mid ∈ edgeNodes g e) →
    hitPathsLoop hs fuel queue acc = some res →
    ∀ j ∈ res, j < P0.length ∧
      ∃ e, e ∈ (P0.getD j ⟨0, []⟩).list ∧ mid ∈ edgeNodes g e := by
  intro fuel
  induction fuel with
  | zero =>
    intro queue acc res hq hacc hrun
    cases queue with
    | nil =>
      simp only [hitPathsLoop, Option.some.injEq] at hrun
      rw [← hrun]
      exact hacc
    | cons e q2 =>
      simp only [hitPathsLoop] at hrun
      exact Option.noConfusion hrun
  | succ f ih =>
    intro queue acc res hq hacc hrun
    cases queue with
    | nil =>
      simp only [hitPathsLoop, Option.some.injEq] at hrun
      rw [← hrun]
      exact hacc
    | cons e q2 =>
      simp only [hitPathsLoop] at hrun
      obtain ⟨helt, hemid⟩ := hq e (List.mem_cons_self _ _)
      have hq2 : ∀ x ∈ (hs.graph.edge e).parents.foldl (fun q p => p :: q) q2,
          x < g.numEdges ∧ mid ∈ edgeNodes g x := by
        intro x hx
        rw [hg] at hx
        rcases (foldl_cons_mem x _ _).mp hx with hxp | hxq
        · have hxlt : x < g.numEdges :=
            VH_eparents_lt hval (VH_edge_mem hval helt) hxp
          have hiff := (VH_eparent_iff hval hxlt helt).mp hxp
          obtain ⟨c1, c2, hcc1, hcc2, hcor⟩ := isShortcutChild_spec hiff
          exact ⟨hxlt, edgeNodes_child hval hxlt hcc1 hcc2 hcor hemid⟩
        · exact hq x (List.mem_cons_of_mem _ hxq)
      have hacc2 : ∀ j ∈ acc ++ hs.edgePathMap.getD e [], j < P0.length ∧
          ∃ e2, e2 ∈ (P0.getD j ⟨0, []⟩).list ∧ mid ∈ edgeNodes g e2 := by
        intro j hj
        rcases List.mem_append.mp hj with hja | hje
        · exact hacc j hja
        · rw [hepm] at hje
          obtain ⟨hjlt, hjmem⟩ := epmOf_sound g P0 e j hje
          exact ⟨hjlt, e, hjmem, hemid⟩
      exact ih _ _ res hq2 hacc2 hrun

theorem hitPaths_sound {g : ToporderedGraph} (hval : ValidHS g)
    (hs : HittingSet) (hg : hs.graph = g)
    (P0 : List CHEdgeList) (hepm : hs.edgePathMap = epmOf g P0)
    {mid fuel : Nat} {hits : List Nat}
    (hmid : mid < g.numNodes) (hrun : hitPaths hs mid fuel = some hits) :
    hits.Nodup ∧ ∀ j ∈ hits, j < P0.length ∧
      mid ∈ pathNodes g (P0.getD j ⟨0, []⟩) := by
  unfold hitPaths at hrun
  cases hloop : hitPathsLoop hs fuel
      ((hs.graph.node mid).parents.foldl (fun q p => p :: q) []) [] with
  | none => rw [hloop] at hrun; cases hrun
  | some acc =>
    rw [hloop] at hrun
    simp only [Option.some.injEq] at hrun
    have hnode_mem : g.node mid ∈ g.nodes := by
      unfold ToporderedGraph.node
      rw [List.getD_eq_getElem _ _ (by exact hmid)]
      exact List.getElem_mem hmid
    have hq0 : ∀ e ∈ (hs.graph.node mid).parents.foldl (fun q p => p :: q) [],
        e < g.numEdges ∧ mid ∈ edgeNodes g e := by
      intro e he
      rw [hg] at he
      rcases (foldl_cons_mem e _ _).mp he with hep | hef
      · have helt : e < g.numEdges := VH_nparents_lt hval hnode_mem hep
        have hiff := (VH_nparent_iff hval hmid helt).mp hep
        obtain ⟨hbase, hsrc⟩ := isBaseIncident_spec hiff
        refine ⟨helt, ?_⟩
        rw [edgeNodes_base helt hbase]
        rcases hsrc with hsr | htg
        · rw [hsr]
          exact List.mem_cons_self _ _
        · rw [htg]
          exact List.mem_cons_of_mem _ (List.mem_cons_self _ _)
      · cases hef
    have hsound := hitPathsLoop_sound hval hs hg P0 hepm mid fuel
      ((hs.graph.node mid).parents.foldl (fun q p => p :: q) []) [] acc
      hq0 (fun j hj => by cases hj) hloop
    rw [← hrun]
    refine ⟨sortedDedup_nodup _, fun j hj => ?_⟩
    have hjacc : j ∈ acc := (sortedDedup_mem j acc).mp hj
    obtain ⟨hjlt, e, hje, hjmid⟩ := hsound j hjacc
    exact ⟨hjlt, edgeNodes_subset_pathNodes hje hjmid⟩

theorem clearFold_spec : ∀ (hits : List Nat) (acc cur : List CHEdgeList),
    hits.Nodup → (∀ i ∈ hits, i < cur.length) →
    ((hits.foldl (fun st i =>
        let p := st.2.getD i ⟨0, []⟩
        if p.list.length = 0 then st
        else (st.1 ++ [p], st.2.set i ⟨p.weight, []⟩)) (acc, cur)).1 =
      acc ++ hits.filterMap (fun i =>
        if (cur.getD i ⟨0, []⟩).list.length = 0 then none
        else some (cur.getD i ⟨0, []⟩)) ∧
     (hits.foldl (fun st i =>
        let p := st.2.getD i ⟨0, []⟩
        if p.list.length = 0 then st
        else (st.1 ++ [p], st.2.set i ⟨p.weight, []⟩)) (acc, cur)).2.length =
      cur.length ∧
     ∀ j, (hits.foldl (fun st i =>
        let p := st.2.getD i ⟨0, []⟩
        if p.list.length = 0 then st
        else (st.1 ++ [p], st.2.set i ⟨p.weight, []⟩)) (acc, cur)).2.getD j ⟨0, []⟩ =
      if j ∈ hits ∧ (cur.getD j ⟨0, []⟩).list.length ≠ 0 then
        ⟨(cur.getD j ⟨0, []⟩).weight, []⟩
      else cur.getD j ⟨0, []⟩) := by
  intro hits
  induction hits with
  | nil =>
    intro acc cur _ _
    refine ⟨by simp, rfl, fun j => ?_⟩
    rw [if_neg]
    · rfl
    · rintro ⟨hj, _⟩
      cases hj
  | cons i hits2 ih =>
    intro acc cur hnd hrange
    obtain ⟨hnoti, hnd2⟩ := List.nodup_cons.mp hnd
    have hilt : i < cur.length := hrange i (List.mem_cons_self _ _)
    by_cases hz : (cur.getD i ⟨0, []⟩).list.length = 0
    · have harg : (fun (st : List CHEdgeList × List CHEdgeList) i =>
          let p := st.2.getD i ⟨0, []⟩
          if p.list.length = 0 then st
          else (st.1 ++ [p], st.2.set i ⟨p.weight, []⟩)) (acc, cur) i = (acc, cur) := by
        show (if (cur.getD i ⟨0, []⟩).list.length = 0 then
            ((acc, cur) : List CHEdgeList × List CHEdgeList)
          else (acc ++ [cur.getD i ⟨0, []⟩],
            cur.set i ⟨(cur.getD i ⟨0, []⟩).weight, []⟩)) = (acc, cur)
        rw [if_pos hz]
      have hfold : List.foldl (fun (st : List CHEdgeList × List CHEdgeList) i =>
          let p := st.2.getD i ⟨0, []⟩
          if p.list.length = 0 then st
          else (st.1 ++ [p], st.2.set i ⟨p.weight, []⟩)) (acc, cur) (i :: hits2) =
          List.foldl (fun (st : List CHEdgeList × List CHEdgeList) i =>
          let p := st.2.getD i ⟨0, []⟩
          if p.list.length = 0 then st
          else (st.1 ++ [p], st.2.set i ⟨p.weight, []⟩)) ((acc, cur) : List CHEdgeList × List CHEdgeList) hits2 := by
        rw [List.foldl_cons]
        exact congrArg (fun b => List.foldl (fun (st : List CHEdgeList × List CHEdgeList) i =>
          let p := st.2.getD i ⟨0, []⟩
          if p.list.length = 0 then st
          else (st.1 ++ [p], st.2.set i ⟨p.weight, []⟩)) b hits2) harg
      rw [hfold]
      obtain ⟨ih1, ih2, ih3⟩ := ih acc cur hnd2
        (fun j hj => hrange j (List.mem_cons_of_mem _ hj))
      refine ⟨?_, ih2, fun j => ?_⟩
      · rw [ih1, List.filterMap_cons]
        rw [if_pos hz]
      · rw [ih3 j]
        by_cases hjm : j ∈ hits2 ∧ (cur.getD j ⟨0, []⟩).list.length ≠ 0
        · rw [if_pos hjm, if_pos ⟨List.mem_cons_of_mem _ hjm.1, hjm.2⟩]
        · rw [if_neg hjm, if_neg ?_]
          rintro ⟨hj1, hj2⟩
          rcases List.mem_cons.mp hj1 with rfl | hj3
          · exact hj2 hz
          · exact hjm ⟨hj3, hj2⟩
    · have harg : (fun (st : List CHEdgeList × List CHEdgeList) i =>
          let p := st.2.getD i ⟨0, []⟩
          if p.list.length = 0 then st
          else (st.1 ++ [p], st.2.set i ⟨p.weight, []⟩)) (acc, cur) i =
          (acc ++ [cur.getD i ⟨0, []⟩],
            cur.set i ⟨(cur.getD i ⟨0, []⟩).weight, []⟩) := by
        show (if (cur.getD i ⟨0, []⟩).list.length = 0 then
            ((acc, cur) : List CHEdgeList × List CHEdgeList)
          else (acc ++ [cur.getD i ⟨0, []⟩],
            cur.set i ⟨(cur.getD i ⟨0, []⟩).weight, []⟩)) =
          (acc ++ [cur.getD i ⟨0, []⟩],
            cur.set i ⟨(cur.getD i ⟨0, []⟩).weight, []⟩)
        rw [if_neg hz]
      have hfold : List.foldl (fun (st : List CHEdgeList × List CHEdgeList) i =>
          let p := st.2.getD i ⟨0, []⟩
          if p.list.length = 0 then st
          else (st.1 ++ [p], st.2.set i ⟨p.weight, []⟩)) (acc, cur) (i :: hits2) =
          List.foldl (fun (st : List CHEdgeList × List CHEdgeList) i =>
          let p := st.2.getD i ⟨0, []⟩
          if p.list.length = 0 then st
          else (st.1 ++ [p], st.2.set i ⟨p.weight, []⟩)) ((acc ++ [cur.getD i ⟨0, []⟩],
            cur.set i ⟨(cur.getD i ⟨0, []⟩).weight, []⟩) : List CHEdgeList × List CHEdgeList) hits2 := by
        rw [List.foldl_cons]
        exact congrArg (fun b => List.foldl (fun (st : List CHEdgeList × List CHEdgeList) i =>
          let p := st.2.getD i ⟨0, []⟩
          if p.list.length = 0 then st
          else (st.1 ++ [p], st.2.set i ⟨p.weight, []⟩)) b hits2) harg
      rw [hfold]
      obtain ⟨ih1, ih2, ih3⟩ := ih (acc ++ [cur.getD i ⟨0, []⟩])
        (cur.set i ⟨(cur.getD i ⟨0, []⟩).weight, []⟩) hnd2
        (fun j hj => by
          rw [List.length_set]
          exact hrange j (List.mem_cons_of_mem _ hj))
      have hcongr : hits2.filterMap (fun j =>
          if ((cur.set i ⟨(cur.getD i ⟨0, []⟩).weight, []⟩).getD j
            ⟨0, []⟩).list.length = 0 then none
          else some ((cur.set i ⟨(cur.getD i ⟨0, []⟩).weight, []⟩).getD j ⟨0, []⟩)) =
          hits2.filterMap (fun j =>
          if (cur.getD j ⟨0, []⟩).list.length = 0 then none
          else some (cur.getD j ⟨0, []⟩)) := by
        refine List.filterMap_congr (fun j hj => ?_)
        have hji : i ≠ j := fun heq => hnoti (heq ▸ hj)
        rw [getD_set_ne _ hji]
      refine ⟨?_, by rw [ih2, List.length_set], fun j => ?_⟩
      · rw [ih1, hcongr, List.filterMap_cons, if_neg hz, List.append_assoc]
        rfl
      · rw [ih3 j]
        by_cases hji : j = i
        · subst hji
          rw [if_neg (fun hc => hc.2 (by
              rw [getD_set_self _ hilt]
              rfl)),
            getD_set_self _ hilt,
            if_pos ⟨List.mem_cons_self _ _, hz⟩]
        · rw [getD_set_ne _ (fun heq => hji heq.symm)]
          by_cases hjm : j ∈ hits2 ∧ (cur.getD j ⟨0, []⟩).list.length ≠ 0
          · rw [if_pos hjm, if_pos ⟨List.mem_cons_of_mem _ hjm.1, hjm.2⟩]
          · rw [if_neg hjm, if_neg ?_]
            rintro ⟨hj1, hj2⟩
            rcases List.mem_cons.mp hj1 with heq | hj3
            · exact hji heq
            · exact hjm ⟨hj3, hj2⟩

theorem clearFold_sum (f : CHEdgeList → Nat) (hf : ∀ w, f ⟨w, []⟩ = 0) :
    ∀ (hits : List Nat) (acc cur : List CHEdgeList),
    (∀ i ∈ hits, i < cur.length) →
    (((hits.foldl (fun st i =>
        let p := st.2.getD i ⟨0, []⟩
        if p.list.length = 0 then st
        else (st.1 ++ [p], st.2.set i ⟨p.weight, []⟩)) (acc, cur)).1.map f).sum +
     ((hits.foldl (fun st i =>
        let p := st.2.getD i ⟨0, []⟩
        if p.list.length = 0 then st
        else (st.1 ++ [p], st.2.set i ⟨p.weight, []⟩)) (acc, cur)).2.map f).sum =
      (acc.map f).sum + (cur.map f).sum) := by
  intro hits
  induction hits with
  | nil => intro acc cur _; rfl
  | cons i hits2 ih =>
    intro acc cur hrange
    have hilt : i < cur.length := hrange i (List.mem_cons_self _ _)
    by_cases hz : (cur.getD i ⟨0, []⟩).list.length = 0
    · have harg : (fun (st : List CHEdgeList × List CHEdgeList) i =>
          let p := st.2.getD i ⟨0, []⟩
          if p.list.length = 0 then st
          else (st.1 ++ [p], st.2.set i ⟨p.weight, []⟩)) (acc, cur) i = (acc, cur) := by
        show (if (cur.getD i ⟨0, []⟩).list.length = 0 then
            ((acc, cur) : List CHEdgeList × List CHEdgeList)
          else (acc ++ [cur.getD i ⟨0, []⟩],
            cur.set i ⟨(cur.getD i ⟨0, []⟩).weight, []⟩)) = (acc, cur)
        rw [if_pos hz]
      have hfold : List.foldl (fun (st : List CHEdgeList × List CHEdgeList) i =>
          let p := st.2.getD i ⟨0, []⟩
          if p.list.length = 0 then st
          else (st.1 ++ [p], st.2.set i ⟨p.weight, []⟩)) (acc, cur) (i :: hits2) =
          List.foldl (fun (st : List CHEdgeList × List CHEdgeList) i =>
          let p := st.2.getD i ⟨0, []⟩
          if p.list.length = 0 then st
          else (st.1 ++ [p], st.2.set i ⟨p.weight, []⟩)) ((acc, cur) : List CHEdgeList × List CHEdgeList) hits2 := by
        rw [List.foldl_cons]
        exact congrArg (fun b => List.foldl (fun (st : List CHEdgeList × List CHEdgeList) i =>
          let p := st.2.getD i ⟨0, []⟩
          if p.list.length = 0 then st
          else (st.1 ++ [p], st.2.set i ⟨p.weight, []⟩)) b hits2) harg
      rw [hfold]
      exact ih acc cur (fun j hj => hrange j (List.mem_cons_of_mem _ hj))
    · have harg : (fun (st : List CHEdgeList × List CHEdgeList) i =>
          let p := st.2.getD i ⟨0, []⟩
          if p.list.length = 0 then st
          else (st.1 ++ [p], st.2.set i ⟨p.weight, []⟩)) (acc, cur) i =
          (acc ++ [cur.getD i ⟨0, []⟩],
            cur.set i ⟨(cur.getD i ⟨0, []⟩).weight, []⟩) := by
        show (if (cur.getD i ⟨0, []⟩).list.length = 0 then
            ((acc, cur) : List CHEdgeList × List CHEdgeList)
          else (acc ++ [cur.getD i ⟨0, []⟩],
            cur.set i ⟨(cur.getD i ⟨0, []⟩).weight, []⟩)) =
          (acc ++ [cur.getD i ⟨0, []⟩],
            cur.set i ⟨(cur.getD i ⟨0, []⟩).weight, []⟩)
        rw [if_neg hz]
      have hfold : List.foldl (fun (st : List CHEdgeList × List CHEdgeList) i =>
          let p := st.2.getD i ⟨0, []⟩
          if p.list.length = 0 then st
          else (st.1 ++ [p], st.2.set i ⟨p.weight, []⟩)) (acc, cur) (i :: hits2) =
          List.foldl (fun (st : List CHEdgeList × List CHEdgeList) i =>
          let p := st.2.getD i ⟨0, []⟩
          if p.list.length = 0 then st
          else (st.1 ++ [p], st.2.set i ⟨p.weight, []⟩)) ((acc ++ [cur.getD i ⟨0, []⟩],
            cur.set i ⟨(cur.getD i ⟨0, []⟩).weight, []⟩) : List CHEdgeList × List CHEdgeList) hits2 := by
        rw [List.foldl_cons]
        exact congrArg (fun b => List.foldl (fun (st : List CHEdgeList × List CHEdgeList) i =>
          let p := st.2.getD i ⟨0, []⟩
          if p.list.length = 0 then st
          else (st.1 ++ [p], st.2.set i ⟨p.weight, []⟩)) b hits2) harg
      rw [hfold]
      have hih := ih (acc ++ [cur.getD i ⟨0, []⟩])
        (cur.set i ⟨(cur.getD i ⟨0, []⟩).weight, []⟩)
        (fun j hj => by
          rw [List.length_set]
          exact hrange j (List.mem_cons_of_mem _ hj))
      rw [hih]
      have hset := sum_set f ⟨(cur.getD i ⟨0, []⟩).weight, []⟩ ⟨0, []⟩ cur i hilt
      rw [hf] at hset
      simp only [List.map_append, List.sum_append, List.map_cons, List.map_nil,
        List.sum_cons, List.sum_nil]
      omega

theorem clearHitPaths_spec (paths : List CHEdgeList) (hits : List Nat)
    (hnd : hits.Nodup) (hrange : ∀ i ∈ hits, i < paths.length) :
    (clearHitPaths paths hits).1 = hits.filterMap (fun i =>
      if (paths.getD i ⟨0, []⟩).list.length = 0 then none
      else some (paths.getD i ⟨0, []⟩)) ∧
    (clearHitPaths paths hits).2.length = paths.length ∧
    ∀ j, (clearHitPaths paths hits).2.getD j ⟨0, []⟩ =
      if j ∈ hits ∧ (paths.getD j ⟨0, []⟩).list.length ≠ 0 then
        ⟨(paths.getD j ⟨0, []⟩).weight, []⟩
      else paths.getD j ⟨0, []⟩ := by
  obtain ⟨h1, h2, h3⟩ := clearFold_spec hits [] paths hnd hrange
  exact ⟨by rw [← List.nil_append (hits.filterMap _)]; exact h1, h2, h3⟩

theorem clearHitPaths_sum (paths : List CHEdgeList) (hits : List Nat)
    (f : CHEdgeList → Nat) (hf : ∀ w, f ⟨w, []⟩ = 0)
    (hrange : ∀ i ∈ hits, i < paths.length) :
    (paths.map f).sum = ((clearHitPaths paths hits).2.map f).sum +
      ((clearHitPaths paths hits).1.map f).sum := by
  have h := clearFold_sum f hf hits [] paths hrange
  simp only [List.map_nil, List.sum_nil, Nat.zero_add] at h
  have hconv : clearHitPaths paths hits = hits.foldl
      (fun (st : List CHEdgeList × List CHEdgeList) i =>
        if (st.2.getD i ⟨0, []⟩).list.length = 0 then st
        else (st.1 ++ [st.2.getD i ⟨0, []⟩],
          st.2.set i ⟨(st.2.getD i ⟨0, []⟩).weight, []⟩)) ([], paths) := rfl
  rw [hconv]
  omega

theorem removed_mem {paths : List CHEdgeList} {hits : List Nat}
    {p : CHEdgeList}
    (hp : p ∈ hits.filterMap (fun i =>
      if (paths.getD i ⟨0, []⟩).list.length = 0 then none
      else some (paths.getD i ⟨0, []⟩))) :
    ∃ i ∈ hits, paths.getD i ⟨0, []⟩ = p ∧ p.list ≠ [] := by
  obtain ⟨i, hi, hie⟩ := List.mem_filterMap.mp hp
  by_cases hz : (paths.getD i ⟨0, []⟩).list.length = 0
  · rw [if_pos hz] at hie
    cases hie
  · rw [if_neg hz] at hie
    simp only [Option.some.injEq] at hie
    refine ⟨i, hi, hie, ?_⟩
    rw [← hie]
    intro hnil
    exact hz (by rw [hnil]; rfl)

theorem pathOcc_empty (g : ToporderedGraph) (w n : Nat) :
    pathOcc g ⟨w, []⟩ n = 0 := rfl

theorem nonemptyWeight_cons (p : CHEdgeList) (X : List CHEdgeList) :
    nonemptyWeight (p :: X) =
      (if p.list.isEmpty then 0 else p.weight) + nonemptyWeight X := by
  unfold nonemptyWeight
  rw [List.filter_cons]
  by_cases he : p.list.isEmpty <;> simp [he]

theorem nonemptyWeight_eq (X : List CHEdgeList) :
    nonemptyWeight X =
      (X.map (fun p => if p.list.isEmpty then 0 else p.weight)).sum := by
  induction X with
  | nil => rfl
  | cons p X2 ih =>
    rw [nonemptyWeight_cons, List.map_cons, List.sum_cons, ih]

theorem runStep_next_inv {hs : HittingSet} {np fuel : Nat} {hs2 : HittingSet}
    {np2 : Nat} {entry : Nat × Nat}
    (hstep : runStep hs np fuel = StepResult.next hs2 np2 entry) :
    ∃ mid occ hits hist,
      pickHitter hs.hist = some (mid, occ) ∧ occ ≠ 0 ∧
      hitPaths hs mid fuel = some hits ∧
      scanChoice {hs with paths := (clearHitPaths hs.paths hits).2}
        (clearHitPaths hs.paths hits).1
        (np - (clearHitPaths hs.paths hits).1.length) fuel = some hist ∧
      hs2 = {hs with paths := (clearHitPaths hs.paths hits).2, hist := hist} ∧
      np2 = np - (clearHitPaths hs.paths hits).1.length ∧
      entry = (mid, (((clearHitPaths hs.paths hits).1).map (fun r => r.weight)).sum) := by
  unfold runStep at hstep
  cases hpk : pickHitter hs.hist with
  | none =>
    rw [hpk] at hstep
    exact StepResult.noConfusion hstep
  | some pr =>
    obtain ⟨mid, occ⟩ := pr
    rw [hpk] at hstep
    dsimp only at hstep
    by_cases h0 : occ = 0
    · rw [if_pos h0] at hstep
      exact StepResult.noConfusion hstep
    · rw [if_neg h0] at hstep
      cases hhp : hitPaths hs mid fuel with
      | none =>
        rw [hhp] at hstep
        exact StepResult.noConfusion hstep
      | some hits =>
        rw [hhp] at hstep
        dsimp only at hstep
        cases hscan : scanChoice {hs with paths := (clearHitPaths hs.paths hits).2}
            (clearHitPaths hs.paths hits).1
            (np - (clearHitPaths hs.paths hits).1.length) fuel with
        | none =>
          rw [hscan] at hstep
          exact StepResult.noConfusion hstep
        | some hist =>
          rw [hscan] at hstep
          dsimp only at hstep
          injection hstep with h1 h2 h3
          exact ⟨mid, occ, hits, hist, rfl, h0, hhp, hscan, h1.symm, h2.symm, h3.symm⟩

theorem scanChoice_spec {g : ToporderedGraph} (hval : ValidHS g)
    (hs2 : HittingSet) (hg : hs2.graph = g)
    (removed : List CHEdgeList) (np fuel : Nat) (hist : List Nat)
    (hvpP : ∀ p ∈ hs2.paths, ∀ x ∈ p.list, x < g.numEdges)
    (hpwP : ∀ p ∈ hs2.paths, 0 < p.weight)
    (hvpR : ∀ p ∈ removed, ∀ x ∈ p.list, x < g.numEdges)
    (hpwR : ∀ p ∈ removed, 0 < p.weight)
    (hl : hs2.hist.length = g.numNodes)
    (hsplit : ∀ n, hs2.hist.getD n 0 = histSpec g hs2.paths n + histSpec g removed n)
    (hrun : scanChoice hs2 removed np fuel = some hist) :
    hist.length = g.numNodes ∧ ∀ n, hist.getD n 0 = histSpec g hs2.paths n := by
  unfold scanChoice at hrun
  by_cases hb1 : removed.length < hs2.adaptiveThreshold ∨ np < hs2.adaptiveThreshold
  · rw [if_pos hb1] at hrun
    by_cases hb2 : removed.length < np
    · rw [if_pos hb2] at hrun
      obtain ⟨hlen, hd⟩ := scanEdgesExplore_some hval hs2 hg removed (some removed)
        rfl hvpR hpwR hl true fuel hist hrun
      refine ⟨hlen, fun n => ?_⟩
      rw [hd n, if_pos rfl, hsplit n]
      omega
    · rw [if_neg hb2] at hrun
      obtain ⟨hlen, hd⟩ := scanEdgesExplore_some hval hs2 hg hs2.paths none
        rfl hvpP hpwP hl false fuel hist hrun
      refine ⟨hlen, fun n => ?_⟩
      rw [hd n]
      have hf : ¬ ((false : Bool) = true) := by simp
      rw [if_neg hf]
  · rw [if_neg hb1] at hrun
    simp only [Option.some.injEq] at hrun
    rw [← hrun, hg]
    exact scanEdgesFull_spec hval hs2.paths hvpP hs2.hist hl

theorem hitPathsLoop_congr (hsA hsB : HittingSet) (hg : hsA.graph = hsB.graph)
    (hepm : hsA.edgePathMap = hsB.edgePathMap) :
    ∀ (fuel : Nat) (queue acc : List Nat),
    hitPathsLoop hsA fuel queue acc = hitPathsLoop hsB fuel queue acc := by
  intro fuel
  induction fuel with
  | zero =>
    intro queue acc
    cases queue with
    | nil => rfl
    | cons e q2 => rfl
  | succ f ih =>
    intro queue acc
    cases queue with
    | nil => rfl
    | cons e q2 =>
      simp only [hitPathsLoop]
      rw [hg, hepm]
      exact ih _ _

theorem hitPaths_congr (hsA hsB : HittingSet) (hg : hsA.graph = hsB.graph)
    (hepm : hsA.edgePathMap = hsB.edgePathMap) (mid fuel : Nat) :
    hitPaths hsA mid fuel = hitPaths hsB mid fuel := by
  unfold hitPaths
  rw [hg, hitPathsLoop_congr hsA hsB hg hepm]

theorem list_eq_of_getD {l1 l2 : List Nat} (hlen : l1.length = l2.length)
    (h : ∀ n, l1.getD n 0 = l2.getD n 0) : l1 = l2 := by
  apply List.ext_getElem hlen
  intro i h1 h2
  have hi := h i
  rw [List.getD_eq_getElem _ _ h1, List.getD_eq_getElem _ _ h2] at hi
  exact hi

theorem runStep_stop_of_pick {hs : HittingSet} {np fuel mid : Nat}
    (hpk : pickHitter hs.hist = some (mid, 0)) :
    runStep hs np fuel = StepResult.stop := by
  unfold runStep
  rw [hpk]
  dsimp only
  simp

theorem runStep_stop_pick {hs : HittingSet} {np fuel : Nat}
    (hstep : runStep hs np fuel = StepResult.stop) :
    ∃ mid, pickHitter hs.hist = some (mid, 0) := by
  unfold runStep at hstep
  cases hpk : pickHitter hs.hist with
  | none =>
    rw [hpk] at hstep
    exact StepResult.noConfusion hstep
  | some pr =>
    obtain ⟨mid, occ⟩ := pr
    rw [hpk] at hstep
    dsimp only at hstep
    by_cases h0 : occ = 0
    · exact ⟨mid, by rw [h0]⟩
    · rw [if_neg h0] at hstep
      cases hhp : hitPaths hs mid fuel with
      | none =>
        rw [hhp] at hstep
        exact StepResult.noConfusion hstep
      | some hits =>
        rw [hhp] at hstep
        dsimp only at hstep
        cases hscan : scanChoice {hs with paths := (clearHitPaths hs.paths hits).2}
            (clearHitPaths hs.paths hits).1
            (np - (clearHitPaths hs.paths hits).1.length) fuel with
        | none =>
          rw [hscan] at hstep
          exact StepResult.noConfusion hstep
        | some hist =>
          rw [hscan] at hstep
          exact StepResult.noConfusion hstep

theorem stateInv_paths_facts {g : ToporderedGraph} {P0 : List CHEdgeList}
    {hs : HittingSet} (hvp : ValidPaths g P0) (hpw : PosWeights P0)
    (hsi : StateInv g P0 hs) :
    (∀ p ∈ hs.paths, ∀ x ∈ p.list, x < g.numEdges) ∧
    (∀ p ∈ hs.paths, 0 < p.weight) := by
  constructor
  · intro p hp x hx
    obtain ⟨i, hi, hieq⟩ := (mem_iff_getD hs.paths ⟨0, []⟩ p).mp hp
    have hi0 : i < P0.length := by rw [← hsi.plen]; exact hi
    rcases hsi.list_eq i hi0 with hll | hll
    · rw [hieq] at hll
      rw [hll] at hx
      exact hvp (P0.getD i ⟨0, []⟩)
        ((mem_iff_getD P0 ⟨0, []⟩ _).mpr ⟨i, hi0, rfl⟩) x hx
    · rw [hieq] at hll
      rw [hll] at hx
      cases hx
  · intro p hp
    obtain ⟨i, hi, hieq⟩ := (mem_iff_getD hs.paths ⟨0, []⟩ p).mp hp
    have hi0 : i < P0.length := by rw [← hsi.plen]; exact hi
    rw [← hieq, hsi.weight_eq i hi0]
    exact hpw (P0.getD i ⟨0, []⟩)
      ((mem_iff_getD P0 ⟨0, []⟩ _).mpr ⟨i, hi0, rfl⟩)

theorem runStep_next_spec {g : ToporderedGraph} {P0 : List CHEdgeList}
    (hval : ValidHS g) (hvp : ValidPaths g P0) (hpw : PosWeights P0)
    {hs : HittingSet} {np fuel : Nat} {hs2 : HittingSet} {np2 : Nat}
    {entry : Nat × Nat}
    (hsi : StateInv g P0 hs)
    (hstep : runStep hs np fuel = StepResult.next hs2 np2 entry) :
    StateInv g P0 hs2 ∧
    entry.1 < g.numNodes ∧
    (∀ i, i < P0.length → (hs2.paths.getD i ⟨0, []⟩).list = [] →
      (hs.paths.getD i ⟨0, []⟩).list ≠ [] →
      entry.1 ∈ pathNodes g (P0.getD i ⟨0, []⟩)) ∧
    nonemptyWeight hs.paths = nonemptyWeight hs2.paths + entry.2 := by
  obtain ⟨mid, occ, hits, hist, hpk, h0, hhp, hscan, hhs2, hnp2, hent⟩ :=
    runStep_next_inv hstep
  have hg : hs.graph = g := hsi.graph_eq
  have hepm : hs.edgePathMap = epmOf g P0 := hsi.epm_eq
  have hplen : hs.paths.length = P0.length := hsi.plen
  obtain ⟨hvpHS, hpwHS⟩ := stateInv_paths_facts hvp hpw hsi
  have hp2 : hs2.paths = (clearHitPaths hs.paths hits).2 := by rw [hhs2]
  have hh2 : hs2.hist = hist := by rw [hhs2]
  have hg2 : hs2.graph = g := by rw [hhs2]; exact hg
  have hepm2 : hs2.edgePathMap = epmOf g P0 := by rw [hhs2]; exact hepm
  have hmid_lt : mid < g.numNodes := by
    unfold pickHitter at hpk
    rcases pickFold_mem _ _ _ hpk with hm | habs
    · have hget : hs.hist.get? mid = some occ := by
        rw [← List.mk_mem_enum_iff_get?]
        exact hm
      have hlt : mid < hs.hist.length := by
        by_contra hge
        rw [List.get?_eq_none.mpr (by omega)] at hget
        cases hget
      rw [hsi.hlen] at hlt
      exact hlt
    · cases habs
  obtain ⟨hnd, hgood⟩ := hitPaths_sound hval hs hg P0 hepm hmid_lt hhp
  have hrange : ∀ i ∈ hits, i < hs.paths.length := by
    intro i hi
    rw [hplen]
    exact (hgood i hi).1
  obtain ⟨hrem, hnlen, hgetD⟩ := clearHitPaths_spec hs.paths hits hnd hrange
  have hnewlen : (clearHitPaths hs.paths hits).2.length = P0.length := by
    rw [hnlen, hplen]
  have hweq : ∀ i, i < P0.length →
      ((clearHitPaths hs.paths hits).2.getD i ⟨0, []⟩).weight =
      (P0.getD i ⟨0, []⟩).weight := by
    intro i hi
    rw [hgetD i]
    by_cases hc : i ∈ hits ∧ (hs.paths.getD i ⟨0, []⟩).list.length ≠ 0
    · rw [if_pos hc]
      exact hsi.weight_eq i hi
    · rw [if_neg hc]
      exact hsi.weight_eq i hi
  have hleq : ∀ i, i < P0.length →
      ((clearHitPaths hs.paths hits).2.getD i ⟨0, []⟩).list =
        (P0.getD i ⟨0, []⟩).list ∨
      ((clearHitPaths hs.paths hits).2.getD i ⟨0, []⟩).list = [] := by
    intro i hi
    rw [hgetD i]
    by_cases hc : i ∈ hits ∧ (hs.paths.getD i ⟨0, []⟩).list.length ≠ 0
    · rw [if_pos hc]
      exact Or.inr rfl
    · rw [if_neg hc]
      exact hsi.list_eq i hi
  have hvpNP : ∀ p ∈ (clearHitPaths hs.paths hits).2, ∀ x ∈ p.list,
      x < g.numEdges := by
    intro p hp x hx
    obtain ⟨i, hi, hieq⟩ :=
      (mem_iff_getD (clearHitPaths hs.paths hits).2 ⟨0, []⟩ p).mp hp
    have hi0 : i < P0.length := by rw [← hnewlen]; exact hi
    rcases hleq i hi0 with hll | hll
    · rw [hieq] at hll
      rw [hll] at hx
      exact hvp (P0.getD i ⟨0, []⟩)
        ((mem_iff_getD P0 ⟨0, []⟩ _).mpr ⟨i, hi0, rfl⟩) x hx
    · rw [hieq] at hll
      rw [hll] at hx
      cases hx
  have hpwNP : ∀ p ∈ (clearHitPaths hs.paths hits).2, 0 < p.weight := by
    intro p hp
    obtain ⟨i, hi, hieq⟩ :=
      (mem_iff_getD (clearHitPaths hs.paths hits).2 ⟨0, []⟩ p).mp hp
    have hi0 : i < P0.length := by rw [← hnewlen]; exact hi
    rw [← hieq, hweq i hi0]
    exact hpw (P0.getD i ⟨0, []⟩)
      ((mem_iff_getD P0 ⟨0, []⟩ _).mpr ⟨i, hi0, rfl⟩)
  have hvpR : ∀ p ∈ (clearHitPaths hs.paths hits).1, ∀ x ∈ p.list,
      x < g.numEdges := by
    intro p hp
    rw [hrem] at hp
    obtain ⟨i, hi, hieq, hne⟩ := removed_mem hp
    intro x hx
    refine hvpHS p ?_ x hx
    rw [← hieq]
    exact (mem_iff_getD hs.paths ⟨0, []⟩ _).mpr ⟨i, hrange i hi, rfl⟩
  have hpwR : ∀ p ∈ (clearHitPaths hs.paths hits).1, 0 < p.weight := by
    intro p hp
    rw [hrem] at hp
    obtain ⟨i, hi, hieq, hne⟩ := removed_mem hp
    refine hpwHS p ?_
    rw [← hieq]
    exact (mem_iff_getD hs.paths ⟨0, []⟩ _).mpr ⟨i, hrange i hi, rfl⟩
  have hsplit : ∀ n, hs.hist.getD n 0 =
      histSpec g (clearHitPaths hs.paths hits).2 n +
      histSpec g (clearHitPaths hs.paths hits).1 n := by
    intro n
    rw [hsi.hist_eq n]
    exact clearHitPaths_sum hs.paths hits (fun p => p.weight * pathOcc g p n)
      (fun w => by
        show w * pathOcc g ⟨w, []⟩ n = 0
        rw [pathOcc_empty, Nat.mul_zero]) hrange
  obtain ⟨hhl, hhd⟩ := scanChoice_spec hval
    {hs with paths := (clearHitPaths hs.paths hits).2} hg
    (clearHitPaths hs.paths hits).1
    (np - (clearHitPaths hs.paths hits).1.length) fuel hist
    hvpNP hpwNP hvpR hpwR hsi.hlen hsplit hscan
  have hsinew : StateInv g P0 hs2 := by
    refine ⟨hg2, hepm2, ?_, ?_, ?_, ?_, ?_⟩
    · rw [hp2]
      exact hnewlen
    · intro i hi
      rw [hp2]
      exact hweq i hi
    · intro i hi
      rw [hp2]
      exact hleq i hi
    · rw [hh2]
      exact hhl
    · intro n
      rw [hh2, hp2]
      exact hhd n
  refine ⟨hsinew, ?_, ?_, ?_⟩
  · rw [hent]
    exact hmid_lt
  · intro i hi hnew hold
    rw [hp2, hgetD i] at hnew
    by_cases hc : i ∈ hits ∧ (hs.paths.getD i ⟨0, []⟩).list.length ≠ 0
    · rw [hent]
      exact (hgood i hc.1).2
    · rw [if_neg hc] at hnew
      exact absurd hnew hold
  · have hsum := clearHitPaths_sum hs.paths hits
      (fun p => if p.list.isEmpty then 0 else p.weight) (fun w => by simp) hrange
    have hremf : ((clearHitPaths hs.paths hits).1.map
        (fun p => if p.list.isEmpty then 0 else p.weight)).sum =
        ((clearHitPaths hs.paths hits).1.map (fun r => r.weight)).sum := by
      congr 1
      refine List.map_congr_left (fun p hp => ?_)
      rw [hrem] at hp
      obtain ⟨i, hi, hieq, hne⟩ := removed_mem hp
      rw [if_neg (fun habs => hne (by
        cases hl2 : p.list with
        | nil => rfl
        | cons a l2 => rw [hl2] at habs; cases habs))]
    rw [hent, hp2]
    have he1 := nonemptyWeight_eq hs.paths
    have he2 := nonemptyWeight_eq (clearHitPaths hs.paths hits).2
    omega

theorem stopState_empty {g : ToporderedGraph} {P0 : List CHEdgeList}
    {hs : HittingSet} (hval : ValidHS g) (hvp : ValidPaths g P0)
    (hpw : PosWeights P0) (hsi : StateInv g P0 hs) {mid : Nat}
    (hpk : pickHitter hs.hist = some (mid, 0)) :
    ∀ i, i < P0.length → (hs.paths.getD i ⟨0, []⟩).list = [] := by
  intro i hi
  by_contra hne
  rcases hsi.list_eq i hi with hll | hll
  swap
  · exact hne hll
  cases hl : (hs.paths.getD i ⟨0, []⟩).list with
  | nil => exact hne hl
  | cons e rest =>
    have hmemP0 : P0.getD i ⟨0, []⟩ ∈ P0 :=
      (mem_iff_getD P0 ⟨0, []⟩ _).mpr ⟨i, hi, rfl⟩
    have heP0 : e ∈ (P0.getD i ⟨0, []⟩).list := by
      rw [← hll, hl]
      exact List.mem_cons_self _ _
    have helt : e < g.numEdges := hvp (P0.getD i ⟨0, []⟩) hmemP0 e heP0
    have hsrc : (g.edge e).source < g.numNodes :=
      (VH_endpoints hval (VH_edge_mem hval helt)).1
    have hallz : ∀ x ∈ hs.hist.enum, x.2 ≤ 0 := by
      unfold pickHitter at hpk
      exact (pickFold_dom _ _ _ hpk).1
    have hzero : hs.hist.getD (g.edge e).source 0 = 0 := by
      have hsl : (g.edge e).source < hs.hist.length := by
        rw [hsi.hlen]
        exact hsrc
      have := hallz _ (mem_enum_getD hsl)
      omega
    have hw : 0 < (hs.paths.getD i ⟨0, []⟩).weight := by
      rw [hsi.weight_eq i hi]
      exact hpw (P0.getD i ⟨0, []⟩) hmemP0
    have hocc : 1 ≤ pathOcc g (hs.paths.getD i ⟨0, []⟩) ((g.edge e).source) := by
      unfold pathOcc
      rw [hl]
      simp
    have hmemHS : hs.paths.getD i ⟨0, []⟩ ∈ hs.paths :=
      (mem_iff_getD hs.paths ⟨0, []⟩ _).mpr ⟨i, by rw [hsi.plen]; exact hi, rfl⟩
    have hterm : (hs.paths.getD i ⟨0, []⟩).weight *
        pathOcc g (hs.paths.getD i ⟨0, []⟩) ((g.edge e).source) ≤
        histSpec g hs.paths ((g.edge e).source) :=
      le_sum_of_mem (fun p => p.weight * pathOcc g p ((g.edge e).source)) hmemHS
    have hone : 1 ≤ (hs.paths.getD i ⟨0, []⟩).weight *
        pathOcc g (hs.paths.getD i ⟨0, []⟩) ((g.edge e).source) :=
      Nat.one_le_iff_ne_zero.mpr (Nat.mul_ne_zero (by omega) (by omega))
    have heq := hsi.hist_eq ((g.edge e).source)
    omega

theorem nonemptyWeight_zero {X : List CHEdgeList}
    (h : ∀ p ∈ X, p.list = []) : nonemptyWeight X = 0 := by
  rw [nonemptyWeight_eq]
  refine sum_map_zero _ _ (fun p hp => ?_)
  rw [if_pos (by rw [h p hp]; rfl)]

theorem accStep {g : ToporderedGraph} {P0 : List CHEdgeList}
    {hs hs3 : HittingSet} {acc : List (Nat × Nat)} {entry : Nat × Nat}
    (hacc : AccInv g P0 hs acc)
    (hcov : ∀ i, i < P0.length → (hs3.paths.getD i ⟨0, []⟩).list = [] →
      (hs.paths.getD i ⟨0, []⟩).list ≠ [] →
      entry.1 ∈ pathNodes g (P0.getD i ⟨0, []⟩))
    (hsum : nonemptyWeight hs.paths = nonemptyWeight hs3.paths + entry.2) :
    AccInv g P0 hs3 (acc ++ [entry]) := by
  refine ⟨?_, ?_⟩
  · intro i hi hnew horig
    by_cases hold : (hs.paths.getD i ⟨0, []⟩).list = []
    · obtain ⟨n, hn, hmem⟩ := hacc.covered i hi hold horig
      refine ⟨n, hn, ?_⟩
      rw [List.map_append, List.mem_append]
      exact Or.inl hmem
    · refine ⟨entry.1, hcov i hi hnew hold, ?_⟩
      rw [List.map_append, List.mem_append]
      right
      exact List.mem_cons_self _ _
  · have h1 := hacc.sums
    rw [List.map_append, List.sum_append]
    simp only [List.map_cons, List.map_nil, List.sum_cons, List.sum_nil]
    omega

theorem runLoop_props {g : ToporderedGraph} {P0 : List CHEdgeList}
    (hval : ValidHS g) (hvp : ValidPaths g P0) (hpw : PosWeights P0) :
    ∀ (fuel : Nat) (hs : HittingSet) (acc : List (Nat × Nat))
      (np iter : Nat) (out : List (Nat × Nat)),
    StateInv g P0 hs → AccInv g P0 hs acc →
    runLoop none fuel hs acc np iter = some out →
    coversAllNonempty g P0 out ∧ absorbedMatchesInput P0 out := by
  intro fuel
  induction fuel with
  | zero =>
    intro hs acc np iter out _ _ hrun
    simp only [runLoop] at hrun
    exact Option.noConfusion hrun
  | succ f ih =>
    intro hs acc np iter out hsi hacc hrun
    simp only [runLoop] at hrun
    cases hstep : runStep hs np (f + 1) with
    | stop =>
      rw [hstep] at hrun
      have hout : some acc = some out := hrun
      simp only [Option.some.injEq] at hout
      obtain ⟨mid, hpk⟩ := runStep_stop_pick hstep
      have hempty := stopState_empty hval hvp hpw hsi hpk
      constructor
      · intro p hp hpne
        obtain ⟨i, hi, hieq⟩ := (mem_iff_getD P0 ⟨0, []⟩ p).mp hp
        obtain ⟨n, hn, hmem⟩ := hacc.covered i hi (hempty i hi)
          (by rw [hieq]; exact hpne)
        rw [← hout, ← hieq]
        exact ⟨n, hn, hmem⟩
      · have hzero : nonemptyWeight hs.paths = 0 := by
          refine nonemptyWeight_zero (fun p hp => ?_)
          obtain ⟨i, hi, hieq⟩ := (mem_iff_getD hs.paths ⟨0, []⟩ p).mp hp
          rw [← hieq]
          exact hempty i (by rw [← hsi.plen]; exact hi)
        have hsums := hacc.sums
        show (out.map (fun x => x.2)).sum = _
        rw [← hout]
        unfold nonemptyWeight at hsums hzero
        omega
    | fail =>
      rw [hstep] at hrun
      cases hrun
    | next hs3 np3 entry =>
      rw [hstep] at hrun
      obtain ⟨hsi3, hmid, hcov, hsum⟩ := runStep_next_spec hval hvp hpw hsi hstep
      have hacc3 : AccInv g P0 hs3 (acc ++ [entry]) :=
        accStep hacc hcov hsum
      exact ih hs3 (acc ++ [entry]) np3 (iter + 1) out hsi3 hacc3 hrun

theorem initialState_state_inv {g : ToporderedGraph} {P0 : List CHEdgeList}
    (hval : ValidHS g) (hvp : ValidPaths g P0) (θ : Nat) :
    StateInv g P0 (initialState g P0 θ) := by
  refine ⟨rfl, rfl, rfl, fun i hi => rfl, fun i hi => Or.inl rfl, ?_, ?_⟩
  · have hsp : (initialState g P0 θ).hist =
        scanEdgesFull g P0 (List.replicate g.numNodes 0) false := rfl
    rw [hsp]
    exact (scanEdgesFull_spec hval P0 hvp (List.replicate g.numNodes 0)
      (List.length_replicate _ _)).1
  · intro n
    have hsp : (initialState g P0 θ).hist =
        scanEdgesFull g P0 (List.replicate g.numNodes 0) false := rfl
    rw [hsp]
    exact (scanEdgesFull_spec hval P0 hvp (List.replicate g.numNodes 0)
      (List.length_replicate _ _)).2 n

theorem initialState_acc_inv (g : ToporderedGraph) (P0 : List CHEdgeList)
    (θ : Nat) : AccInv g P0 (initialState g P0 θ) [] := by
  refine ⟨?_, ?_⟩
  · intro i hi hempty horig
    exact absurd hempty horig
  · show (List.map (fun x : Nat × Nat => x.2) []).sum + nonemptyWeight P0 =
      nonemptyWeight P0
    simp

/-- **C2** (amended): the claim as stated is false for weight-0 input
paths (see the counterexample); under the amendment that every input
path weight is positive, it holds: for every valid meta-DAG graph and
list of weighted CH-compressed paths with positive weights, whenever
`HittingSet::run` without a `maxiter` cap returns an output list, every
input path with a non-empty edge list contains (after full expansion to
base edges) a node that appears in the output list. -/
theorem C2_amended (g : ToporderedGraph) (paths : List CHEdgeList)
    (threshold fuel : Nat) (out : List (Nat × Nat))
    (hg : ValidHS g) (hp : ValidPaths g paths) (hw : PosWeights paths)
    (hrun : runWithMaxiter g paths threshold none fuel = some out) :
    coversAllNonempty g paths out :=
  (runLoop_props hg hp hw fuel (initialState g paths threshold) []
    paths.length 0 out (initialState_state_inv hg hp threshold)
    (initialState_acc_inv g paths threshold) hrun).1

theorem C2_amended_witness :
    ValidHS gTwo ∧ ValidPaths gTwo [⟨1, [0]⟩] ∧ PosWeights [⟨1, [0]⟩] ∧
    runWithMaxiter gTwo [⟨1, [0]⟩] 400000 none 30 = some [(1, 1)] ∧
    coversAllNonempty gTwo [⟨1, [0]⟩] [(1, 1)] :=
  ⟨by decide, by decide, by decide, by decide,
   C2_amended gTwo [⟨1, [0]⟩] 400000 30 [(1, 1)] (by decide) (by decide)
     (by decide) (by decide)⟩

theorem runStep_det {g : ToporderedGraph} {P0 : List CHEdgeList}
    (hval : ValidHS g) (hvp : ValidPaths g P0) (hpw : PosWeights P0)
    {hsA hsB : HittingSet} {np fuel : Nat}
    {hsA2 hsB2 : HittingSet} {npA2 npB2 : Nat} {eA eB : Nat × Nat}
    (hsiA : StateInv g P0 hsA) (hsiB : StateInv g P0 hsB)
    (hpeq : hsA.paths = hsB.paths) (hheq : hsA.hist = hsB.hist)
    (hA : runStep hsA np fuel = StepResult.next hsA2 npA2 eA)
    (hB : runStep hsB np fuel = StepResult.next hsB2 npB2 eB) :
    hsA2.paths = hsB2.paths ∧ hsA2.hist = hsB2.hist ∧ eA = eB ∧ npA2 = npB2 := by
  obtain ⟨midA, occA, hitsA, histA, hpkA, h0A, hhpA, hscanA, hhsA2, hnpA2, hentA⟩ :=
    runStep_next_inv hA
  obtain ⟨midB, occB, hitsB, histB, hpkB, h0B, hhpB, hscanB, hhsB2, hnpB2, hentB⟩ :=
    runStep_next_inv hB
  have hpk2 : some (midA, occA) = some (midB, occB) := by
    rw [← hpkA, ← hpkB, hheq]
  simp only [Option.some.injEq, Prod.mk.injEq] at hpk2
  obtain ⟨hmid, hocc⟩ := hpk2
  have hhp2 : some hitsA = some hitsB := by
    rw [← hhpA, ← hhpB, hmid,
      hitPaths_congr hsA hsB (hsiA.graph_eq.trans hsiB.graph_eq.symm)
        (hsiA.epm_eq.trans hsiB.epm_eq.symm) midB fuel]
  simp only [Option.some.injEq] at hhp2
  have hclear : clearHitPaths hsA.paths hitsA = clearHitPaths hsB.paths hitsB := by
    rw [hpeq, hhp2]
  have hpaths2 : hsA2.paths = hsB2.paths := by
    rw [hhsA2, hhsB2]
    show (clearHitPaths hsA.paths hitsA).2 = (clearHitPaths hsB.paths hitsB).2
    rw [hclear]
  have hent2 : eA = eB := by
    rw [hentA, hentB, hmid, hclear]
  have hnp3 : npA2 = npB2 := by
    rw [hnpA2, hnpB2, hclear]
  obtain ⟨hsiA2, -, -, -⟩ := runStep_next_spec hval hvp hpw hsiA hA
  obtain ⟨hsiB2, -, -, -⟩ := runStep_next_spec hval hvp hpw hsiB hB
  refine ⟨hpaths2, ?_, hent2, hnp3⟩
  refine list_eq_of_getD (by rw [hsiA2.hlen, hsiB2.hlen]) (fun n => ?_)
  rw [hsiA2.hist_eq n, hsiB2.hist_eq n, hpaths2]

theorem iterState_det {g : ToporderedGraph} {P0 : List CHEdgeList}
    (hval : ValidHS g) (hvp : ValidPaths g P0) (hpw : PosWeights P0)
    (θ1 θ2 fuel : Nat) :
    ∀ (k : Nat) (s1 s2 : HittingSet × Nat),
    iterState g P0 θ1 fuel k = some s1 →
    iterState g P0 θ2 fuel k = some s2 →
    StateInv g P0 s1.1 ∧ StateInv g P0 s2.1 ∧
    s1.1.paths = s2.1.paths ∧ s1.1.hist = s2.1.hist ∧ s1.2 = s2.2 := by
  intro k
  induction k with
  | zero =>
    intro s1 s2 h1 h2
    simp only [iterState, Option.some.injEq] at h1 h2
    subst h1
    subst h2
    exact ⟨initialState_state_inv hval hvp θ1, initialState_state_inv hval hvp θ2,
      rfl, rfl, rfl⟩
  | succ k ih =>
    intro s1 s2 h1 h2
    simp only [iterState] at h1 h2
    cases hk1 : iterState g P0 θ1 fuel k with
    | none =>
      rw [hk1] at h1
      exact Option.noConfusion h1
    | some t1 =>
      cases hk2 : iterState g P0 θ2 fuel k with
      | none =>
        rw [hk2] at h2
        exact Option.noConfusion h2
      | some t2 =>
        obtain ⟨hsx, npx⟩ := t1
        obtain ⟨hsy, npy⟩ := t2
        rw [hk1] at h1
        rw [hk2] at h2
        dsimp only at h1 h2
        obtain ⟨hix, hiy, hpeq, hheq, hnpeq⟩ := ih (hsx, npx) (hsy, npy) hk1 hk2
        cases hstep1 : runStep hsx npx fuel with
        | stop =>
          rw [hstep1] at h1
          exact Option.noConfusion h1
        | fail =>
          rw [hstep1] at h1
          exact Option.noConfusion h1
        | next hsx2 npx2 ex =>
          cases hstep2 : runStep hsy npy fuel with
          | stop =>
            rw [hstep2] at h2
            exact Option.noConfusion h2
          | fail =>
            rw [hstep2] at h2
            exact Option.noConfusion h2
          | next hsy2 npy2 ey =>
            rw [hstep1] at h1
            rw [hstep2] at h2
            have h1e : some (hsx2, npx2) = some s1 := h1
            have h2e : some (hsy2, npy2) = some s2 := h2
            simp only [Option.some.injEq] at h1e h2e
            subst h1e
            subst h2e
            have hnp' : npx = npy := hnpeq
            rw [← hnp'] at hstep2
            obtain ⟨hp2, hh2, he2, hnp2⟩ :=
              runStep_det hval hvp hpw hix hiy hpeq hheq hstep1 hstep2
            obtain ⟨hix2, -, -, -⟩ := runStep_next_spec hval hvp hpw hix hstep1
            obtain ⟨hiy2, -, -, -⟩ := runStep_next_spec hval hvp hpw hiy hstep2
            exact ⟨hix2, hiy2, hp2, hh2, hnp2⟩

theorem runLoop_det {g : ToporderedGraph} {P0 : List CHEdgeList}
    (hval : ValidHS g) (hvp : ValidPaths g P0) (hpw : PosWeights P0) :
    ∀ (fuel : Nat) (hsA hsB : HittingSet) (acc : List (Nat × Nat))
      (np iter : Nat) (o1 o2 : List (Nat × Nat)),
    StateInv g P0 hsA → StateInv g P0 hsB →
    hsA.paths = hsB.paths → hsA.hist = hsB.hist →
    runLoop none fuel hsA acc np iter = some o1 →
    runLoop none fuel hsB acc np iter = some o2 → o1 = o2 := by
  intro fuel
  induction fuel with
  | zero =>
    intro hsA hsB acc np iter o1 o2 _ _ _ _ hA _
    simp only [runLoop] at hA
    exact Option.noConfusion hA
  | succ f ih =>
    intro hsA hsB acc np iter o1 o2 hiA hiB hpeq hheq hA hB
    simp only [runLoop] at hA hB
    cases hstepA : runStep hsA np (f + 1) with
    | stop =>
      rw [hstepA] at hA
      have ho1 : some acc = some o1 := hA
      obtain ⟨mid, hpkA⟩ := runStep_stop_pick hstepA
      have hpkB : pickHitter hsB.hist = some (mid, 0) := by
        rw [← hheq]
        exact hpkA
      have hstepB := @runStep_stop_of_pick hsB np (f + 1) mid hpkB
      rw [hstepB] at hB
      have ho2 : some acc = some o2 := hB
      simp only [Option.some.injEq] at ho1 ho2
      rw [← ho1, ← ho2]
    | fail =>
      rw [hstepA] at hA
      have hc : (none : Option (List (Nat × Nat))) = some o1 := hA
      exact Option.noConfusion hc
    | next hsA2 npA2 eA =>
      rw [hstepA] at hA
      cases hstepB : runStep hsB np (f + 1) with
      | stop =>
        obtain ⟨mid, hpkB⟩ := runStep_stop_pick hstepB
        obtain ⟨midA, occA, hitsA, histA, hpkA, h0A, -, -, -, -, -⟩ :=
          runStep_next_inv hstepA
        rw [hheq] at hpkA
        have hc : some (midA, occA) = some (mid, 0) := hpkA.symm.trans hpkB
        simp only [Option.some.injEq, Prod.mk.injEq] at hc
        exact absurd hc.2 h0A
      | fail =>
        rw [hstepB] at hB
        have hc : (none : Option (List (Nat × Nat))) = some o2 := hB
        exact Option.noConfusion hc
      | next hsB2 npB2 eB =>
        rw [hstepB] at hB
        obtain ⟨hp2, hh2, he2, hnp2⟩ :=
          runStep_det hval hvp hpw hiA hiB hpeq hheq hstepA hstepB
        obtain ⟨hiA2, -, -, -⟩ := runStep_next_spec hval hvp hpw hiA hstepA
        obtain ⟨hiB2, -, -, -⟩ := runStep_next_spec hval hvp hpw hiB hstepB
        have hA2 : runLoop none f hsA2 (acc ++ [eA]) npA2 (iter + 1) = some o1 := hA
        have hB2 : runLoop none f hsB2 (acc ++ [eB]) npB2 (iter + 1) = some o2 := hB
        rw [← he2, ← hnp2] at hB2
        exact ih hsA2 hsB2 (acc ++ [eA]) npA2 (iter + 1) o1 o2 hiA2 hiB2 hp2 hh2 hA2 hB2

/-- **C4** (amended): the claim as stated is false for weight-0 input
paths (see the counterexample, where the histograms differ after
iteration 1); under the amendment that every input path weight is
positive, it holds: for every valid meta-DAG graph and list of weighted
CH-compressed paths with positive weights, running with
`adaptive_threshold = usize::MAX` (always the explorative scan) and
with `adaptive_threshold = 0` (always the full scan) yields equal hist
arrays after the initial scan and after every iteration, and equal
output sequences whenever both runs return. -/
theorem C4_amended (g : ToporderedGraph) (paths : List CHEdgeList)
    (fuel : Nat) (hg : ValidHS g) (hp : ValidPaths g paths)
    (hw : PosWeights paths) :
    (∀ (k : Nat) (h1 h2 : List Nat),
      iterHist g paths (2 ^ 64 - 1) fuel k = some h1 →
      iterHist g paths 0 fuel k = some h2 → h1 = h2) ∧
    (∀ o1 o2 : List (Nat × Nat),
      runWithMaxiter g paths (2 ^ 64 - 1) none fuel = some o1 →
      runWithMaxiter g paths 0 none fuel = some o2 → o1 = o2) := by
  constructor
  · intro k h1 h2 hh1 hh2
    unfold iterHist at hh1 hh2
    cases hk1 : iterState g paths (2 ^ 64 - 1) fuel k with
    | none =>
      rw [hk1] at hh1
      exact Option.noConfusion hh1
    | some t1 =>
      cases hk2 : iterState g paths 0 fuel k with
      | none =>
        rw [hk2] at hh2
        exact Option.noConfusion hh2
      | some t2 =>
        obtain ⟨hsx, npx⟩ := t1
        obtain ⟨hsy, npy⟩ := t2
        rw [hk1] at hh1
        rw [hk2] at hh2
        dsimp only at hh1 hh2
        simp only [Option.some.injEq] at hh1 hh2
        obtain ⟨-, -, -, hheq, -⟩ :=
          iterState_det hg hp hw (2 ^ 64 - 1) 0 fuel k (hsx, npx) (hsy, npy) hk1 hk2
        rw [← hh1, ← hh2]
        exact hheq
  · intro o1 o2 h1 h2
    exact runLoop_det hg hp hw fuel (initialState g paths (2 ^ 64 - 1))
      (initialState g paths 0) [] paths.length 0 o1 o2
      (initialState_state_inv hg hp (2 ^ 64 - 1))
      (initialState_state_inv hg hp 0) rfl rfl h1 h2

theorem C4_amended_witness :
    ValidHS gTwo ∧ ValidPaths gTwo [⟨1, [0]⟩] ∧ PosWeights [⟨1, [0]⟩] ∧
    iterHist gTwo [⟨1, [0]⟩] (2 ^ 64 - 1) 30 1 = some [0, 0] ∧
    iterHist gTwo [⟨1, [0]⟩] 0 30 1 = some [0, 0] ∧
    runWithMaxiter gTwo [⟨1, [0]⟩] (2 ^ 64 - 1) none 30 = some [(1, 1)] ∧
    runWithMaxiter gTwo [⟨1, [0]⟩] 0 none 30 = some [(1, 1)] ∧
    ([0, 0] : List Nat) = [0, 0] ∧
    ([(1, 1)] : List (Nat × Nat)) = [(1, 1)] :=
  ⟨by decide, by decide, by decide, by decide, by decide, by decide, by decide,
   (C4_amended gTwo [⟨1, [0]⟩] 30 (by decide) (by decide) (by decide)).1 1
     [0, 0] [0, 0] (by decide) (by decide),
   (C4_amended gTwo [⟨1, [0]⟩] 30 (by decide) (by decide) (by decide)).2
     [(1, 1)] [(1, 1)] (by decide) (by decide)⟩

/-- **C1** (code bug): on the valid CH graph `gWrapC1` (all shortest
base paths lift to up-then-down walks) with `start = 0`, `dest = 1`,
`ch_search_multi` returns distance 25 with the path `[e0, e1, e3]`,
although that path's true cost is `2^32 + 25` and every walk from
node 0 starts with an edge of cost at least `2^31`, so no walk costs
25: the wrapping u32 additions (release-mode Rust) corrupt the
stall-on-demand test and the meeting-point cost, and the returned
distance is not the minimum walk cost (which is `2^31 + 30`). -/
theorem C1_code_eval :
    chSearchMulti gWrapC1 [0] [1] 20 = some (some (25, [0, 1, 3])) ∧
    (([0, 1, 3].map (fun e => (gWrapC1.edge e).cost)).sum = 2 ^ 32 + 25) ∧
    (∀ e ∈ gWrapC1.edges, e.source = 0 → 2 ^ 31 ≤ e.cost) ∧
    25 < 2 ^ 31 :=
  ⟨by decide, by decide, by decide, by decide⟩

theorem getD_map_range {α β : Type} (d : α) (f : α → β) :
    ∀ (X : List α), X.map f = (List.range X.length).map (fun i => f (X.getD i d)) := by
  intro X
  induction X with
  | nil => rfl
  | cons x xs ih =>
    rw [List.length_cons, List.range_succ_eq_map, List.map_cons, List.map_cons,
      List.map_map]
    show f x :: xs.map f = f x ::
      (List.range xs.length).map ((fun i => f ((x :: xs).getD i d)) ∘ Nat.succ)
    rw [ih]
    rfl

theorem sum_map_split (l : List Nat) (F G H : Nat → Nat)
    (h : ∀ i ∈ l, F i = G i + H i) :
    (l.map F).sum = (l.map G).sum + (l.map H).sum := by
  induction l with
  | nil => rfl
  | cons a t ih =>
    simp only [List.map_cons, List.sum_cons]
    rw [h a (List.mem_cons_self a t), ih (fun i hi => h i (List.mem_cons_of_mem a hi))]
    omega

theorem cleared_split {P0 old new : List CHEdgeList}
    (hol : old.length = P0.length) (hnl : new.length = P0.length)
    (hpoint : ∀ i, i < P0.length →
      (if (old.getD i ⟨0, []⟩).list.isEmpty then 0 else (old.getD i ⟨0, []⟩).weight) =
      (if (new.getD i ⟨0, []⟩).list.isEmpty then 0 else (new.getD i ⟨0, []⟩).weight) +
      (if (old.getD i ⟨0, []⟩).list ≠ [] ∧ (new.getD i ⟨0, []⟩).list = []
       then (P0.getD i ⟨0, []⟩).weight else 0)) :
    nonemptyWeight old = nonemptyWeight new + firstClearedWeight P0 old new := by
  rw [nonemptyWeight_eq old, nonemptyWeight_eq new,
    getD_map_range (⟨0, []⟩ : CHEdgeList)
      (fun p => if p.list.isEmpty then 0 else p.weight) old,
    getD_map_range (⟨0, []⟩ : CHEdgeList)
      (fun p => if p.list.isEmpty then 0 else p.weight) new,
    hol, hnl]
  exact sum_map_split (List.range P0.length) _ _ _
    (fun i hi => hpoint i (List.mem_range.mp hi))

theorem runStep_firstCleared {g : ToporderedGraph} {P0 : List CHEdgeList}
    (hval : ValidHS g) (hvp : ValidPaths g P0) (hpw : PosWeights P0)
    {hs : HittingSet} {np fuel : Nat} {hs2 : HittingSet} {np2 : Nat}
    {entry : Nat × Nat}
    (hsi : StateInv g P0 hs)
    (hstep : runStep hs np fuel = StepResult.next hs2 np2 entry) :
    entry.2 = firstClearedWeight P0 hs.paths hs2.paths := by
  obtain ⟨mid, occ, hits, hist, hpk, h0, hhp, hscan, hhs2, hnp2, hent⟩ :=
    runStep_next_inv hstep
  have hg : hs.graph = g := hsi.graph_eq
  have hepm : hs.edgePathMap = epmOf g P0 := hsi.epm_eq
  have hplen : hs.paths.length = P0.length := hsi.plen
  have hp2 : hs2.paths = (clearHitPaths hs.paths hits).2 := by rw [hhs2]
  have hmid_lt : mid < g.numNodes := by
    unfold pickHitter at hpk
    rcases pickFold_mem _ _ _ hpk with hm | habs
    · have hget : hs.hist.get? mid = some occ := by
        rw [← List.mk_mem_enum_iff_get?]
        exact hm
      have hlt : mid < hs.hist.length := by
        by_contra hge
        rw [List.get?_eq_none.mpr (by omega)] at hget
        cases hget
      rw [hsi.hlen] at hlt
      exact hlt
    · cases habs
  obtain ⟨hnd, hgood⟩ := hitPaths_sound hval hs hg P0 hepm hmid_lt hhp
  have hrange : ∀ i ∈ hits, i < hs.paths.length := by
    intro i hi
    rw [hplen]
    exact (hgood i hi).1
  obtain ⟨hrem, hnlen, hgetD⟩ := clearHitPaths_spec hs.paths hits hnd hrange
  have hsum := (runStep_next_spec hval hvp hpw hsi hstep).2.2.2
  have hkey : nonemptyWeight hs.paths =
      nonemptyWeight hs2.paths + firstClearedWeight P0 hs.paths hs2.paths := by
    refine cleared_split hplen (by rw [hp2, hnlen, hplen]) ?_
    intro i hi
    rw [hp2, hgetD i]
    by_cases hc : i ∈ hits ∧ (hs.paths.getD i ⟨0, []⟩).list.length ≠ 0
    · rw [if_pos hc]
      have ho : (hs.paths.getD i ⟨0, []⟩).list ≠ [] := by
        intro hq
        exact hc.2 (by rw [hq]; rfl)
      have hne : ¬ ((hs.paths.getD i ⟨0, []⟩).list.isEmpty = true) := by
        simpa [List.isEmpty_iff] using ho
      have h1 : ((⟨(hs.paths.getD i ⟨0, []⟩).weight, []⟩ : CHEdgeList)).list.isEmpty
          = true := rfl
      have h2 : ((⟨(hs.paths.getD i ⟨0, []⟩).weight, []⟩ : CHEdgeList)).list = [] := rfl
      rw [if_neg hne, if_pos h1, if_pos ⟨ho, h2⟩, hsi.weight_eq i hi]
      omega
    · rw [if_neg hc]
      have hcontra : ¬ ((hs.paths.getD i ⟨0, []⟩).list ≠ [] ∧
          (hs.paths.getD i ⟨0, []⟩).list = []) := fun hx => hx.1 hx.2
      rw [if_neg hcontra]
      omega
  omega

theorem iterState_inv {g : ToporderedGraph} {P0 : List CHEdgeList}
    (hval : ValidHS g) (hvp : ValidPaths g P0) (hpw : PosWeights P0)
    (θ fuel : Nat) :
    ∀ (k : Nat) (hs : HittingSet) (np : Nat),
    iterState g P0 θ fuel k = some (hs, np) → StateInv g P0 hs := by
  intro k
  induction k with
  | zero =>
    intro hs np h
    simp only [iterState, Option.some.injEq, Prod.mk.injEq] at h
    rw [← h.1]
    exact initialState_state_inv hval hvp θ
  | succ k ih =>
    intro hs np h
    simp only [iterState] at h
    cases hk : iterState g P0 θ fuel k with
    | none =>
      rw [hk] at h
      exact Option.noConfusion h
    | some t =>
      obtain ⟨hs1, np1⟩ := t
      rw [hk] at h
      dsimp only at h
      cases hstep : runStep hs1 np1 fuel with
      | stop =>
        rw [hstep] at h
        exact Option.noConfusion h
      | fail =>
        rw [hstep] at h
        exact Option.noConfusion h
      | next hs2 np2 e =>
        rw [hstep] at h
        have he : some (hs2, np2) = some (hs, np) := h
        simp only [Option.some.injEq, Prod.mk.injEq] at he
        rw [← he.1]
        exact (runStep_next_spec hval hvp hpw (ih hs1 np1 hk) hstep).1

theorem iterObs_step {g : ToporderedGraph} {P0 : List CHEdgeList}
    {θ fuel k : Nat} {P1 P2 : List CHEdgeList} {entry : Nat × Nat}
    (h1 : iterPaths g P0 θ fuel k = some P1)
    (h2 : iterPaths g P0 θ fuel (k + 1) = some P2)
    (he : iterEntry g P0 θ fuel k = some entry) :
    ∃ hs np hs2 np2,
      iterState g P0 θ fuel k = some (hs, np) ∧
      runStep hs np fuel = StepResult.next hs2 np2 entry ∧
      hs.paths = P1 ∧ hs2.paths = P2 := by
  unfold iterPaths at h1 h2
  unfold iterEntry at he
  cases hk : iterState g P0 θ fuel k with
  | none =>
    rw [hk] at h1
    exact Option.noConfusion h1
  | some t =>
    obtain ⟨hs, np⟩ := t
    rw [hk] at h1 he
    dsimp only at h1 he
    simp only [Option.some.injEq] at h1
    cases hstep : runStep hs np fuel with
    | stop =>
      rw [hstep] at he
      exact Option.noConfusion he
    | fail =>
      rw [hstep] at he
      exact Option.noConfusion he
    | next hs2 np2 e =>
      rw [hstep] at he
      have he2 : some e = some entry := he
      simp only [Option.some.injEq] at he2
      subst he2
      simp only [iterState] at h2
      rw [hk] at h2
      dsimp only at h2
      rw [hstep] at h2
      have h2e : some hs2.paths = some P2 := h2
      simp only [Option.some.injEq] at h2e
      exact ⟨hs, np, hs2, np2, rfl, hstep, h1, h2e⟩

/-- **C3** (amended): the claim as stated is false for weight-0 input
paths (see the counterexample); under the amendment that every input
path weight is positive, both of its parts hold: for every valid
meta-DAG graph and list of weighted CH-compressed paths with positive
weights, whenever `HittingSet::run` without a `maxiter` cap returns an
output list, (1) the sum of the `absorbed_weight` components over the
output entries equals the sum of the weights of the input paths with
non-empty edge lists, and (2) the entry the loop produces at every
iteration carries as its `absorbed_weight` exactly the total weight of
the input paths first cleared at that iteration (stored non-empty
before the step, empty after it). -/
theorem C3_amended (g : ToporderedGraph) (paths : List CHEdgeList)
    (threshold fuel : Nat) (out : List (Nat × Nat))
    (hg : ValidHS g) (hp : ValidPaths g paths) (hw : PosWeights paths)
    (hrun : runWithMaxiter g paths threshold none fuel = some out) :
    absorbedMatchesInput paths out ∧
    (∀ (k : Nat) (P1 P2 : List CHEdgeList) (entry : Nat × Nat),
      iterPaths g paths threshold fuel k = some P1 →
      iterPaths g paths threshold fuel (k + 1) = some P2 →
      iterEntry g paths threshold fuel k = some entry →
      entry.2 = firstClearedWeight paths P1 P2) := by
  constructor
  · exact (runLoop_props hg hp hw fuel (initialState g paths threshold) []
      paths.length 0 out (initialState_state_inv hg hp threshold)
      (initialState_acc_inv g paths threshold) hrun).2
  · intro k P1 P2 entry h1 h2 he
    obtain ⟨hs, np, hs2, np2, hk, hstep, hpp1, hpp2⟩ := iterObs_step h1 h2 he
    have hsi := iterState_inv hg hp hw threshold fuel k hs np hk
    have hfc := runStep_firstCleared hg hp hw hsi hstep
    rw [← hpp1, ← hpp2]
    exact hfc

theorem C3_amended_witness :
    ValidHS gTwo ∧ ValidPaths gTwo [⟨1, [0]⟩] ∧ PosWeights [⟨1, [0]⟩] ∧
    runWithMaxiter gTwo [⟨1, [0]⟩] 400000 none 30 = some [(1, 1)] ∧
    absorbedMatchesInput [⟨1, [0]⟩] [(1, 1)] ∧
    iterPaths gTwo [⟨1, [0]⟩] 400000 30 0 = some [⟨1, [0]⟩] ∧
    iterPaths gTwo [⟨1, [0]⟩] 400000 30 1 = some [⟨1, []⟩] ∧
    iterEntry gTwo [⟨1, [0]⟩] 400000 30 0 = some (1, 1) ∧
    (1, 1).2 = firstClearedWeight [⟨1, [0]⟩] [⟨1, [0]⟩] [⟨1, []⟩] :=
  ⟨by decide, by decide, by decide, by decide,
   (C3_amended gTwo [⟨1, [0]⟩] 400000 30 [(1, 1)] (by decide) (by decide)
     (by decide) (by decide)).1,
   by decide, by decide, by decide,
   (C3_amended gTwo [⟨1, [0]⟩] 400000 30 [(1, 1)] (by decide) (by decide)
     (by decide) (by decide)).2 0 [⟨1, [0]⟩] [⟨1, []⟩] (1, 1)
     (by decide) (by decide) (by decide)⟩

end Garp
